import Mathlib

/-!
# Verification of the ember hierarchical graph-layout engine

This file gives a shallow embedding, in Lean 4, of `src/ember/graph/layout.py`
(the Sugiyama-style layout engine of the `ember` project) and proves / refutes
the frozen claims about it.

Modelling conventions:

* Python `int` is modelled by `Int` (graph rows/columns by `Nat` where the
  source only ever produces non-negative values); Python floor division `//`
  is `Int.fdiv`.
* A Python `dict` is an association list (`List (k × v)`); `d[k] = v` keeps
  the original position of an existing key and appends a fresh key at the end,
  exactly like CPython's insertion-ordered dicts, and `d[k]` raises `KeyError`
  for a missing key, modelled by `Except String`.
* Python list indexing `l[i]` wraps negative indices (`l[-1]` is the last
  element) and raises `IndexError` out of range; `pyGet`/`pySet` model this.
* Exceptions (`KeyError`, `IndexError`, `TypeError`, `AssertionError`) are
  modelled by `Except String`; a raised exception aborts `layout` with no
  partial result, exactly as in Python.
* `networkx` is a third-party library.  The calls the source makes are
  modelled from networkx's documented behaviour:
  `networkx.strongly_connected_components` yields the SCCs of the graph as
  Python `set` objects, and `networkx.topological_sort` yields a topological
  ordering of an acyclic graph (Kahn's algorithm).  Crucially, because the
  SCCs are `set`s, the source line
  `indexed_sccs = {scc: idx for (idx, scc) in enumerate(sccs)}`
  raises `TypeError: unhashable type: 'set'` whenever `sccs` is non-empty,
  i.e. whenever the input graph has a strongly connected component with more
  than one node.  The embedding models this faithfully.
-/

namespace Ember

/-- Nodes are opaque hashable identifiers supplied by the caller; we model
them as natural numbers. -/
abbrev Node := Nat

/-- `EdgeIndex` (lane index inside a grid cell). -/
abbrev EdgeIndex := Nat

/-- The `Move` enum from layout.py: `LEFT = 0`, `NA = 1`, `RIGHT = 2`. -/
inductive Move where
  | LEFT
  | NA
  | RIGHT
deriving DecidableEq, Repr

/-- The numeric `.value` of a `Move` member. -/
def Move.value : Move → Nat
  | .LEFT => 0
  | .NA => 1
  | .RIGHT => 2

/-- `Edge` dataclass: an ordered pair of nodes. -/
structure Edge where
  src : Node
  dst : Node
deriving DecidableEq, Repr

/-- `Point` dataclass: a scene coordinate. -/
structure Point where
  x : Int
  y : Int
deriving DecidableEq, Repr

/-- `EdgeCoord` dataclass: a grid coordinate of an edge segment plus its
lane index inside the cell. -/
structure EdgeCoord where
  col : Int
  row : Int
  idx : EdgeIndex
deriving DecidableEq, Repr

/-- `GridIndex` dataclass: a grid address. -/
structure GridIndex where
  col : Int
  row : Int
deriving DecidableEq, Repr

/-- `NodeSize` dataclass. -/
structure NodeSize where
  width : Int
  height : Int
deriving DecidableEq, Repr

/-- `LayoutOptions` dataclass. -/
structure LayoutOptions where
  x_margin : Int := 10
  y_margin : Int := 5
  row_margin : Int := 16
  col_margin : Int := 16
deriving DecidableEq, Repr

/-- `DEFAULT_LAYOUT = LayoutOptions()`. -/
def DEFAULT_LAYOUT : LayoutOptions := {}

/-- `SegmentedEdge` dataclass.  `moves`, `points` and `coordinates` grow by
in-place mutation in the source; the whole record is mutated through aliases
(the routing grids, `in_edges`/`out_edges` and the routed-edge list all refer
to one object), which the embedding models by storing `SegmentedEdge`s in one
master array indexed by edge ids. -/
structure SegmentedEdge where
  src : Node
  dst : Node
  start_index : Option EdgeIndex := none
  max_start_index : EdgeIndex := 0
  end_index : Option EdgeIndex := none
  max_end_index : Option EdgeIndex := none
  points : List EdgeCoord := []
  moves : List Move := []
  coordinates : List Point := []
deriving DecidableEq, Repr

/-- `SegmentedEdge.first_move`. -/
def SegmentedEdge.first_move (e : SegmentedEdge) : Move :=
  match e.moves with
  | [] => .NA
  | m :: _ => m

/-- `SegmentedEdge.last_move`. -/
def SegmentedEdge.last_move (e : SegmentedEdge) : Move :=
  match e.moves.getLast? with
  | none => .NA
  | some m => m

/-- `SegmentedEdge.add_coord`: append a scene point to the polyline, merging
runs of collinear points by replacing the last point. -/
def addCoord (coordinates : List Point) (pt : Point) : List Point :=
  match coordinates.dropLast.getLast?, coordinates.getLast? with
  | some a, some b =>
    if b.x = a.x ∧ a.x = pt.x then
      coordinates.dropLast ++ [pt]
    else if b.y = a.y ∧ a.y = pt.y then
      coordinates.dropLast ++ [pt]
    else
      coordinates ++ [pt]
  | _, _ => coordinates ++ [pt]

/-- `LayoutResult` dataclass: final node anchors and edge polylines.  The
edge map is an insertion-ordered dict, modelled as an association list. -/
structure LayoutResult where
  nodes : List (Node × Point)
  edges : List (Edge × List Point)
deriving DecidableEq, Repr

/-! ## Python dict and list primitives -/

/-- Python dict assignment `d[k] = v`: replaces in place, or appends a new
key at the end (CPython dicts preserve insertion order). -/
def dictSet {α β : Type} [DecidableEq α] (d : List (α × β)) (k : α) (v : β) :
    List (α × β) :=
  if d.any (fun kv => kv.1 = k) then
    d.map (fun kv => if kv.1 = k then (k, v) else kv)
  else
    d ++ [(k, v)]

/-- Python `k in d` / `d.get(k)`. -/
def dictGet? {α β : Type} [DecidableEq α] (d : List (α × β)) (k : α) :
    Option β :=
  (d.find? (fun kv => kv.1 = k)).map (·.2)

/-- Python `d[k]`, raising `KeyError` when missing. -/
def dictGetE {α β : Type} [DecidableEq α] (d : List (α × β)) (k : α) :
    Except String β :=
  match dictGet? d k with
  | some v => .ok v
  | none => .error "KeyError"

/-- Python list read `l[i]` with negative-index wrap-around and `IndexError`
out of range. -/
def pyGet {α : Type} (l : List α) (i : Int) : Except String α :=
  let n : Int := l.length
  let j := if i < 0 then i + n else i
  if 0 ≤ j ∧ j < n then
    match l.get? j.toNat with
    | some a => .ok a
    | none => .error "IndexError"
  else
    .error "IndexError"

/-- Python list write `l[i] = v` with negative-index wrap-around. -/
def pySet {α : Type} (l : List α) (i : Int) (v : α) : Except String (List α) :=
  let n : Int := l.length
  let j := if i < 0 then i + n else i
  if 0 ≤ j ∧ j < n then
    .ok (l.set j.toNat v)
  else
    .error "IndexError"

/-! ## Directed graphs

A `networkx.DiGraph` is insertion ordered: `nodes()` iterates nodes in the
order they were first added and `edges()` iterates edges grouped by source in
that same order.  We model a graph by its two iteration sequences. -/

/-- A directed graph: node iteration order and edge iteration order.
Well-formedness (`DiGraph.WF`) is what networkx guarantees for any real
graph object. -/
structure DiGraph where
  nodes : List Node
  edges : List (Node × Node)
deriving DecidableEq, Repr

/-- What `networkx` guarantees of every `DiGraph` object: node and edge lists
have no duplicates and every edge endpoint is a node.  networkx additionally
guarantees that `edges()` iterates grouped by source (it walks the adjacency
dict source by source); `WF` deliberately omits that, so the universal
theorems below hold of a superset of the realizable graphs.  The separate
predicate `DiGraph.edgesGroupedBySource` captures the grouping, and any
concrete graph used to exhibit a behaviour of the program satisfies it. -/
structure DiGraph.WF (g : DiGraph) : Prop where
  nodes_nodup : g.nodes.Nodup
  edges_nodup : g.edges.Nodup
  edge_mem : ∀ e ∈ g.edges, e.1 ∈ g.nodes ∧ e.2 ∈ g.nodes

/-- Collapse consecutive runs of equal elements to a single element. -/
def collapseRuns : List Node → List Node
  | [] => []
  | [x] => [x]
  | x :: y :: r =>
    if x = y then collapseRuns (y :: r) else x :: collapseRuns (y :: r)

/-- The edge list is grouped by source: all edges out of one source are
contiguous.  Every edge sequence produced by `networkx`'s `edges()` has this
shape (the adjacency dict is walked source by source, in node insertion
order, with each source's targets in edge insertion order); conversely every
grouped list is produced by inserting the nodes in group order and the edges
in list order, so exactly the grouped lists are realizable program inputs. -/
def DiGraph.edgesGroupedBySource (g : DiGraph) : Prop :=
  (collapseRuns (g.edges.map (·.1))).Nodup

instance (g : DiGraph) : Decidable g.edgesGroupedBySource := by
  unfold DiGraph.edgesGroupedBySource
  exact inferInstance

/-- `g.successors(u)` in adjacency order. -/
def DiGraph.successors (g : DiGraph) (u : Node) : List Node :=
  (g.edges.filter (fun e => e.1 = u)).map (·.2)

/-- `g.predecessors(u)`. -/
def DiGraph.predecessors (g : DiGraph) (u : Node) : List Node :=
  (g.edges.filter (fun e => e.2 = u)).map (·.1)

/-- `g.out_degree(u)`. -/
def DiGraph.outDegree (g : DiGraph) (u : Node) : Nat :=
  (g.edges.filter (fun e => e.1 = u)).length

/-- `g.in_degree(u)`. -/
def DiGraph.inDegree (g : DiGraph) (u : Node) : Nat :=
  (g.edges.filter (fun e => e.2 = u)).length

/-! ## Reachability

`networkx.strongly_connected_components` partitions the nodes into classes of
mutual reachability.  The source only ever asks whether some class has more
than one element, which holds exactly when two distinct mutually reachable
nodes exist; we decide that with a fuelled transitive-closure computation. -/

/-- One saturation step: add the successors of every node already in `s`. -/
def closureStep (edges : List (Node × Node)) (s : List Node) : List Node :=
  (s ++ (edges.filter (fun e => e.1 ∈ s)).map (·.2)).dedup

/-- `k` saturation steps. -/
def closureN (edges : List (Node × Node)) : Nat → List Node → List Node
  | 0, s => s
  | k + 1, s => closureN edges k (closureStep edges s)

/-- Decidable reachability (by a directed path, possibly empty). -/
def reachableB (g : DiGraph) (u v : Node) : Bool :=
  v ∈ closureN g.edges (g.nodes.length + g.edges.length + 1) [u]

/-- `IsPath edges u v p`: `p` lists the successive nodes after `u` on a
directed path from `u` to `v` (`p = []` means `u = v`). -/
def IsPath (edges : List (Node × Node)) : Node → Node → List Node → Prop
  | u, v, [] => u = v
  | u, v, w :: p => (u, w) ∈ edges ∧ IsPath edges w v p

/-- Does some strongly connected component of `g` have more than one node?
This is exactly the condition under which the source's
`sccs = [scc for scc in networkx.strongly_connected_components(dg) if len(scc) > 1]`
is a non-empty list of Python `set` objects. -/
def hasMultiNodeSCC (g : DiGraph) : Bool :=
  g.nodes.any (fun u => g.nodes.any (fun v =>
    decide (u ≠ v) && reachableB g u v && reachableB g v u))

/-- Some node of `g` lies on a directed cycle of length ≥ 1 (self-loops
included).  `hasCycleB g = false` states that `g` is acyclic. -/
def hasCycleB (g : DiGraph) : Bool :=
  g.edges.any (fun e => reachableB g e.2 e.1)

/-! ## `networkx.topological_sort`

Modelled from the library's documented behaviour: Kahn's algorithm, emitting
some node with no incoming edge from the not-yet-emitted nodes, raising
`NetworkXUnfeasible` if none exists. -/

/-- Does `v` have no incoming edge from `remaining`? -/
def noIncoming (edges : List (Node × Node)) (remaining : List Node)
    (v : Node) : Bool :=
  !(remaining.any (fun u => edges.contains (u, v)))

/-- Fuelled Kahn loop. -/
def kahnAux (edges : List (Node × Node)) :
    Nat → List Node → Except String (List Node)
  | 0, remaining =>
    if remaining.isEmpty then .ok [] else .error "NetworkXUnfeasible"
  | k + 1, remaining =>
    if remaining.isEmpty then .ok []
    else
      match remaining.find? (noIncoming edges remaining) with
      | none => .error "NetworkXUnfeasible"
      | some v => do
          let rest ← kahnAux edges k (remaining.erase v)
          return v :: rest

/-- Models `networkx.topological_sort` of an insertion-ordered digraph. -/
def topologicalSortNX (g : DiGraph) : Except String (List Node) :=
  kahnAux g.edges g.nodes.length g.nodes

/-! ## `quasi_topological_sort` -/

/-- `networkx.DiGraph.add_edge` inserts missing endpoints in order. -/
def addEdgeNodes (acc : List Node) (e : Node × Node) : List Node :=
  let acc1 := if e.1 ∈ acc then acc else acc ++ [e.1]
  if e.2 ∈ acc1 then acc1 else acc1 ++ [e.2]

/-- `networkx.DiGraph.add_node` inserts a missing node at the end. -/
def addNode (acc : List Node) (n : Node) : List Node :=
  if n ∈ acc then acc else acc ++ [n]

/-- `quasi_topological_sort` (layout.py lines 257-324).

The fast path returns for single-node graphs.  Otherwise the source computes
`sccs`, the networkx SCCs of size > 1 (Python `set` objects), and immediately
executes `indexed_sccs = {scc: idx for (idx, scc) in enumerate(sccs)}`, which
raises `TypeError: unhashable type: 'set'` as soon as `sccs` is non-empty,
because a `set` cannot be a dict key.  Consequently every graph containing a
cycle of length ≥ 2 raises, and on the surviving path no `SCCPlaceholder` is
ever created: `dg_copy` receives every edge whose endpoints differ, plus the
degree-zero "loners", and is topologically sorted. -/
def quasiTopologicalSort (dg : DiGraph) : Except String (List Node) :=
  if dg.nodes.length = 1 then .ok dg.nodes
  else if hasMultiNodeSCC dg then .error "TypeError: unhashable type: 'set'"
  else
    let copyEdges := dg.edges.filter (fun e => !(e.1 == e.2))
    let copyNodes := copyEdges.foldl addEdgeNodes []
    let loners := dg.nodes.filter
      (fun n => dg.outDegree n == 0 && dg.inDegree n == 0)
    let dgCopy : DiGraph := ⟨loners.foldl addNode copyNodes, copyEdges⟩
    topologicalSortNX dgCopy

/-! ## Reachability lemmas -/

theorem mem_closureStep_self {edges : List (Node × Node)} {s : List Node}
    {a : Node} (h : a ∈ s) : a ∈ closureStep edges s := by
  simp only [closureStep, List.mem_dedup, List.mem_append]
  exact .inl h

theorem closureStep_mono {edges : List (Node × Node)} {s t : List Node}
    (h : s ⊆ t) : closureStep edges s ⊆ closureStep edges t := by
  intro x hx
  simp only [closureStep, List.mem_dedup, List.mem_append, List.mem_map,
    List.mem_filter, decide_eq_true_eq] at hx ⊢
  rcases hx with hx | ⟨e, ⟨he, hs⟩, hx⟩
  · exact .inl (h hx)
  · exact .inr ⟨e, ⟨he, h hs⟩, hx⟩

theorem closureN_mono_set {edges : List (Node × Node)} :
    ∀ (k : Nat) {s t : List Node}, s ⊆ t →
      closureN edges k s ⊆ closureN edges k t
  | 0, _, _, h => h
  | k + 1, _, _, h => closureN_mono_set k (closureStep_mono h)

theorem mem_closureN_of_mem {edges : List (Node × Node)} :
    ∀ (k : Nat) {s : List Node} {a : Node}, a ∈ s → a ∈ closureN edges k s
  | 0, _, _, h => h
  | k + 1, _, _, h => mem_closureN_of_mem k (mem_closureStep_self h)

theorem step_mem_closureStep {edges : List (Node × Node)} {s : List Node}
    {a b : Node} (he : (a, b) ∈ edges) (ha : a ∈ s) :
    b ∈ closureStep edges s := by
  simp only [closureStep, List.mem_dedup, List.mem_append, List.mem_map,
    List.mem_filter, decide_eq_true_eq]
  exact .inr ⟨(a, b), ⟨he, ha⟩, rfl⟩

theorem closureN_sound {edges : List (Node × Node)} :
    ∀ (k : Nat) {s : List Node} {v : Node}, v ∈ closureN edges k s →
      ∃ u ∈ s, ∃ p, IsPath edges u v p := by
  intro k
  induction k with
  | zero => exact fun hv => ⟨_, hv, [], rfl⟩
  | succ k ih =>
    intro s v hv
    obtain ⟨u, hu, p, hp⟩ := ih hv
    simp only [closureStep, List.mem_dedup, List.mem_append, List.mem_map,
      List.mem_filter, decide_eq_true_eq] at hu
    rcases hu with hu | ⟨e, ⟨he, hs⟩, hx⟩
    · exact ⟨u, hu, p, hp⟩
    · exact ⟨e.1, hs, e.2 :: p, by rw [← hx] at hp; exact ⟨he, hp⟩⟩

theorem isPath_append {edges : List (Node × Node)} {v w : Node}
    {q : List Node} (hq : IsPath edges v w q) :
    ∀ (p : List Node) (u : Node), IsPath edges u v p →
      IsPath edges u w (p ++ q)
  | [], u, hp => by cases hp; exact hq
  | _ :: p, _, hp => ⟨hp.1, isPath_append hq p _ hp.2⟩

theorem isPath_drop {edges : List (Node × Node)} {v : Node} :
    ∀ (r : List Node) (u x : Node) (t : List Node),
      IsPath edges u v (r ++ x :: t) → IsPath edges x v t
  | [], _, _, _, h => h.2
  | _ :: r, _, x, t, h => isPath_drop r _ x t h.2

theorem isPath_mem_target {edges : List (Node × Node)} {v : Node} :
    ∀ (p : List Node) (u : Node), IsPath edges u v p →
      ∀ x ∈ p, ∃ e ∈ edges, e.2 = x
  | [], _, _, x, hx => absurd hx (List.not_mem_nil x)
  | w :: p, u, h, x, hx => by
    rcases List.mem_cons.mp hx with rfl | hx
    · exact ⟨(u, x), h.1, rfl⟩
    · exact isPath_mem_target p w h.2 x hx

theorem isPath_shorten {edges : List (Node × Node)} :
    ∀ (p : List Node) (u v : Node), IsPath edges u v p →
      ∃ q, IsPath edges u v q ∧ (u :: q).Nodup ∧ ∀ x ∈ q, x ∈ p
  | [], u, v, h => ⟨[], h, List.nodup_singleton u, by simp⟩
  | w :: p', u, v, h => by
    obtain ⟨q', hq', hnodup, hsub⟩ := isPath_shorten p' w v h.2
    by_cases hu : u ∈ w :: q'
    · rcases List.mem_cons.mp hu with rfl | huq
      · exact ⟨q', hq', hnodup,
          fun x hx => List.mem_cons_of_mem _ (hsub x hx)⟩
      · obtain ⟨r, t, rfl⟩ := List.append_of_mem huq
        refine ⟨t, isPath_drop r w u t hq', ?_, ?_⟩
        · have h1 : (u :: t).Sublist (r ++ u :: t) :=
            (List.sublist_append_right r (u :: t))
          exact List.Nodup.sublist h1 (List.Nodup.of_cons hnodup)
        · intro x hx
          exact List.mem_cons_of_mem _ (hsub x (by simp [hx]))
    · refine ⟨w :: q', ⟨h.1, hq'⟩, ?_, ?_⟩
      · exact List.nodup_cons.mpr ⟨hu, hnodup⟩
      · intro x hx
        rcases List.mem_cons.mp hx with rfl | hx
        · exact List.mem_cons_self _ _
        · exact List.mem_cons_of_mem _ (hsub x hx)

theorem reachableB_complete {g : DiGraph} (hWF : g.WF) {u v : Node}
    (hu : u ∈ g.nodes) {p : List Node} (hp : IsPath g.edges u v p) :
    reachableB g u v = true := by
  obtain ⟨q, hq, hnodup, _⟩ := isPath_shorten p u v hp
  have hsub : (u :: q) ⊆ g.nodes := by
    intro x hx
    rcases List.mem_cons.mp hx with rfl | hx
    · exact hu
    · obtain ⟨e, he, rfl⟩ := isPath_mem_target q u hq x hx
      exact (hWF.edge_mem e he).2
  have hlen : (u :: q).length ≤ g.nodes.length :=
    (List.subperm_of_subset hnodup hsub).length_le
  simp only [reachableB, decide_eq_true_eq]
  exact closureN_mono_set _ (by simp)
    (closureN_complete q u v hq _ (by simp at hlen; omega))
where
  closureN_complete : ∀ (p : List Node) (u v : Node), IsPath g.edges u v p →
      ∀ k, p.length ≤ k → v ∈ closureN g.edges k [u]
  | [], u, v, h, k, _ => by cases h; exact mem_closureN_of_mem k (by simp)
  | w :: p, u, v, h, k, hk => by
    match k, hk with
    | k + 1, hk =>
      have h1 : w ∈ closureStep g.edges [u] :=
        step_mem_closureStep h.1 (by simp)
      have h2 : v ∈ closureN g.edges k [w] :=
        closureN_complete p w v h.2 k (by simp at hk; omega)
      exact closureN_mono_set k
        (by intro x hx; simp at hx; subst hx; exact h1) h2

theorem reachableB_sound {g : DiGraph} {u v : Node}
    (h : reachableB g u v = true) : ∃ p, IsPath g.edges u v p := by
  simp only [reachableB, decide_eq_true_eq] at h
  obtain ⟨u', hu', p, hp⟩ := closureN_sound _ h
  simp at hu'
  subst hu'
  exact ⟨p, hp⟩

/-- A self-loop-free graph with no multi-node SCC and no cycle: acyclicity
rules out both crash conditions of `quasi_topological_sort`. -/
theorem not_hasMultiNodeSCC_of_acyclic {g : DiGraph} (hWF : g.WF)
    (hac : hasCycleB g = false) : hasMultiNodeSCC g = false := by
  by_contra hcon
  rw [Bool.not_eq_false] at hcon
  simp only [hasMultiNodeSCC, List.any_eq_true, Bool.and_eq_true,
    decide_eq_true_eq] at hcon
  obtain ⟨u, hu, v, hv, ⟨hne, huv⟩, hvu⟩ := hcon
  obtain ⟨p, hp⟩ := reachableB_sound huv
  obtain ⟨q, hq⟩ := reachableB_sound hvu
  match p, hp with
  | [], hp => exact hne (by cases hp; rfl)
  | w :: p', hp =>
    have hcyc : IsPath g.edges w u (p' ++ q) := isPath_append hq p' w hp.2
    have hwu : reachableB g w u = true :=
      reachableB_complete hWF (hWF.edge_mem _ hp.1).2 hcyc
    have : hasCycleB g = true := by
      simp only [hasCycleB, List.any_eq_true]
      exact ⟨(u, w), hp.1, hwu⟩
    simp [this] at hac

/-- If every node of a non-empty set has an in-neighbour inside the set, the
set contains a directed cycle (pigeonhole on a backward walk). -/
theorem cycle_of_all_incoming {edges : List (Node × Node)} {R : List Node}
    (hR : R ≠ [])
    (hall : ∀ v ∈ R, ∃ u ∈ R, (u, v) ∈ edges) :
    ∃ v ∈ R, ∃ p, p ≠ [] ∧ IsPath edges v v p := by
  classical
  let F : Node → Node := fun v =>
    if h : v ∈ R then (hall v h).choose else v
  have hF : ∀ v ∈ R, F v ∈ R ∧ (F v, v) ∈ edges := by
    intro v hv
    simp only [F, dif_pos hv]
    obtain ⟨h1, h2⟩ := (hall v hv).choose_spec
    exact ⟨h1, h2⟩
  obtain ⟨v0, hv0⟩ := List.exists_mem_of_ne_nil R hR
  have hiter : ∀ m, F^[m] v0 ∈ R := by
    intro m
    induction m with
    | zero => simpa using hv0
    | succ m ih =>
      rw [Function.iterate_succ_apply']
      exact (hF _ ih).1
  have hpath : ∀ (d : Nat) (x : Node), (∀ m, F^[m] x ∈ R) →
      ∃ p : List Node, p.length = d ∧ IsPath edges (F^[d] x) x p := by
    intro d
    induction d with
    | zero => exact fun x _ => ⟨[], rfl, rfl⟩
    | succ d ih =>
      intro x hx
      obtain ⟨p, hlen, hp⟩ := ih x hx
      refine ⟨F^[d] x :: p, by simp [hlen], ?_, hp⟩
      rw [Function.iterate_succ_apply']
      exact (hF _ (hx d)).2
  have hmaps : ∀ i ∈ Finset.range (R.toFinset.card + 1),
      F^[i] v0 ∈ R.toFinset := by
    intro i _
    exact List.mem_toFinset.mpr (hiter i)
  obtain ⟨i, hi, j, hj, hij, heq⟩ :=
    Finset.exists_ne_map_eq_of_card_lt_of_maps_to
      (by simp) hmaps
  have key : ∀ i j : Nat, i < j → F^[i] v0 = F^[j] v0 →
      ∃ v ∈ R, ∃ p, p ≠ [] ∧ IsPath edges v v p := by
    intro i j hlt heq2
    set x := F^[i] v0 with hx
    have hxiter : ∀ m, F^[m] x ∈ R := by
      intro m
      rw [hx, ← Function.iterate_add_apply]
      exact hiter (m + i)
    obtain ⟨p, hlen, hp⟩ := hpath (j - i) x hxiter
    have hfix : F^[j - i] x = x := by
      rw [hx, ← Function.iterate_add_apply]
      have : j - i + i = j := by omega
      rw [this, ← heq2]
    rw [hfix] at hp
    refine ⟨x, hiter i, p, ?_, hp⟩
    intro hnil
    rw [hnil] at hlen
    simp at hlen
    omega
  rcases Nat.lt_or_ge i j with hlt | hge
  · exact key i j hlt heq
  · exact key j i (Nat.lt_of_le_of_ne hge (fun h => hij h.symm)) heq.symm

/-! ## Kahn's algorithm: correctness -/

theorem except_bind_ok {ε α β : Type} {x : Except ε α} {f : α → Except ε β}
    {b : β} (h : (x >>= f) = .ok b) : ∃ a, x = .ok a ∧ f a = .ok b := by
  cases x with
  | error e => simp [Bind.bind, Except.bind] at h
  | ok a => exact ⟨a, rfl, by simpa [Bind.bind, Except.bind] using h⟩

theorem kahnAux_ok_perm {edges : List (Node × Node)} :
    ∀ (k : Nat) (remaining l : List Node),
      kahnAux edges k remaining = .ok l → l.Perm remaining := by
  intro k
  induction k with
  | zero =>
    intro remaining l h
    simp only [kahnAux] at h
    split at h
    · cases h
      rename_i he
      rw [List.isEmpty_iff.mp he]
    · cases h
  | succ k ih =>
    intro remaining l h
    simp only [kahnAux] at h
    split at h
    · cases h
      rename_i he
      rw [List.isEmpty_iff.mp he]
    · split at h
      · cases h
      · rename_i v hfind
        obtain ⟨rest, hrest, hcons⟩ := except_bind_ok h
        cases hcons
        have hv : v ∈ remaining := List.mem_of_find?_eq_some hfind
        exact ((ih _ _ hrest).cons v).trans (List.perm_cons_erase hv).symm

theorem kahnAux_ok_order {edges : List (Node × Node)} :
    ∀ (k : Nat) (remaining l : List Node),
      kahnAux edges k remaining = .ok l →
      ∀ a b : Node, (a, b) ∈ edges → a ∈ remaining → a ≠ b →
        l.indexOf a < l.indexOf b := by
  intro k
  induction k with
  | zero =>
    intro remaining l h a b _ ha _
    simp only [kahnAux] at h
    split at h
    · rename_i he
      rw [List.isEmpty_iff.mp he] at ha
      cases ha
    · cases h
  | succ k ih =>
    intro remaining l h a b hab ha hne
    simp only [kahnAux] at h
    split at h
    · rename_i he
      rw [List.isEmpty_iff.mp he] at ha
      cases ha
    · split at h
      · cases h
      · rename_i v hfind
        obtain ⟨rest, hrest, hcons⟩ := except_bind_ok h
        cases hcons
        have hnoinc : noIncoming edges remaining v = true :=
          List.find?_some hfind
        have hbv : b ≠ v := by
          rintro rfl
          simp only [noIncoming, Bool.not_eq_true', List.any_eq_false] at hnoinc
          have := hnoinc a ha
          simp [hab] at this
        by_cases hav : a = v
        · subst hav
          rw [List.indexOf_cons_self]
          rw [List.indexOf_cons_ne _ (fun h => hbv h.symm)]
          exact Nat.succ_pos _
        · have ha' : a ∈ remaining.erase v := List.mem_erase_of_ne hav |>.mpr ha
          rw [List.indexOf_cons_ne _ (fun h => hav h.symm),
              List.indexOf_cons_ne _ (fun h => hbv h.symm)]
          exact Nat.succ_lt_succ (ih _ _ hrest a b hab ha' hne)

theorem kahnAux_ok_of_acyclic {edges : List (Node × Node)} :
    ∀ (k : Nat) (remaining : List Node),
      remaining.length ≤ k →
      (∀ v ∈ remaining, ∀ p, IsPath edges v v p → p = []) →
      ∃ l, kahnAux edges k remaining = .ok l := by
  intro k
  induction k with
  | zero =>
    intro remaining hlen _
    refine ⟨[], ?_⟩
    simp only [kahnAux]
    rw [if_pos]
    exact List.isEmpty_iff.mpr (List.eq_nil_of_length_eq_zero (by omega))
  | succ k ih =>
    intro remaining hlen hacyc
    by_cases hemp : remaining.isEmpty
    · exact ⟨[], by simp [kahnAux, hemp]⟩
    · have hfind : ∃ v, remaining.find? (noIncoming edges remaining) = some v := by
        rcases hopt : remaining.find? (noIncoming edges remaining) with _ | v
        · exfalso
          have hall : ∀ v ∈ remaining, ∃ u ∈ remaining, (u, v) ∈ edges := by
            intro v hv
            have hnot := List.find?_eq_none.mp hopt v hv
            simp only [noIncoming, Bool.not_eq_true', List.any_eq_false,
              Bool.not_eq_true] at hnot
            push_neg at hnot
            simp only [Bool.not_eq_false, List.any_eq_true] at hnot
            obtain ⟨u, hu, huv⟩ := hnot
            exact ⟨u, hu, by simpa using huv⟩
          have hne : remaining ≠ [] := by
            intro hnil
            rw [hnil] at hemp
            simp at hemp
          obtain ⟨v, hv, p, hpne, hp⟩ := cycle_of_all_incoming hne hall
          exact hpne (hacyc v hv p hp)
        · exact ⟨v, rfl⟩
      obtain ⟨v, hv⟩ := hfind
      have hvmem := List.mem_of_find?_eq_some hv
      have hlen' : (remaining.erase v).length ≤ k := by
        rw [List.length_erase_of_mem hvmem]
        have : remaining.length ≠ 0 := by
          intro h0
          rw [List.eq_nil_of_length_eq_zero h0] at hemp
          simp at hemp
        omega
      obtain ⟨l, hl⟩ := ih (remaining.erase v) hlen'
        (fun w hw => hacyc w (List.mem_of_mem_erase hw))
      refine ⟨v :: l, ?_⟩
      simp only [kahnAux, if_neg hemp, hv, hl]
      rfl

/-! ## `quasi_topological_sort` on acyclic graphs -/

theorem mem_addEdgeNodes {acc : List Node} {e : Node × Node} {x : Node} :
    x ∈ addEdgeNodes acc e ↔ x ∈ acc ∨ x = e.1 ∨ x = e.2 := by
  simp only [addEdgeNodes]
  split_ifs with h1 h2 h3 h4 <;> aesop

theorem nodup_addEdgeNodes {acc : List Node} {e : Node × Node}
    (h : acc.Nodup) : (addEdgeNodes acc e).Nodup := by
  simp only [addEdgeNodes]
  split_ifs with h1 h2 h3 h4 <;>
    simp_all [List.nodup_append] <;> aesop

theorem mem_foldl_addEdgeNodes (es : List (Node × Node)) :
    ∀ (acc : List Node) (x : Node),
      x ∈ es.foldl addEdgeNodes acc ↔
        x ∈ acc ∨ ∃ e ∈ es, x = e.1 ∨ x = e.2 := by
  induction es with
  | nil => simp
  | cons e es ih =>
    intro acc x
    simp only [List.foldl_cons, ih, mem_addEdgeNodes, List.mem_cons]
    constructor
    · rintro ((h | h | h) | ⟨e', he', h⟩)
      · exact .inl h
      · exact .inr ⟨e, .inl rfl, .inl h⟩
      · exact .inr ⟨e, .inl rfl, .inr h⟩
      · exact .inr ⟨e', .inr he', h⟩
    · rintro (h | ⟨e', (rfl | he'), h⟩)
      · exact .inl (.inl h)
      · exact .inl (.inr h)
      · exact .inr ⟨e', he', h⟩

theorem nodup_foldl_addEdgeNodes (es : List (Node × Node)) :
    ∀ (acc : List Node), acc.Nodup → (es.foldl addEdgeNodes acc).Nodup := by
  induction es with
  | nil => exact fun _ h => h
  | cons e es ih => exact fun acc h => ih _ (nodup_addEdgeNodes h)

theorem mem_foldl_addNode (ls : List Node) :
    ∀ (acc : List Node) (x : Node),
      x ∈ ls.foldl addNode acc ↔ x ∈ acc ∨ x ∈ ls := by
  induction ls with
  | nil => simp
  | cons n ls ih =>
    intro acc x
    simp only [List.foldl_cons, ih, addNode, List.mem_cons]
    split_ifs with h <;> aesop

theorem nodup_foldl_addNode (ls : List Node) :
    ∀ (acc : List Node), acc.Nodup → (ls.foldl addNode acc).Nodup := by
  induction ls with
  | nil => exact fun _ h => h
  | cons n ls ih =>
    intro acc h
    refine ih _ ?_
    simp only [addNode]
    split_ifs with h1
    · exact h
    · simp_all [List.nodup_append]

/-- On an acyclic (`hasCycleB = false`: no directed cycle, self-loops
included) well-formed graph, `quasi_topological_sort` succeeds and returns a
permutation of the graph's nodes in which every edge goes from an earlier to
a later position — a valid topological order. -/
theorem quasiTopologicalSort_acyclic {dg : DiGraph} (hWF : dg.WF)
    (hac : hasCycleB dg = false) :
    ∃ l, quasiTopologicalSort dg = .ok l ∧ l.Perm dg.nodes ∧
      ∀ e ∈ dg.edges, l.indexOf e.1 < l.indexOf e.2 := by
  have hsl : ∀ e ∈ dg.edges, e.1 ≠ e.2 := by
    intro e he heq
    have hcyc : hasCycleB dg = true := by
      simp only [hasCycleB, List.any_eq_true]
      refine ⟨e, he, ?_⟩
      simp only [reachableB, decide_eq_true_eq]
      exact mem_closureN_of_mem _ (by simp [heq])
    simp [hcyc] at hac
  by_cases hone : dg.nodes.length = 1
  · have hnoedge : dg.edges = [] := by
      rcases hdg : dg.edges with _ | ⟨e, es⟩
      · rfl
      · exfalso
        obtain ⟨n, hn⟩ := List.length_eq_one.mp hone
        have he : e ∈ dg.edges := by rw [hdg]; exact List.mem_cons_self _ _
        have h1 := (hWF.edge_mem e he).1
        have h2 := (hWF.edge_mem e he).2
        rw [hn] at h1 h2
        simp at h1 h2
        exact hsl e he (h1.trans h2.symm)
    refine ⟨dg.nodes, ?_, List.Perm.refl _, ?_⟩
    · simp [quasiTopologicalSort, hone]
    · simp [hnoedge]
  · have hnoscc := not_hasMultiNodeSCC_of_acyclic hWF hac
    have hfe : dg.edges.filter (fun e => !(e.1 == e.2)) = dg.edges := by
      rw [List.filter_eq_self]
      intro e he
      simp [hsl e he]
    have hqts : quasiTopologicalSort dg =
        topologicalSortNX ⟨(dg.nodes.filter
            (fun n => dg.outDegree n == 0 && dg.inDegree n == 0)).foldl addNode
            (dg.edges.foldl addEdgeNodes []), dg.edges⟩ := by
      simp only [quasiTopologicalSort, if_neg hone, hfe]
      rw [if_neg (by simp [hnoscc])]
    set S : DiGraph := ⟨(dg.nodes.filter
        (fun n => dg.outDegree n == 0 && dg.inDegree n == 0)).foldl addNode
        (dg.edges.foldl addEdgeNodes []), dg.edges⟩ with hS
    have hmemS : ∀ x, x ∈ S.nodes ↔ x ∈ dg.nodes := by
      intro x
      simp only [hS, mem_foldl_addNode, mem_foldl_addEdgeNodes,
        List.not_mem_nil, false_or, List.mem_filter]
      constructor
      · rintro (⟨e, he, rfl | rfl⟩ | ⟨hx, _⟩)
        · exact (hWF.edge_mem e he).1
        · exact (hWF.edge_mem e he).2
        · exact hx
      · intro hx
        by_cases hdeg : dg.outDegree x = 0 ∧ dg.inDegree x = 0
        · exact .inr ⟨hx, by simp [hdeg.1, hdeg.2]⟩
        · left
          rcases Decidable.not_and_iff_or_not.mp hdeg with h | h
          · have : (dg.edges.filter (fun e => e.1 = x)) ≠ [] := by
              intro hnil
              exact h (by simp [DiGraph.outDegree, hnil])
            obtain ⟨e, hef⟩ := List.exists_mem_of_ne_nil _ this
            have := List.mem_filter.mp hef
            exact ⟨e, this.1, .inl (by
              have h2 := this.2
              simp at h2
              exact h2.symm)⟩
          · have : (dg.edges.filter (fun e => e.2 = x)) ≠ [] := by
              intro hnil
              exact h (by simp [DiGraph.inDegree, hnil])
            obtain ⟨e, hef⟩ := List.exists_mem_of_ne_nil _ this
            have := List.mem_filter.mp hef
            exact ⟨e, this.1, .inr (by
              have h2 := this.2
              simp at h2
              exact h2.symm)⟩
    have hnodupS : S.nodes.Nodup :=
      nodup_foldl_addNode _ _ (nodup_foldl_addEdgeNodes _ _ List.nodup_nil)
    have hperm : S.nodes.Perm dg.nodes :=
      (List.perm_ext_iff_of_nodup hnodupS hWF.nodes_nodup).mpr hmemS
    have hkahn : ∃ l, kahnAux S.edges S.nodes.length S.nodes = .ok l := by
      apply kahnAux_ok_of_acyclic _ _ (le_refl _)
      intro v hv p hp
      cases p with
      | nil => rfl
      | cons w p' =>
        exfalso
        have hedge : (v, w) ∈ dg.edges := hp.1
        have hpath : IsPath dg.edges w v p' := hp.2
        have hwv : reachableB dg w v = true :=
          reachableB_complete hWF (hWF.edge_mem _ hedge).2 hpath
        have hcyc : hasCycleB dg = true := by
          simp only [hasCycleB, List.any_eq_true]
          exact ⟨(v, w), hedge, hwv⟩
        simp [hcyc] at hac
    obtain ⟨l, hl⟩ := hkahn
    refine ⟨l, ?_, ?_, ?_⟩
    · rw [hqts]
      exact hl
    · exact (kahnAux_ok_perm _ _ _ hl).trans hperm
    · intro e he
      refine kahnAux_ok_order _ _ _ hl e.1 e.2 he ?_ (hsl e he)
      exact (hmemS e.1).mpr (hWF.edge_mem e he).1

/-! ## `to_acyclic_graph` -/

/-- `networkx.DiGraph.add_edge`: inserts missing endpoints and ignores an
edge that is already present. -/
def DiGraph.addEdge (g : DiGraph) (e : Node × Node) : DiGraph :=
  { nodes := addEdgeNodes g.nodes e,
    edges := if e ∈ g.edges then g.edges else g.edges ++ [e] }

/-- `networkx.DiGraph.add_node`. -/
def DiGraph.addNodeG (g : DiGraph) (n : Node) : DiGraph :=
  { g with nodes := addNode g.nodes n }

/-- `to_acyclic_graph` (layout.py lines 370-394): keep, for each node in
order, the edges to successors not yet visited. -/
def toAcyclicGraph (dg : DiGraph) (orderedNodes : List Node) : DiGraph :=
  (orderedNodes.foldl
    (fun (acc : DiGraph × List Node) node =>
      let visited := node :: acc.2
      let dag := acc.1.addNodeG node
      let dag := (dg.successors node).foldl
        (fun dag succ =>
          if succ ∈ visited then dag else dag.addEdge (node, succ)) dag
      (dag, visited))
    (⟨[], []⟩, [])).1

/-! ## `calculate_max_row` -/

/-- `calculate_max_row` (layout.py lines 396-412): longest-path layering
over the acyclic projection, processed in quasi-topological order.  Returns
the row map and the maximum row. -/
def calculateMaxRow (dag : DiGraph) (orderedNodes : List Node) :
    List (Node × Nat) × Nat :=
  orderedNodes.foldl
    (fun (acc : List (Node × Nat) × Nat) node =>
      let maxRows :=
        if (dictGet? acc.1 node).isSome then acc.1 else dictSet acc.1 node 0
      -- `row = max_rows[node]`: the key is present by the line above
      let row := (dictGet? maxRows node).getD 0
      let maxRow := max acc.2 row
      (dag.successors node).foldl
        (fun (acc2 : List (Node × Nat) × Nat) succ =>
          match dictGet? acc2.1 succ with
          | some v =>
            if v < row + 1 then
              (dictSet acc2.1 succ (row + 1), max acc2.2 (row + 1))
            else acc2
          | none => (dictSet acc2.1 succ (row + 1), max acc2.2 (row + 1)))
        (maxRows, maxRow))
    ([], 0)

/-! ## `assign_rows` -/

/-- Stable insertion: `x` is placed after every already-placed element `y`
with `le y x`, so elements with equal keys keep their original order, exactly
like Python's stable `sorted`.  (Structural recursion, so concrete instances
reduce inside the kernel.) -/
def insertStable {α : Type} (le : α → α → Bool) (x : α) : List α → List α
  | [] => [x]
  | y :: ys => if le y x then y :: insertStable le x ys else x :: y :: ys

/-- Python's stable `sorted(l)` with a boolean `≤`. -/
def pySorted {α : Type} (le : α → α → Bool) (l : List α) : List α :=
  l.foldl (fun acc x => insertStable le x acc) []

/-- Python's stable `sorted(l, key=key)`. -/
def sortedByKey {α : Type} (key : α → Int) (l : List α) : List α :=
  pySorted (fun a b => key a ≤ key b) l

/-- `assign_rows` (layout.py lines 414-435). -/
def assignRows (orderedNodes : List Node) (maxRows : List (Node × Nat))
    (key : Node → Int) :
    Except String (List (Node × Nat) × List (Nat × List Node)) := do
  let (rows, rtn) ← orderedNodes.foldlM
    (fun (acc : List (Node × Nat) × List (Nat × List Node)) node => do
      let row ← dictGetE maxRows node
      let rows := dictSet acc.1 node row
      let cur := (dictGet? acc.2 row).getD []
      pure (rows, dictSet acc.2 row (cur ++ [node])))
    ([], [])
  pure (rows, rtn.map (fun rn => (rn.1, sortedByKey key rn.2)))

/-! ## `assign_columns` and `detect_overlap` -/

/-- Accumulated column state of `assign_columns`. -/
structure ColState where
  cols : List (Node × Int)
  locations : List (Node × GridIndex)
  globalMaxCol : Int
deriving DecidableEq, Repr

/-- Successor band accumulation of pass 1 (layout.py lines 460-466). -/
def pass1Succ (cols : List (Node × Int)) (acc : Option Int × Option Int)
    (succ : Node) : Option Int × Option Int :=
  match dictGet? cols succ with
  | none => acc
  | some sc =>
    let mn := match acc.1 with
      | none => some sc
      | some m => if sc < m then some sc else some m
    let mx := match acc.2 with
      | none => some (sc + 1)
      | some m => if sc > m then some (sc + 1) else some m
    (mn, mx)

/-- One node of pass 1 (bottom-up seeding, layout.py lines 455-491).
The state carries `(cols/locations/global_max_col, next_min_col,
next_max_col)`. -/
def pass1Node (dag : DiGraph) (rowIdx : Nat)
    (acc : ColState × Int × Int) (node : Node) :
    Except String (ColState × Int × Int) := do
  let st := acc.1
  let nextMinCol := acc.2.1
  let nextMaxCol := acc.2.2
  let succs := dag.successors node
  let band := succs.foldl (pass1Succ st.cols) (none, none)
  let (minCol, maxCol) ←
    match band with
    | (none, none) => pure (nextMinCol, nextMaxCol)
    | (some mn, some mx) =>
      pure (if mn < nextMinCol then nextMinCol else mn,
            if mx < nextMinCol then nextMinCol + 1 else mx)
    | _ => Except.error "AssertionError"
  let col := (minCol + maxCol).fdiv 2
  let st : ColState :=
    ⟨dictSet st.cols node col,
     dictSet st.locations node ⟨col, (rowIdx : Int)⟩,
     max st.globalMaxCol col⟩
  let nextMinCol := if minCol = maxCol then maxCol + 2 else maxCol + 1
  pure (st, nextMinCol, nextMinCol + 1)

/-- Pass 1 over all rows, deepest first (layout.py line 449). -/
def pass1 (dag : DiGraph) (key : Node → Int) (rtn : List (Nat × List Node)) :
    Except String ColState :=
  rtn.reverse.foldlM
    (fun st rn => do
      let rowNodes := sortedByKey key rn.2
      let (st, _, _) ← rowNodes.foldlM (pass1Node dag rn.1) (st, 1, 2)
      pure st)
    ⟨[], [], 0⟩

/-- The scan loop of `detect_overlap` (layout.py lines 545-557). -/
def detectOverlapScan (node : Node) (cols : List (Node × Int))
    (idealCol : Int) :
    List Node → Bool → Int → Except String (Bool × Int)
  | [], ov, sg => pure (ov, sg)
  | rn :: rest, ov, sg => do
    if rn = node then detectOverlapScan node cols idealCol rest ov sg
    else do
      let rnCol ← dictGetE cols rn
      let ov := if rnCol - 1 ≤ idealCol ∧ idealCol ≤ rnCol + 1 then true else ov
      let sg := if rnCol - 1 ≤ sg ∧ sg ≤ rnCol + 1 then rnCol + 2 else sg
      if ov ∧ sg < rnCol - 1 then pure (ov, sg)
      else detectOverlapScan node cols idealCol rest ov sg

/-- Stable sort of `(node, col)` pairs by column. -/
def sortPairsBySnd (l : List (Node × Int)) : List (Node × Int) :=
  pySorted (fun a b => a.2 ≤ b.2) l

/-- `detect_overlap` (layout.py lines 536-562). -/
def detect_overlap (node : Node) (cols : List (Node × Int)) (idealCol : Int)
    (rowNodes : List Node) (minCol : Int) : Except String (Bool × Int) := do
  let pairs ← rowNodes.mapM (fun n => do
    let c ← dictGetE cols n
    pure (n, c))
  let sortedNodes := (sortPairsBySnd pairs).map (·.1)
  let (ov, sg) ← detectOverlapScan node cols idealCol sortedNodes false minCol
  if ov then pure (true, sg) else pure (false, idealCol)

/-- Predecessor band accumulation of pass 2 (layout.py lines 510-516). -/
def pass2Pred (cols : List (Node × Int)) (acc : Option Int × Option Int)
    (pred : Node) : Option Int × Option Int :=
  match dictGet? cols pred with
  | none => acc
  | some pc =>
    let mn := match acc.1 with
      | none => some pc
      | some m => if m > pc then some pc else some m
    let mx := match acc.2 with
      | none => some (pc + 1)
      | some m => if m < pc then some (pc + 1) else some m
    (mn, mx)

/-- One node of pass 2 (top-down alignment, layout.py lines 498-532). -/
def pass2Node (dag : DiGraph) (rowIdx : Nat) (rowNodes : List Node)
    (acc : ColState × Option Int × Option Int) (node : Node) :
    Except String (ColState × Option Int × Option Int) := do
  let st := acc.1
  let nextMin := acc.2.1
  let nextMax := acc.2.2
  let preds := dag.predecessors node
  if preds.length < 2 then do
    let col ← dictGetE st.cols node
    pure (st, some (max (nextMin.getD 0) (col + 2)),
              some (max (nextMax.getD 0) (col + 3)))
  else do
    let band := preds.foldl (pass2Pred st.cols) (nextMin, nextMax)
    match band with
    | (some minCol, some maxCol) => do
      let ideal := (minCol + maxCol).fdiv 2
      let (_, col) ← detect_overlap node st.cols ideal rowNodes minCol
      let st : ColState :=
        ⟨dictSet st.cols node col,
         dictSet st.locations node ⟨col, (rowIdx : Int)⟩,
         max st.globalMaxCol col⟩
      pure (st, some (maxCol + 1), some (maxCol + 2))
    | _ => Except.error "AssertionError"

/-- `assign_columns` (layout.py lines 437-534): bottom-up seeding pass then
top-down alignment pass; returns `(cols, locations, global_max_col + 1)`
packaged as `(ColState, max_col)`. -/
def assign_columns (dag : DiGraph) (rtn : List (Nat × List Node))
    (key : Node → Int) : Except String (ColState × Int) := do
  let st ← pass1 dag key rtn
  let st ← rtn.foldlM
    (fun st rn => do
      let (st, _, _) ← rn.2.foldlM (pass2Node dag rn.1 rn.2) (st, none, none)
      pure st)
    st
  pure (st, st.globalMaxCol + 1)

/-! ## Edge routing

Every `SegmentedEdge` is aliased by the grids, the routed-edge list and the
`in_edges`/`out_edges` maps; the embedding therefore keeps the edges in one
master list and stores edge ids (positions in that list) everywhere else. -/

/-- A grid cell: a dict from lane index to (the id of) the edge occupying
that lane. -/
abbrev Cell := List (EdgeIndex × Nat)

/-- `EdgeLayoutState` (layout.py lines 104-140). -/
structure EdgeLayoutState where
  edge_valid : List (List Bool)
  vertical_edges : List (List Cell)
  horizontal_edges : List (List Cell)
  node_locations : List (Node × GridIndex)
  in_edges : List (Node × List Nat)
  out_edges : List (Node × List Nat)
deriving DecidableEq, Repr

/-- 2-d Python list read `grid[i][j]`. -/
def get2D {α : Type} (grid : List (List α)) (i j : Int) : Except String α := do
  let row ← pyGet grid i
  pyGet row j

/-- 2-d Python list write `grid[i][j] = v`. -/
def set2D {α : Type} (grid : List (List α)) (i j : Int) (v : α) :
    Except String (List (List α)) := do
  let row ← pyGet grid i
  let row2 ← pySet row j v
  pySet grid i row2

/-- Python `range(a, b)` over ints. -/
def intRange (a b : Int) : List Int :=
  (List.range (b - a).toNat).map (fun i => a + i)

/-- `EdgeLayoutState.__init__` (layout.py lines 105-140). -/
def mkEdgeLayoutState (maxCol maxRow : Int)
    (nodeLocations : List (Node × GridIndex)) :
    Except String EdgeLayoutState := do
  let ev0 : List (List Bool) :=
    List.replicate (maxCol + 2).toNat (List.replicate (maxRow + 1).toNat true)
  let ev ← nodeLocations.foldlM
    (fun ev ngi => do
      let ev ← set2D ev ngi.2.col ngi.2.row false
      set2D ev (ngi.2.col + 1) ngi.2.row false)
    ev0
  let cells : List (List Cell) :=
    List.replicate (maxCol + 2).toNat (List.replicate (maxRow + 3).toNat [])
  pure ⟨ev, cells, cells, nodeLocations, [], []⟩

/-- `EdgeLayoutState.edge_available` (layout.py lines 142-149). -/
def edgeAvailableAux (ev : List (List Bool)) (col : Int) :
    List Int → Except String Bool
  | [] => pure true
  | r :: rest => do
    let b ← get2D ev col r
    if b then edgeAvailableAux ev col rest else pure false

/-- `edge_available(col, start_row, end_row)`. -/
def edge_available (st : EdgeLayoutState) (col startRow endRow : Int) :
    Except String Bool :=
  edgeAvailableAux st.edge_valid col (intRange startRow endRow)

/-- `first_unused_index` (layout.py lines 701-722), taking the used-index
set as a duplicate-free list.  The `assert(sorted_indices[0] == 0)` of the
single-index case is modelled as a raised `AssertionError`. -/
def first_unused_index (indices : List EdgeIndex) : Except String EdgeIndex :=
  let sortedIndices := pySorted (fun a b => a ≤ b) indices
  match sortedIndices with
  | [] => pure 0
  | [i] => if i = 0 then pure 1 else Except.error "AssertionError"
  | _ => pure (firstGap sortedIndices)
where
  /-- Scan for the first gap between consecutive used indices, else one past
  the maximum (the `zip` loop and final return of the source). -/
  firstGap : List EdgeIndex → EdgeIndex
    | a :: b :: rest => if a + 1 ≠ b then a + 1 else firstGap (b :: rest)
    | [a] => a + 1
    | [] => 0

/-- Set-union of the lane indices used by a run of cells. -/
def collectIndices (grid : List (List Cell)) (fixed : Int) (vertical : Bool) :
    List Int → List EdgeIndex → Except String (List EdgeIndex)
  | [], acc => pure acc
  | r :: rest, acc => do
    let cell ← if vertical then get2D grid fixed r else get2D grid r fixed
    let acc := acc ++ (cell.map (·.1)).filter (fun i => i ∉ acc)
    collectIndices grid fixed vertical rest acc

/-- `assign_vertical_edge` (layout.py lines 724-742). -/
def assign_vertical_edge (grid : List (List Cell)) (edgeId : Nat)
    (col row : Int) (numBlocks : Int) :
    Except String (List (List Cell) × EdgeIndex) := do
  let rows := intRange row (row + numBlocks + 1)
  let indices ← collectIndices grid col true rows []
  let idx ← first_unused_index indices
  let grid ← rows.foldlM
    (fun g r => do
      let cell ← get2D g col r
      set2D g col r (dictSet cell idx edgeId))
    grid
  pure (grid, idx)

/-- `assign_horizontal_edge` (layout.py lines 744-762). -/
def assign_horizontal_edge (grid : List (List Cell)) (edgeId : Nat)
    (col row : Int) (numBlocks : Int) :
    Except String (List (List Cell) × EdgeIndex) := do
  let cols := intRange col (col + numBlocks + 1)
  let indices ← collectIndices grid row false cols []
  let idx ← first_unused_index indices
  let grid ← cols.foldlM
    (fun g c => do
      let cell ← get2D g c row
      set2D g c row (dictSet cell idx edgeId))
    grid
  pure (grid, idx)

/-- The outward channel search of `route_edge` (layout.py lines 622-631).
The fuel only bounds the loop formally: before it could run out the search
either succeeds or `edge_valid[col ± offset]` raises `IndexError`, exactly
as the unbounded Python loop would. -/
def channelSearch (st : EdgeLayoutState) (col minRow maxRow : Int) :
    Nat → Int → Except String Int
  | 0, _ => Except.error "IndexError"
  | fuel + 1, offset => do
    let bR ← edge_available st (col + offset) minRow maxRow
    if bR then pure (col + offset)
    else do
      let bL ← edge_available st (col - offset) minRow maxRow
      if bL then pure (col - offset)
      else channelSearch st col minRow maxRow fuel (offset + 1)

/-- The channel-column search of `route_edge` (layout.py lines 620-631). -/
def chooseChannel (st : EdgeLayoutState) (startCol minRow maxRow : Int) :
    Except String Int := do
  let avail ← edge_available st startCol minRow maxRow
  let fuel := st.edge_valid.length + startCol.natAbs + 3
  if avail then pure startCol
  else channelSearch st startCol minRow maxRow fuel 1

/-- The start-row horizontal connector of `route_edge` (layout.py lines
633-658). -/
def startJog (e : SegmentedEdge) (st : EdgeLayoutState) (edgeId : Nat)
    (startCol startRow col : Int) :
    Except String (SegmentedEdge × EdgeLayoutState) := do
  if col ≠ startCol then do
    let (minC, maxC, mv) :=
      if startCol < col then (startCol, col, Move.RIGHT)
      else (col, startCol, Move.LEFT)
    let (hGrid, idx) ←
      assign_horizontal_edge st.horizontal_edges edgeId minC startRow
        (maxC - minC)
    pure ({ e with points := e.points ++ [(⟨col, startRow, idx⟩ : EdgeCoord)],
                   moves := e.moves ++ [mv] },
          { st with horizontal_edges := hGrid })
  else do
    let (hGrid, _) ←
      assign_horizontal_edge st.horizontal_edges edgeId startCol startRow 1
    pure (e, { st with horizontal_edges := hGrid })

/-- The main vertical run of `route_edge` (layout.py lines 660-667). -/
def mainVertical (e : SegmentedEdge) (st : EdgeLayoutState) (edgeId : Nat)
    (col startRow endRow : Int) :
    Except String (SegmentedEdge × EdgeLayoutState) := do
  if startRow ≠ endRow then do
    let vertRow := min (startRow + 1) endRow
    let (vGrid, idx) ←
      assign_vertical_edge st.vertical_edges edgeId col vertRow
        (((endRow - startRow).natAbs : Int) + 1)
    pure ({ e with points := e.points ++ [(⟨col, endRow, idx⟩ : EdgeCoord)] },
          { st with vertical_edges := vGrid })
  else pure (e, st)

/-- The end-row horizontal connector and final drop of `route_edge`
(layout.py lines 669-694). -/
def endJog (e : SegmentedEdge) (st : EdgeLayoutState) (edgeId : Nat)
    (col endCol endRow : Int) :
    Except String (SegmentedEdge × EdgeLayoutState) := do
  if col ≠ endCol then do
    let (minC, maxC, mv) :=
      if col < endCol then (col, endCol, Move.RIGHT)
      else (endCol, col, Move.LEFT)
    let (hGrid, idx) ←
      assign_horizontal_edge st.horizontal_edges edgeId minC endRow
        (maxC - minC)
    let e := { e with points := e.points ++ [(⟨endCol, endRow, idx⟩ : EdgeCoord)],
                      moves := e.moves ++ [mv] }
    let st := { st with horizontal_edges := hGrid }
    let (vGrid, idx2) ←
      assign_vertical_edge st.vertical_edges edgeId endCol endRow 0
    pure ({ e with points := e.points ++ [(⟨endCol, endRow, idx2⟩ : EdgeCoord)] },
          { st with vertical_edges := vGrid })
  else pure (e, st)

/-- `route_edge` (layout.py lines 586-699).  Returns the extended master
edge list and the new routing state; the new edge's id is its position. -/
def route_edge (edges : List SegmentedEdge) (st : EdgeLayoutState)
    (src dst : Node) :
    Except String (List SegmentedEdge × EdgeLayoutState) := do
  let edgeId := edges.length
  let e : SegmentedEdge := { src := src, dst := dst }
  let startGi ← dictGetE st.node_locations src
  let endGi ← dictGetE st.node_locations dst
  let startCol := startGi.col + 1
  let startRow := startGi.row + 1
  let endCol := endGi.col + 1
  let endRow := endGi.row
  let (vGrid, startIdx) ←
    assign_vertical_edge st.vertical_edges edgeId startCol startRow 0
  let st := { st with vertical_edges := vGrid }
  let e := { e with points :=
    e.points ++ [(⟨startCol, startRow, startIdx⟩ : EdgeCoord)] }
  let (minRow, maxRow) :=
    if startRow < endRow then (startRow, endRow) else (endRow, startRow)
  let col ← chooseChannel st startCol minRow maxRow
  let (e, st) ← startJog e st edgeId startCol startRow col
  let (e, st) ← mainVertical e st edgeId col startRow endRow
  let (e, st) ← endJog e st edgeId col endCol endRow
  let st := { st with
    out_edges := dictSet st.out_edges src
      ((dictGet? st.out_edges src).getD [] ++ [edgeId]),
    in_edges := dictSet st.in_edges dst
      ((dictGet? st.in_edges dst).getD [] ++ [edgeId]) }
  pure (edges ++ [e], st)

/-- The `.value` of the last move of edge `i` of the master list (the sort
key of `set_in_edge_indices`; the ids always index the master list). -/
def lastMoveVal (edges : List SegmentedEdge) (i : Nat) : Nat :=
  match edges.get? i with
  | some e => e.last_move.value
  | none => Move.NA.value

/-- The `.value` of the first move of edge `i` of the master list. -/
def firstMoveVal (edges : List SegmentedEdge) (i : Nat) : Nat :=
  match edges.get? i with
  | some e => e.first_move.value
  | none => Move.NA.value

/-- Update edge `i` of the master list in place. -/
def updateEdge (edges : List SegmentedEdge) (i : Nat)
    (f : SegmentedEdge → SegmentedEdge) : List SegmentedEdge :=
  match edges.get? i with
  | some e => edges.set i (f e)
  | none => edges

/-- The assignment loops of one group of `set_in_edge_indices` (layout.py
lines 163-168): `edge.end_index = idx` in iteration order, then
`edge.max_end_index = max_idx` (`= len - 1` for a non-empty group; an empty
group leaves `max_idx = None` and assigns nothing). -/
def applyEndIndices (edges : List SegmentedEdge) (ids2 : List Nat) :
    List SegmentedEdge :=
  let edges := ids2.enum.foldl
    (fun es ki => updateEdge es ki.2
      (fun e => { e with end_index := some ki.1 }))
    edges
  match ids2 with
  | [] => edges
  | _ => ids2.foldl
      (fun es i => updateEdge es i
        (fun e => { e with max_end_index := some (ids2.length - 1) }))
      edges

/-- The `sorted(edges, key=last_move().value, reverse=True)` reordering of a
group of exactly two edges (layout.py lines 156-161): Python's stable
descending sort swaps them iff the first's key is strictly smaller. -/
def inGroupOrder (edges : List SegmentedEdge) (ids : List Nat) : List Nat :=
  match ids with
  | [i, j] =>
    if lastMoveVal edges i < lastMoveVal edges j then [j, i] else [i, j]
  | l => l

/-- One group of `set_in_edge_indices` (layout.py lines 151-168). -/
def setInGroup (edges : List SegmentedEdge) (ids : List Nat) :
    List SegmentedEdge :=
  applyEndIndices edges (inGroupOrder edges ids)

/-- As `applyEndIndices` for `set_out_edge_indices` (layout.py lines
182-187); `max_start_index` is a plain `EdgeIndex`. -/
def applyStartIndices (edges : List SegmentedEdge) (ids2 : List Nat) :
    List SegmentedEdge :=
  let edges := ids2.enum.foldl
    (fun es ki => updateEdge es ki.2
      (fun e => { e with start_index := some ki.1 }))
    edges
  match ids2 with
  | [] => edges
  | _ => ids2.foldl
      (fun es i => updateEdge es i
        (fun e => { e with max_start_index := ids2.length - 1 }))
      edges

/-- The stable ascending `sorted(edges, key=first_move().value)` reordering
of a two-edge group (layout.py lines 175-180): swaps them iff the first's
key is strictly greater. -/
def outGroupOrder (edges : List SegmentedEdge) (ids : List Nat) : List Nat :=
  match ids with
  | [i, j] =>
    if firstMoveVal edges j < firstMoveVal edges i then [j, i] else [i, j]
  | l => l

/-- One group of `set_out_edge_indices` (layout.py lines 170-187). -/
def setOutGroup (edges : List SegmentedEdge) (ids : List Nat) :
    List SegmentedEdge :=
  applyStartIndices edges (outGroupOrder edges ids)

/-- `set_in_edge_indices` over all destination groups. -/
def set_in_edge_indices (st : EdgeLayoutState)
    (edges : List SegmentedEdge) : List SegmentedEdge :=
  st.in_edges.foldl (fun es g => setInGroup es g.2) edges

/-- `set_out_edge_indices` over all source groups. -/
def set_out_edge_indices (st : EdgeLayoutState)
    (edges : List SegmentedEdge) : List SegmentedEdge :=
  st.out_edges.foldl (fun es g => setOutGroup es g.2) edges

/-- `route_edges` (layout.py lines 564-584). -/
def route_edges (dg : DiGraph) (nodeLocations : List (Node × GridIndex))
    (maxCol maxRow : Int) :
    Except String (EdgeLayoutState × List SegmentedEdge) := do
  let st ← mkEdgeLayoutState maxCol maxRow nodeLocations
  let (edges, st) ← dg.edges.foldlM
    (fun (acc : List SegmentedEdge × EdgeLayoutState) e =>
      route_edge acc.1 acc.2 e.1 e.2)
    ([], st)
  let edges := set_in_edge_indices st edges
  let edges := set_out_edge_indices st edges
  pure (st, edges)

/-! ## Grid sizing and coordinate resolution -/

/-- `calculate_max_edge_indices` (layout.py lines 764-777). -/
def calculate_max_edge_indices (grid : List (List Cell)) :
    List (GridIndex × EdgeIndex) :=
  grid.enum.foldl
    (fun acc colCells =>
      colCells.2.enum.foldl
        (fun acc rowCell =>
          if rowCell.2.isEmpty then acc
          else dictSet acc ⟨(colCells.1 : Int), (rowCell.1 : Int)⟩
            ((rowCell.2.map (·.1)).foldl max 0))
        acc)
    []

/-- `make_grids` (layout.py lines 780-828). -/
def make_grids (maxRow maxCol : Int)
    (maxVedge maxHedge : List (GridIndex × EdgeIndex))
    (nodes : List Node) (locations : List (Node × GridIndex))
    (sizes : List (Node × NodeSize)) (xMargin yMargin : Int) :
    Except String (List Int × List Int) := do
  let borderMinWidth : Int := 20
  let rowHeights : List Int := List.replicate (maxRow + 2).toNat 0
  let colWidths : List Int := List.replicate (maxCol + 2).toNat 0
  let (rowHeights, colWidths) ← nodes.foldlM
    (fun (acc : List Int × List Int) node => do
      let (rh, cw) := acc
      let loc ← dictGetE locations node
      let size ← dictGetE sizes node
      let cur ← pyGet rh loc.row
      let rh ← if cur < size.height then pySet rh loc.row size.height
               else pure rh
      let half := size.width.fdiv 2
      let cur ← pyGet cw loc.col
      let cw ← if cur < half then pySet cw loc.col half else pure cw
      let nextCol := loc.col + 1
      let cw ←
        if nextCol < (cw.length : Int) then do
          let cur ← pyGet cw nextCol
          if cur < half then pySet cw nextCol half else pure cw
        else pure cw
      pure (rh, cw))
    (rowHeights, colWidths)
  let (rowHeights, colWidths) ← (List.range colWidths.length).foldlM
    (fun acc col =>
      (List.range rowHeights.length).foldlM
        (fun (acc2 : List Int × List Int) row => do
          let (rh, cw) := acc2
          let gi : GridIndex := ⟨(col : Int), (row : Int)⟩
          let cw ←
            match dictGet? maxVedge gi with
            | some k => do
              let w := ((k : Int) + 2) * xMargin
              let cur ← pyGet cw (col : Int)
              if cur < w then pySet cw (col : Int) w else pure cw
            | none => pure cw
          let rh ←
            match dictGet? maxHedge gi with
            | some k => do
              let h := ((k : Int) + 2) * yMargin
              let cur ← pyGet rh (row : Int)
              if cur < h then pySet rh (row : Int) h else pure rh
            | none => pure rh
          pure (rh, cw))
        acc)
    (rowHeights, colWidths)
  let cw0 ← pyGet colWidths 0
  let colWidths ← pySet colWidths 0 (max borderMinWidth cw0)
  let cwl ← pyGet colWidths (-1)
  let colWidths ← pySet colWidths (-1) (max borderMinWidth cwl)
  pure (rowHeights, colWidths)

/-- `find_nonintersecting_y` (layout.py lines 830-859). -/
def find_nonintersecting_y (gridCoords : List (GridIndex × Point))
    (rowHeights : List Int) (row startingCol nextCol defaultY : Int) :
    Except String Int := do
  let (minC, maxC) :=
    if startingCol ≤ nextCol then (startingCol, nextCol)
    else (nextCol, startingCol)
  let maxY ← (intRange minC (maxC + 1)).foldlM
    (fun (maxY : Option Int) col => do
      match dictGet? gridCoords (⟨col, row⟩ : GridIndex) with
      | none => pure maxY
      | some pt => do
        let h ← pyGet rowHeights row
        let newY := pt.y + h
        match maxY with
        | none => pure (some newY)
        | some m => pure (if newY > m then some newY else some m))
    none
  pure (maxY.getD defaultY)

/-! ## `calculate_coordinates`

The walk over `edge.points[1:-1]` creates a single `Point` object
`curr_scene_pt` outside the loop (line 961), mutates its fields each
iteration and appends the *same object* to `edge.coordinates`; every interior
point stored during the walk therefore retroactively shows the value of the
final iteration.  The embedding models the shared object with `PtRef.curr`
and materialises the stored references at the walk's final value. -/

/-- A position in a polyline under construction: a fresh `Point` object, or
the shared `curr_scene_pt` object. -/
inductive PtRef where
  | fresh (p : Point)
  | curr
deriving DecidableEq, Repr

/-- Dereference under the current value of `curr_scene_pt`. -/
def evalRef (P : Point) : PtRef → Point
  | .fresh p => p
  | .curr => P

/-- `add_coord` on a list of references: the comparisons read the fields
through the aliases, i.e. under the current value of `curr_scene_pt`. -/
def addCoordRef (P : Point) (cs : List PtRef) (pt : PtRef) : List PtRef :=
  match cs.dropLast.getLast?, cs.getLast? with
  | some a, some b =>
    let av := evalRef P a
    let bv := evalRef P b
    let pv := evalRef P pt
    if bv.x = av.x ∧ av.x = pv.x then cs.dropLast ++ [pt]
    else if bv.y = av.y ∧ av.y = pv.y then cs.dropLast ++ [pt]
    else cs ++ [pt]
  | _, _ => cs ++ [pt]

/-- The per-edge body of `calculate_coordinates` (layout.py lines 924-1017),
producing the edge with its `coordinates` filled in. -/
def processEdge (gridCoords : List (GridIndex × Point))
    (rowHeights : List Int) (locations : List (Node × GridIndex))
    (nodeCoords : List (Node × Point)) (nodeSizes : List (Node × NodeSize))
    (rowMargin xMargin yMargin : Int) (e : SegmentedEdge) :
    Except String SegmentedEdge := do
  let dstLoc ← dictGetE nodeCoords e.dst
  let dstSize ← dictGetE nodeSizes e.dst
  let srcLoc ← dictGetE nodeCoords e.src
  let srcSize ← dictGetE nodeSizes e.src
  let p0 ← match e.points.head? with
    | some p => pure p
    | none => Except.error "IndexError"
  let startXBase := srcLoc.x + srcSize.width.fdiv 2 -
    (xMargin * ((e.max_start_index : Int) + 1)).fdiv 2
  let startPoint : Point :=
    ⟨startXBase + (p0.idx : Int) * xMargin, srcLoc.y + srcSize.height⟩
  let coords : List PtRef := [.fresh startPoint]
  let startGi ← dictGetE locations e.src
  let prevGrid : GridIndex := ⟨startGi.col + 1, startGi.row + 1⟩
  let y ←
    if e.points.length > 1 then do
      let nextPoint ← match e.points.get? 1 with
        | some p => pure p
        | none => Except.error "IndexError"
      let yBase ← find_nonintersecting_y gridCoords rowHeights
        startGi.row startGi.col nextPoint.col startPoint.y
      pure (yBase + rowMargin + (nextPoint.idx : Int) * yMargin)
    else pure startPoint.y
  let coords := addCoordRef ⟨0, 0⟩ coords (.fresh ⟨startPoint.x, y⟩)
  let prevScene : Point := ⟨startPoint.x, y⟩
  let mid := (e.points.drop 1).dropLast
  let (coords, P, _, prevScene) ← mid.enum.foldlM
    (fun (acc : List PtRef × Point × GridIndex × Point) pi => do
      let (coords, _, prevGrid, prevScene) := acc
      let (ptIdx, pec) := pi
      if pec.col = prevGrid.col then do
        if pec.row = prevGrid.row then Except.error "AssertionError"
        else do
          let newX := prevScene.x
          let prevRow := pec.row - 1
          let gpt ← dictGetE gridCoords (⟨pec.col, prevRow⟩ : GridIndex)
          let h ← pyGet rowHeights prevRow
          let baseY := gpt.y + h + rowMargin
          let newY ←
            if ptIdx + 1 = e.points.length - 2 then pure baseY
            else
              match e.points.get? (ptIdx + 2) with
              | some nc => pure (baseY + ((nc.idx : Int) + yMargin))
              | none => Except.error "IndexError"
          let P : Point := ⟨newX, newY⟩
          pure (addCoordRef P coords .curr, P,
            (⟨pec.col, pec.row⟩ : GridIndex), P)
      else if pec.row = prevGrid.row then do
        let newX ←
          if ptIdx + 1 = e.points.length - 2 then do
            let baseX := dstLoc.x + dstSize.width.fdiv 2
            match e.end_index with
            | some ei => pure (baseX + (ei : Int) * xMargin)
            | none => Except.error "AssertionError"
          else
            match e.points.get? (ptIdx + 2) with
            | some nc => do
              let gpt ← dictGetE gridCoords (⟨pec.col, pec.row⟩ : GridIndex)
              pure (gpt.x + (nc.idx : Int) * xMargin)
            | none => Except.error "IndexError"
        let P : Point := ⟨newX, prevScene.y⟩
        pure (addCoordRef P coords .curr, P,
          (⟨pec.col, pec.row⟩ : GridIndex), P)
      else Except.error "AssertionError")
    (coords, (⟨0, 0⟩ : Point), prevGrid, prevScene)
  -- every stored alias of `curr_scene_pt` now shows its final value
  let coords := coords.map (evalRef P)
  match e.max_end_index with
  | none => Except.error "AssertionError"
  | some mei => do
    let baseX := dstLoc.x + dstSize.width.fdiv 2 -
      (xMargin * ((mei : Int) + 1)).fdiv 2
    let endEc ← match e.points.getLast? with
      | some p => pure p
      | none => Except.error "IndexError"
    let x := baseX + (endEc.idx : Int) * xMargin
    let coords := if x ≠ prevScene.x then addCoord coords ⟨x, prevScene.y⟩
                  else coords
    let endPoint : Point := ⟨x, dstLoc.y - yMargin⟩
    let coords := addCoord coords endPoint
    pure { e with coordinates := coords }

/-- `calculate_coordinates` (layout.py lines 861-1021). -/
def calculate_coordinates (maxRow maxCol : Int) (rowHeights0 colWidths : List Int)
    (locations : List (Node × GridIndex))
    (maxHedge : List (GridIndex × EdgeIndex))
    (rowMargin colMargin xMargin yMargin : Int)
    (nodes : List Node) (nodeSizes : List (Node × NodeSize))
    (edges : List SegmentedEdge) :
    Except String (LayoutResult × List SegmentedEdge) := do
  let rowMaxIdxs : List (Int × EdgeIndex) := maxHedge.foldl
    (fun acc gk =>
      match dictGet? acc gk.1.row with
      | some old => dictSet acc gk.1.row (max gk.2 old)
      | none => dictSet acc gk.1.row gk.2)
    []
  let topMargin := rowMargin * 2 +
    (match dictGet? rowMaxIdxs 0 with
     | some k => yMargin * ((k : Int) + 2)
     | none => 0)
  -- grid scene coordinates; `row_heights[row] is None` is never true for
  -- the integer-filled list, so that branch is a no-op
  let (gridCoords, _) ← (intRange (-1) (maxRow + 2)).foldlM
    (fun (acc : List (GridIndex × Point) × Int) row => do
      let (gc, y) := acc
      let (gc, _) ← (intRange (-1) (maxCol + 2)).foldlM
        (fun (acc2 : List (GridIndex × Point) × Int) col => do
          let (gc, x) := acc2
          let gc := dictSet gc (⟨col, row⟩ : GridIndex) (⟨x, y⟩ : Point)
          let w ← pyGet colWidths col
          pure (gc, x + w + colMargin))
        (gc, 0)
      let bottomMargin := rowMargin * 2 +
        (match dictGet? rowMaxIdxs (row + 1) with
         | some k => yMargin * ((k : Int) + 2)
         | none => 0)
      let h ← pyGet rowHeights0 row
      pure (gc, y + h + bottomMargin))
    ([], topMargin)
  let nodeCoords ← nodes.foldlM
    (fun (nc : List (Node × Point)) node => do
      let gridLoc ← dictGetE locations node
      let gridCoord ← dictGetE gridCoords gridLoc
      let ga ← pyGet colWidths gridLoc.col
      let gb ← pyGet colWidths (gridLoc.col + 1)
      let gh ← pyGet rowHeights0 gridLoc.row
      let ns ← dictGetE nodeSizes node
      pure (dictSet nc node
        (⟨gridCoord.x + ((ga + gb).fdiv 2 - ns.width.fdiv 2),
          gridCoord.y + (gh.fdiv 2 - ns.height.fdiv 2)⟩ : Point)))
    []
  let edges ← edges.mapM
    (processEdge gridCoords rowHeights0 locations nodeCoords nodeSizes
      rowMargin xMargin yMargin)
  let edgeCoords := edges.foldl
    (fun (ec : List (Edge × List Point)) e =>
      dictSet ec ⟨e.src, e.dst⟩ e.coordinates)
    []
  pure (⟨nodeCoords, edgeCoords⟩, edges)

/-! ## `layout` -/

/-- `layout` (layout.py lines 189-255): the full pipeline.  Returns the
`(LayoutResult, edges)` pair of the source; any Python exception raised on
the way aborts the whole call with no partial result. -/
def layout (dg : DiGraph) (nodeSizes : List (Node × NodeSize))
    (key : Node → Int) (opts : LayoutOptions) :
    Except String (LayoutResult × List SegmentedEdge) := do
  let orderedNodes ← quasiTopologicalSort dg
  let dag := toAcyclicGraph dg orderedNodes
  let (maxRows, maxRow) := calculateMaxRow dag orderedNodes
  let (_rows, rowToNodes) ← assignRows orderedNodes maxRows key
  let (colSt, maxCol) ← assign_columns dag rowToNodes key
  let (state, edges) ← route_edges dg colSt.locations maxCol (maxRow : Int)
  let maxV := calculate_max_edge_indices state.vertical_edges
  let maxH := calculate_max_edge_indices state.horizontal_edges
  let (rowHeights, colWidths) ← make_grids (maxRow : Int) maxCol maxV maxH
    dg.nodes colSt.locations nodeSizes opts.x_margin opts.y_margin
  calculate_coordinates (maxRow : Int) maxCol rowHeights colWidths
    colSt.locations maxH opts.row_margin opts.col_margin
    opts.x_margin opts.y_margin dg.nodes nodeSizes edges

/-- The pipeline prefix of `layout` up to and including `route_edges` (the
"routing states reachable on a valid layout": grids built from the computed
node locations). -/
def routingStateOf (dg : DiGraph) (key : Node → Int) :
    Except String (EdgeLayoutState × List SegmentedEdge) := do
  let orderedNodes ← quasiTopologicalSort dg
  let dag := toAcyclicGraph dg orderedNodes
  let (maxRows, maxRow) := calculateMaxRow dag orderedNodes
  let (_rows, rowToNodes) ← assignRows orderedNodes maxRows key
  let (colSt, maxCol) ← assign_columns dag rowToNodes key
  route_edges dg colSt.locations maxCol (maxRow : Int)

/-! ## Dictionary lemmas -/

theorem dictGet?_dictSet_self {α β : Type} [DecidableEq α]
    (d : List (α × β)) (k : α) (v : β) :
    dictGet? (dictSet d k v) k = some v := by
  simp only [dictSet]
  split_ifs with h
  · induction d with
    | nil => simp at h
    | cons kv d ih =>
      simp only [List.any_cons, Bool.or_eq_true, decide_eq_true_eq] at h
      simp only [List.map_cons]
      by_cases hk : kv.1 = k
      · rw [if_pos hk]
        simp only [dictGet?]
        rw [List.find?_cons_of_pos _ (by simp)]
        rfl
      · rw [if_neg hk]
        simp only [dictGet?] at ih ⊢
        rw [List.find?_cons_of_neg _ (by simpa using hk)]
        exact ih (h.resolve_left hk)
  · induction d with
    | nil => simp [dictGet?]
    | cons kv d ih =>
      simp only [List.any_cons, Bool.or_eq_true, decide_eq_true_eq,
        not_or] at h
      simp only [List.cons_append, dictGet?] at ih ⊢
      rw [List.find?_cons_of_neg _ (by simpa using h.1)]
      exact ih h.2

theorem dictGet?_dictSet_ne {α β : Type} [DecidableEq α]
    (d : List (α × β)) (k k' : α) (v : β) (hne : k' ≠ k) :
    dictGet? (dictSet d k v) k' = dictGet? d k' := by
  simp only [dictSet]
  split_ifs with h
  · clear h
    induction d with
    | nil => simp
    | cons kv d ih =>
      simp only [List.map_cons]
      simp only [dictGet?] at ih ⊢
      by_cases hk : kv.1 = k
      · rw [if_pos hk]
        rw [List.find?_cons_of_neg _ (by simpa using fun hh => hne hh.symm),
            List.find?_cons_of_neg _ (by rw [hk]; simpa using fun hh => hne hh.symm)]
        exact ih
      · rw [if_neg hk]
        by_cases hk' : kv.1 = k'
        · rw [List.find?_cons_of_pos _ (by simpa using hk'),
              List.find?_cons_of_pos _ (by simpa using hk')]
        · rw [List.find?_cons_of_neg _ (by simpa using hk'),
              List.find?_cons_of_neg _ (by simpa using hk')]
          exact ih
  · clear h
    induction d with
    | nil =>
      simp only [List.nil_append, dictGet?]
      rw [List.find?_cons_of_neg _ (by simpa using fun hh => hne hh.symm)]
    | cons kv d ih =>
      simp only [List.cons_append, dictGet?] at ih ⊢
      by_cases hk' : kv.1 = k'
      · rw [List.find?_cons_of_pos _ (by simpa using hk'),
            List.find?_cons_of_pos _ (by simpa using hk')]
      · rw [List.find?_cons_of_neg _ (by simpa using hk'),
            List.find?_cons_of_neg _ (by simpa using hk')]
        exact ih

/-! ## The claims -/

/-- The two-node graph `0 ⇄ 1`: a single strongly connected component of
size 2 with no external edges. -/
def twoCycleGraph : DiGraph := ⟨[0, 1], [(0, 1), (1, 0)]⟩

/-- C1.  The claim says `quasi_topological_sort` terminates and returns a
permutation of the nodes for **every** directed graph, in particular for a
graph that is a single SCC of size k.  The code instead raises
`TypeError: unhashable type: 'set'` for every graph with a multi-node SCC:
`indexed_sccs = {scc: idx for (idx, scc) in enumerate(sccs)}` uses the
`set` objects yielded by `networkx.strongly_connected_components` as dict
keys, and Python sets are unhashable.  At the failing input `0 ⇄ 1` (one SCC
of size 2) no list at all is returned, so no permutation is. -/
theorem C1_qts_raises_on_two_node_scc :
    quasiTopologicalSort twoCycleGraph =
      .error "TypeError: unhashable type: 'set'" ∧
    ¬∃ l, quasiTopologicalSort twoCycleGraph = .ok l := by
  refine ⟨by rfl, ?_⟩
  rintro ⟨l, hl⟩
  rw [(by rfl : quasiTopologicalSort twoCycleGraph =
    .error "TypeError: unhashable type: 'set'")] at hl
  cases hl

/-- C6.  `layout` is deterministic: it is a pure function of the graph's
iteration sequences, the size map, the comparison key and the options — the
model resolves every dict/set iteration the source performs on the
non-raising path deterministically from the insertion orders, so two
invocations on identical inputs return identical `(LayoutResult, edges)`
values (or raise identically). -/
theorem C6_layout_deterministic (dg dg' : DiGraph)
    (ns ns' : List (Node × NodeSize)) (key key' : Node → Int)
    (opts opts' : LayoutOptions) (hg : dg = dg') (hn : ns = ns')
    (hk : key = key') (ho : opts = opts') :
    layout dg ns key opts = layout dg' ns' key' opts' := by
  subst hg
  subst hn
  subst hk
  subst ho
  rfl

/-! ### C7: in-edge rank assignment -/

theorem get?_updateEdge_ne (edges : List SegmentedEdge) (i j : Nat)
    (f : SegmentedEdge → SegmentedEdge) (h : j ≠ i) :
    (updateEdge edges i f).get? j = edges.get? j := by
  simp only [updateEdge]
  cases edges.get? i with
  | none => rfl
  | some e =>
    set_option linter.deprecated false in
    exact List.get?_set_ne _ _ (fun hh => h hh.symm)

theorem get?_updateEdge_self (edges : List SegmentedEdge) (i : Nat)
    (f : SegmentedEdge → SegmentedEdge) (e : SegmentedEdge)
    (h : edges.get? i = some e) :
    (updateEdge edges i f).get? i = some (f e) := by
  simp only [updateEdge, h]
  set_option linter.deprecated false in
  rw [List.get?_set_eq, h]
  rfl

theorem get?_applyEndIndices_notMem (edges : List SegmentedEdge)
    (ids2 : List Nat) (i : Nat) (h : ∀ k ∈ ids2, k ≠ i) :
    (applyEndIndices edges ids2).get? i = edges.get? i := by
  have step1 : ∀ (es : List SegmentedEdge) (l : List (Nat × Nat)),
      (∀ p ∈ l, p.2 ≠ i) →
      (l.foldl (fun es ki => updateEdge es ki.2
        (fun e => { e with end_index := some ki.1 })) es).get? i = es.get? i := by
    intro es l
    induction l generalizing es with
    | nil => intro _; rfl
    | cons p l ih =>
      intro hl
      rw [List.foldl_cons, ih _ (fun q hq => hl q (.tail _ hq))]
      exact get?_updateEdge_ne _ _ _ _ (fun hh => hl p (.head _) hh.symm)
  have step2 : ∀ (es : List SegmentedEdge) (l : List Nat),
      (∀ k ∈ l, k ≠ i) →
      (l.foldl (fun es k => updateEdge es k
        (fun e => { e with max_end_index := some (ids2.length - 1) })) es).get? i
        = es.get? i := by
    intro es l
    induction l generalizing es with
    | nil => intro _; rfl
    | cons p l ih =>
      intro hl
      rw [List.foldl_cons, ih _ (fun q hq => hl q (.tail _ hq))]
      exact get?_updateEdge_ne _ _ _ _ (fun hh => hl p (.head _) hh.symm)
  have henum : ∀ p ∈ ids2.enum, p.2 ≠ i := by
    intro p hp
    exact h p.2 (List.snd_mem_of_mem_enum hp)
  simp only [applyEndIndices]
  match ids2, h, henum with
  | [], h, henum => exact step1 edges [] (by simp)
  | a :: rest, h, henum => rw [step2 _ _ h, step1 _ _ henum]

theorem mem_inGroupOrder (edges : List SegmentedEdge) (ids : List Nat)
    (k : Nat) (h : k ∈ inGroupOrder edges ids) : k ∈ ids := by
  match ids with
  | [] => exact h
  | [a] => exact h
  | [a, b] =>
    simp only [inGroupOrder] at h
    split_ifs at h <;> simp at h <;> rcases h with rfl | rfl <;> simp
  | a :: b :: c :: l => exact h

theorem get?_setInGroup_notMem (edges : List SegmentedEdge)
    (ids : List Nat) (i : Nat) (h : i ∉ ids) :
    (setInGroup edges ids).get? i = edges.get? i :=
  get?_applyEndIndices_notMem _ _ _
    (fun k hk hki => h (hki ▸ mem_inGroupOrder edges ids k hk))

theorem applyEndIndices_pair (edges : List SegmentedEdge) (a b : Nat)
    (ea eb : SegmentedEdge) (hne : a ≠ b)
    (ha : edges.get? a = some ea) (hb : edges.get? b = some eb) :
    (applyEndIndices edges [a, b]).get? a =
      some { ea with end_index := some 0, max_end_index := some 1 } ∧
    (applyEndIndices edges [a, b]).get? b =
      some { eb with end_index := some 1, max_end_index := some 1 } := by
  have hrw : applyEndIndices edges [a, b] =
      updateEdge (updateEdge (updateEdge (updateEdge edges a
        (fun e => { e with end_index := some 0})) b
        (fun e => { e with end_index := some 1 })) a
        (fun e => { e with max_end_index := some 1 })) b
        (fun e => { e with max_end_index := some 1 }) := rfl
  rw [hrw]
  have h1a : (updateEdge edges a
      (fun e => { e with end_index := some 0 })).get? a =
      some { ea with end_index := some 0 } := get?_updateEdge_self _ _ _ _ ha
  have h1b : (updateEdge edges a
      (fun e => { e with end_index := some 0 })).get? b = some eb := by
    rw [get?_updateEdge_ne _ _ _ _ (fun h => hne h.symm)]
    exact hb
  have h2a : (updateEdge (updateEdge edges a
      (fun e => { e with end_index := some 0 })) b
      (fun e => { e with end_index := some 1 })).get? a =
      some { ea with end_index := some 0 } := by
    rw [get?_updateEdge_ne _ _ _ _ hne]
    exact h1a
  have h2b : (updateEdge (updateEdge edges a
      (fun e => { e with end_index := some 0 })) b
      (fun e => { e with end_index := some 1 })).get? b =
      some { eb with end_index := some 1 } := get?_updateEdge_self _ _ _ _ h1b
  have h3a := get?_updateEdge_self _ a
    (fun e => { e with max_end_index := some 1 })
    { ea with end_index := some 0 } h2a
  have h3b : (updateEdge (updateEdge (updateEdge edges a
      (fun e => { e with end_index := some 0 })) b
      (fun e => { e with end_index := some 1 })) a
      (fun e => { e with max_end_index := some 1 })).get? b =
      some { eb with end_index := some 1 } := by
    rw [get?_updateEdge_ne _ _ _ _ (fun h => hne h.symm)]
    exact h2b
  have h4a : _ := get?_updateEdge_ne (updateEdge (updateEdge (updateEdge edges a
      (fun e => { e with end_index := some 0 })) b
      (fun e => { e with end_index := some 1 })) a
      (fun e => { e with max_end_index := some 1 })) b a
      (fun e => { e with max_end_index := some 1 }) hne
  have h4b := get?_updateEdge_self _ b
    (fun e => { e with max_end_index := some 1 })
    { eb with end_index := some 1 } h3b
  exact ⟨h4a.trans h3a, h4b⟩

/-- C7.  For every node with exactly two routed incoming edges,
`set_in_edge_indices` gives the two edges the distinct `end_index` values 0
and 1 and gives both `max_end_index = 1`, ranking the edge whose last
horizontal jog is `Right` before the edge whose last jog is `Left`.
The hypotheses state what `route_edges` guarantees of its state: group keys
are distinct and the two edge ids appear in no other group. -/
theorem C7_set_in_edge_indices_two_edges (st : EdgeLayoutState)
    (edges : List SegmentedEdge) (n : Node) (i j : Nat)
    (ei ej : SegmentedEdge)
    (hmem : (n, [i, j]) ∈ st.in_edges)
    (hkeys : (st.in_edges.map (·.1)).Nodup)
    (hdisj : ∀ g ∈ st.in_edges, g.1 ≠ n → i ∉ g.2 ∧ j ∉ g.2)
    (hne : i ≠ j)
    (hi : edges.get? i = some ei) (hj : edges.get? j = some ej) :
    ∃ ei' ej',
      (set_in_edge_indices st edges).get? i = some ei' ∧
      (set_in_edge_indices st edges).get? j = some ej' ∧
      ei'.max_end_index = some 1 ∧ ej'.max_end_index = some 1 ∧
      ((ei'.end_index = some 0 ∧ ej'.end_index = some 1) ∨
       (ei'.end_index = some 1 ∧ ej'.end_index = some 0)) ∧
      (ei.last_move = .RIGHT → ej.last_move = .LEFT →
        ei'.end_index = some 0 ∧ ej'.end_index = some 1) ∧
      (ei.last_move = .LEFT → ej.last_move = .RIGHT →
        ei'.end_index = some 1 ∧ ej'.end_index = some 0) := by
  obtain ⟨pre, post, hsplit⟩ := List.append_of_mem hmem
  have hframe : ∀ (gs : List (Node × List Nat)) (es : List SegmentedEdge),
      (∀ g ∈ gs, i ∉ g.2 ∧ j ∉ g.2) →
      ((gs.foldl (fun es g => setInGroup es g.2) es).get? i = es.get? i ∧
       (gs.foldl (fun es g => setInGroup es g.2) es).get? j = es.get? j) := by
    intro gs
    induction gs with
    | nil => exact fun es _ => ⟨rfl, rfl⟩
    | cons g gs ih =>
      intro es hall
      rw [List.foldl_cons]
      obtain ⟨hI, hJ⟩ := ih (setInGroup es g.2) (fun g' hg' => hall g' (.tail _ hg'))
      refine ⟨hI.trans ?_, hJ.trans ?_⟩
      · exact get?_setInGroup_notMem _ _ _ (hall g (.head _)).1
      · exact get?_setInGroup_notMem _ _ _ (hall g (.head _)).2
  have hkeyn : ∀ g, g ∈ pre ∨ g ∈ post → g.1 ≠ n := by
    intro g hg
    have hks := hkeys
    rw [hsplit] at hks
    simp only [List.map_append, List.map_cons] at hks
    intro hgn
    rcases hg with hg | hg
    · have hd := (List.nodup_append.mp hks).2.2
      have hmem1 : (n : Node) ∈ pre.map (·.1) := by
        simpa [hgn] using List.mem_map_of_mem (·.1) hg
      exact hd hmem1 (by simp)
    · have hd := (List.nodup_append.mp hks).2.1
      rw [List.nodup_cons] at hd
      exact hd.1 (by simpa [hgn] using List.mem_map_of_mem (·.1) hg)
  have hother : ∀ g, g ∈ pre ∨ g ∈ post → i ∉ g.2 ∧ j ∉ g.2 := by
    intro g hg
    refine hdisj g ?_ (hkeyn g hg)
    rw [hsplit]
    rcases hg with hg | hg
    · exact List.mem_append_left _ hg
    · exact List.mem_append_right _ (List.mem_cons_of_mem _ hg)
  simp only [set_in_edge_indices, hsplit, List.foldl_append, List.foldl_cons]
  obtain ⟨hpreI, hpreJ⟩ := hframe pre edges (fun g hg => hother g (.inl hg))
  set esMid := setInGroup (pre.foldl (fun es g => setInGroup es g.2) edges) [i, j]
    with hmid
  obtain ⟨hpostI, hpostJ⟩ := hframe post esMid (fun g hg => hother g (.inr hg))
  have hvi : lastMoveVal (pre.foldl (fun es g => setInGroup es g.2) edges) i =
      ei.last_move.value := by
    simp only [lastMoveVal, hpreI, hi]
  have hvj : lastMoveVal (pre.foldl (fun es g => setInGroup es g.2) edges) j =
      ej.last_move.value := by
    simp only [lastMoveVal, hpreJ, hj]
  by_cases hlt : lastMoveVal (pre.foldl (fun es g => setInGroup es g.2) edges) i <
      lastMoveVal (pre.foldl (fun es g => setInGroup es g.2) edges) j
  · have hORD : inGroupOrder (pre.foldl (fun es g => setInGroup es g.2) edges)
        [i, j] = [j, i] := by simp [inGroupOrder, hlt]
    obtain ⟨hJ2, hI2⟩ := applyEndIndices_pair
      (pre.foldl (fun es g => setInGroup es g.2) edges) j i ej ei
      (fun h => hne h.symm) (hpreJ.trans hj) (hpreI.trans hi)
    have hImid : esMid.get? i =
        some { ei with end_index := some 1, max_end_index := some 1 } := by
      rw [hmid, setInGroup, hORD]
      exact hI2
    have hJmid : esMid.get? j =
        some { ej with end_index := some 0, max_end_index := some 1 } := by
      rw [hmid, setInGroup, hORD]
      exact hJ2
    refine ⟨_, _, hpostI.trans hImid, hpostJ.trans hJmid, rfl, rfl,
      .inr ⟨rfl, rfl⟩, ?_, ?_⟩
    · intro hR hL
      rw [hvi, hvj, hR, hL] at hlt
      simp [Move.value] at hlt
    · intro _ _
      exact ⟨rfl, rfl⟩
  · have hORD : inGroupOrder (pre.foldl (fun es g => setInGroup es g.2) edges)
        [i, j] = [i, j] := by simp [inGroupOrder, hlt]
    obtain ⟨hI2, hJ2⟩ := applyEndIndices_pair
      (pre.foldl (fun es g => setInGroup es g.2) edges) i j ei ej
      hne (hpreI.trans hi) (hpreJ.trans hj)
    have hImid : esMid.get? i =
        some { ei with end_index := some 0, max_end_index := some 1 } := by
      rw [hmid, setInGroup, hORD]
      exact hI2
    have hJmid : esMid.get? j =
        some { ej with end_index := some 1, max_end_index := some 1 } := by
      rw [hmid, setInGroup, hORD]
      exact hJ2
    refine ⟨_, _, hpostI.trans hImid, hpostJ.trans hJmid, rfl, rfl,
      .inl ⟨rfl, rfl⟩, ?_, ?_⟩
    · intro _ _
      exact ⟨rfl, rfl⟩
    · intro hL hR
      rw [hvi, hvj, hL, hR] at hlt
      simp [Move.value] at hlt

/-- Witness for C7: a two-group state with one `Right`-ending and one
`Left`-ending edge into node 7. -/
theorem C7_set_in_edge_indices_two_edges_witness :
    ∃ ei' ej',
      (set_in_edge_indices
        ⟨[], [], [], [], [(7, [0, 1])], []⟩
        [{ src := 1, dst := 7, moves := [.RIGHT] },
         { src := 2, dst := 7, moves := [.LEFT] }]).get? 0 = some ei' ∧
      (set_in_edge_indices
        ⟨[], [], [], [], [(7, [0, 1])], []⟩
        [{ src := 1, dst := 7, moves := [.RIGHT] },
         { src := 2, dst := 7, moves := [.LEFT] }]).get? 1 = some ej' ∧
      ei'.max_end_index = some 1 ∧ ej'.max_end_index = some 1 ∧
      ((ei'.end_index = some 0 ∧ ej'.end_index = some 1) ∨
       (ei'.end_index = some 1 ∧ ej'.end_index = some 0)) ∧
      (SegmentedEdge.last_move { src := 1, dst := 7, moves := [.RIGHT] } = .RIGHT →
       SegmentedEdge.last_move { src := 2, dst := 7, moves := [.LEFT] } = .LEFT →
        ei'.end_index = some 0 ∧ ej'.end_index = some 1) ∧
      (SegmentedEdge.last_move { src := 1, dst := 7, moves := [.RIGHT] } = .LEFT →
       SegmentedEdge.last_move { src := 2, dst := 7, moves := [.LEFT] } = .RIGHT →
        ei'.end_index = some 1 ∧ ej'.end_index = some 0) :=
  C7_set_in_edge_indices_two_edges _ _ 7 0 1 _ _ (by simp) (by simp)
    (by simp) (by simp) (by rfl) (by rfl)

/-! ### C4: lane indices in grid cells -/

/-- Every cell of a grid has pairwise-distinct lane indices (dict keys). -/
def cellKeysNodup (grid : List (List Cell)) : Prop :=
  ∀ row ∈ grid, ∀ c ∈ row, (c.map (·.1)).Nodup

/-- Both routing grids have pairwise-distinct lane indices per cell. -/
def stateCellsNodup (st : EdgeLayoutState) : Prop :=
  cellKeysNodup st.vertical_edges ∧ cellKeysNodup st.horizontal_edges

theorem foldlM_invariant {α β : Type} {P : β → Prop}
    {step : β → α → Except String β}
    (hstep : ∀ b a b', P b → step b a = .ok b' → P b') :
    ∀ (l : List α) (init r : β), P init → l.foldlM step init = .ok r → P r := by
  intro l
  induction l with
  | nil =>
    intro init r hP h
    simp only [List.foldlM_nil] at h
    cases h
    exact hP
  | cons a l ih =>
    intro init r hP h
    rw [List.foldlM_cons] at h
    obtain ⟨b, hb, hrest⟩ := except_bind_ok h
    exact ih b r (hstep init a b hP hb) hrest

theorem pyGet_mem {α : Type} {l : List α} {i : Int} {a : α}
    (h : pyGet l i = .ok a) : a ∈ l := by
  simp only [pyGet] at h
  set j := if i < 0 then i + (l.length : Int) else i with hj
  split_ifs at h
  · cases hg : l.get? j.toNat with
    | none => rw [hg] at h; cases h
    | some b =>
      rw [hg] at h
      cases h
      exact List.get?_mem hg

theorem pySet_forall {α : Type} {P : α → Prop} {l l' : List α} {i : Int}
    {v : α} (hl : ∀ x ∈ l, P x) (hv : P v) (h : pySet l i v = .ok l') :
    ∀ x ∈ l', P x := by
  simp only [pySet] at h
  set j := if i < 0 then i + (l.length : Int) else i with hj
  split_ifs at h
  · cases h
    intro x hx
    rcases List.mem_or_eq_of_mem_set hx with hx2 | rfl
    · exact hl x hx2
    · exact hv

theorem set2D_preserve {α : Type} {P : α → Prop} {g g' : List (List α)}
    {i j : Int} {v : α} (hg : ∀ row ∈ g, ∀ x ∈ row, P x) (hv : P v)
    (h : set2D g i j v = .ok g') : ∀ row ∈ g', ∀ x ∈ row, P x := by
  simp only [set2D] at h
  obtain ⟨row, hrow, h⟩ := except_bind_ok h
  obtain ⟨row2, hrow2, h⟩ := except_bind_ok h
  have hrow2P : ∀ x ∈ row2, P x :=
    pySet_forall (hg row (pyGet_mem hrow)) hv hrow2
  exact pySet_forall (P := fun rr => ∀ x ∈ rr, P x) hg hrow2P h

theorem dictSet_keys_nodup {α β : Type} [DecidableEq α]
    {d : List (α × β)} {k : α} {v : β}
    (h : (d.map (·.1)).Nodup) : ((dictSet d k v).map (·.1)).Nodup := by
  simp only [dictSet]
  split_ifs with hmem
  · have : ((d.map (fun kv => if kv.1 = k then (k, v) else kv)).map (·.1)) =
        d.map (·.1) := by
      rw [List.map_map]
      refine List.map_congr_left ?_
      intro kv _
      by_cases hk : kv.1 = k
      · simp [hk]
      · simp [hk]
    rw [this]
    exact h
  · simp only [List.map_append, List.map_cons, List.map_nil]
    rw [List.nodup_append]
    refine ⟨h, List.nodup_singleton k, ?_⟩
    intro x hx hx2
    simp only [List.mem_singleton] at hx2
    subst hx2
    simp only [List.any_eq_true, decide_eq_true_eq] at hmem
    obtain ⟨kv, hkv, hk⟩ := List.mem_map.mp hx
    exact hmem ⟨kv, hkv, hk⟩

theorem assign_vertical_edge_nodup {grid g' : List (List Cell)}
    {edgeId : Nat} {col row numBlocks : Int} {idx : EdgeIndex}
    (hg : cellKeysNodup grid)
    (h : assign_vertical_edge grid edgeId col row numBlocks = .ok (g', idx)) :
    cellKeysNodup g' := by
  simp only [assign_vertical_edge] at h
  obtain ⟨indices, _, h⟩ := except_bind_ok h
  obtain ⟨i2, _, h⟩ := except_bind_ok h
  obtain ⟨gfinal, hgf, h⟩ := except_bind_ok h
  have hg'' : g' = gfinal := by
    simp only [pure, Except.pure] at h
    cases h
    rfl
  subst hg''
  refine foldlM_invariant ?_ _ grid g' hg hgf
  intro g r g2 hPg hstep
  obtain ⟨cell, hcell, hset⟩ := except_bind_ok hstep
  have hcellmem : ∃ rw ∈ g, cell ∈ rw := by
    simp only [get2D] at hcell
    obtain ⟨rw, hrw, hc⟩ := except_bind_ok hcell
    exact ⟨rw, pyGet_mem hrw, pyGet_mem hc⟩
  obtain ⟨rw, hrw, hcm⟩ := hcellmem
  exact set2D_preserve hPg (dictSet_keys_nodup (hPg rw hrw cell hcm)) hset

theorem assign_horizontal_edge_nodup {grid g' : List (List Cell)}
    {edgeId : Nat} {col row numBlocks : Int} {idx : EdgeIndex}
    (hg : cellKeysNodup grid)
    (h : assign_horizontal_edge grid edgeId col row numBlocks = .ok (g', idx)) :
    cellKeysNodup g' := by
  simp only [assign_horizontal_edge] at h
  obtain ⟨indices, _, h⟩ := except_bind_ok h
  obtain ⟨i2, _, h⟩ := except_bind_ok h
  obtain ⟨gfinal, hgf, h⟩ := except_bind_ok h
  have hg'' : g' = gfinal := by
    simp only [pure, Except.pure] at h
    cases h
    rfl
  subst hg''
  refine foldlM_invariant ?_ _ grid g' hg hgf
  intro g c g2 hPg hstep
  obtain ⟨cell, hcell, hset⟩ := except_bind_ok hstep
  have hcellmem : ∃ rw ∈ g, cell ∈ rw := by
    simp only [get2D] at hcell
    obtain ⟨rw, hrw, hc⟩ := except_bind_ok hcell
    exact ⟨rw, pyGet_mem hrw, pyGet_mem hc⟩
  obtain ⟨rw, hrw, hcm⟩ := hcellmem
  exact set2D_preserve hPg (dictSet_keys_nodup (hPg rw hrw cell hcm)) hset

theorem startJog_cells_nodup {e e' : SegmentedEdge}
    {st st' : EdgeLayoutState} {edgeId : Nat} {startCol startRow col : Int}
    (hst : stateCellsNodup st)
    (h : startJog e st edgeId startCol startRow col = .ok (e', st')) :
    stateCellsNodup st' := by
  simp only [startJog] at h
  split at h
  · obtain ⟨p, hp, h⟩ := except_bind_ok h
    rcases p with ⟨hg, idx⟩
    simp only [pure, Except.pure] at h
    cases h
    exact ⟨hst.1, assign_horizontal_edge_nodup hst.2 hp⟩
  · obtain ⟨p, hp, h⟩ := except_bind_ok h
    rcases p with ⟨hg, idx⟩
    simp only [pure, Except.pure] at h
    cases h
    exact ⟨hst.1, assign_horizontal_edge_nodup hst.2 hp⟩

theorem mainVertical_cells_nodup {e e' : SegmentedEdge}
    {st st' : EdgeLayoutState} {edgeId : Nat} {col startRow endRow : Int}
    (hst : stateCellsNodup st)
    (h : mainVertical e st edgeId col startRow endRow = .ok (e', st')) :
    stateCellsNodup st' := by
  simp only [mainVertical] at h
  split at h
  · obtain ⟨p, hp, h⟩ := except_bind_ok h
    rcases p with ⟨vg, idx⟩
    simp only [pure, Except.pure] at h
    cases h
    exact ⟨assign_vertical_edge_nodup hst.1 hp, hst.2⟩
  · simp only [pure, Except.pure] at h
    cases h
    exact hst

theorem endJog_cells_nodup {e e' : SegmentedEdge}
    {st st' : EdgeLayoutState} {edgeId : Nat} {col endCol endRow : Int}
    (hst : stateCellsNodup st)
    (h : endJog e st edgeId col endCol endRow = .ok (e', st')) :
    stateCellsNodup st' := by
  simp only [endJog] at h
  split at h
  · obtain ⟨p, hp, h⟩ := except_bind_ok h
    rcases p with ⟨hg, idx⟩
    obtain ⟨p2, hp2, h⟩ := except_bind_ok h
    rcases p2 with ⟨vg, idx2⟩
    simp only [pure, Except.pure] at h
    cases h
    exact ⟨assign_vertical_edge_nodup
      (show stateCellsNodup ⟨st.edge_valid, st.vertical_edges, hg,
        st.node_locations, st.in_edges, st.out_edges⟩ from
        ⟨hst.1, assign_horizontal_edge_nodup hst.2 hp⟩).1 hp2,
      assign_horizontal_edge_nodup hst.2 hp⟩
  · simp only [pure, Except.pure] at h
    cases h
    exact hst

theorem route_edge_cells_nodup {edges es' : List SegmentedEdge}
    {st st' : EdgeLayoutState} {src dst : Node}
    (hst : stateCellsNodup st)
    (h : route_edge edges st src dst = .ok (es', st')) :
    stateCellsNodup st' := by
  simp only [route_edge] at h
  obtain ⟨sgi, _, h⟩ := except_bind_ok h
  obtain ⟨egi, _, h⟩ := except_bind_ok h
  obtain ⟨p1, hp1, h⟩ := except_bind_ok h
  rcases p1 with ⟨vg1, idx1⟩
  simp only at h
  obtain ⟨col, _, h⟩ := except_bind_ok h
  obtain ⟨p2, hp2, h⟩ := except_bind_ok h
  rcases p2 with ⟨e2, st2⟩
  have hst2 : stateCellsNodup st2 := by
    refine startJog_cells_nodup ?_ hp2
    exact ⟨assign_vertical_edge_nodup hst.1 hp1, hst.2⟩
  simp only at h
  obtain ⟨p4, hp4, h⟩ := except_bind_ok h
  rcases p4 with ⟨e4, st4⟩
  have hst4 : stateCellsNodup st4 := mainVertical_cells_nodup hst2 hp4
  simp only at h
  obtain ⟨p6, hp6, h⟩ := except_bind_ok h
  rcases p6 with ⟨e6, st6⟩
  have hst6 : stateCellsNodup st6 := endJog_cells_nodup hst4 hp6
  simp only [pure, Except.pure] at h
  cases h
  exact hst6

/-- C4 (amended).  In every routing state reachable by routing any sequence
of edges from a fresh `EdgeLayoutState`, the lane indices stored in any
single cell of the vertical- or horizontal-edge grid are pairwise distinct
(they are dict keys).  Contiguity from 0, the rest of the original claim, is
refuted by `C4_lane_contiguity_counterexample`. -/
theorem C4_lane_indices_pairwise_distinct
    (locs : List (Node × GridIndex)) (maxCol maxRow : Int)
    (st0 : EdgeLayoutState)
    (h0 : mkEdgeLayoutState maxCol maxRow locs = .ok st0)
    (pre : List (Node × Node)) (es : List SegmentedEdge)
    (st : EdgeLayoutState)
    (h : pre.foldlM
      (fun (acc : List SegmentedEdge × EdgeLayoutState) e =>
        route_edge acc.1 acc.2 e.1 e.2)
      (([] : List SegmentedEdge), st0) = .ok (es, st)) :
    stateCellsNodup st := by
  have hinit : stateCellsNodup st0 := by
    simp only [mkEdgeLayoutState] at h0
    obtain ⟨ev, _, h0⟩ := except_bind_ok h0
    cases h0
    constructor <;>
    · intro row hrow c hc
      rw [List.eq_of_mem_replicate hrow] at hc
      rw [List.eq_of_mem_replicate hc]
      simp
  have := foldlM_invariant
    (P := fun (acc : List SegmentedEdge × EdgeLayoutState) =>
      stateCellsNodup acc.2)
    ?_ pre ([], st0) (es, st) hinit h
  · exact this
  · intro b a b' hP hstep
    rcases hb' : b' with ⟨es2, st2⟩
    rw [hb'] at hstep
    exact route_edge_cells_nodup hP hstep

/-- Witness for C4: the empty routing state over an empty location map. -/
theorem C4_lane_indices_pairwise_distinct_witness :
    ∃ st0, mkEdgeLayoutState 0 0 [] = .ok st0 ∧ stateCellsNodup st0 := by
  refine ⟨_, rfl, ?_⟩
  exact C4_lane_indices_pairwise_distinct [] 0 0 _ rfl [] [] _ rfl

/-- The lane-index set of a cell is contiguous starting at 0. -/
def contiguousFromZero (c : Cell) : Bool :=
  pySorted (fun a b => a ≤ b) (c.map (·.1)) = List.range c.length

/-- Uniform `100 × 40` node sizes, as in the spec's concrete scenarios. -/
def uniformSizes (ns : List Node) : List (Node × NodeSize) :=
  ns.map (fun n => (n, ⟨100, 40⟩))

/-- A three-node fan: `0 → 1` and `0 → 2`. -/
def threeNodeFanGraph : DiGraph := ⟨[0, 1, 2], [(0, 1), (0, 2)]⟩

/-- Three roots joined into one sink: `0 → 3`, `1 → 3`, `2 → 3`.  With one
edge per source the edge list is trivially grouped by source, so it is
exactly what `networkx`'s `edges()` yields after inserting the nodes
`0, 1, 2, 3` and these edges in this order. -/
def tripleJoinGraph : DiGraph := ⟨[0, 1, 2, 3], [(0, 3), (1, 3), (2, 3)]⟩

/-- Counterexample for C4.  Routing the three-node fan succeeds and leaves
the horizontal-edge cell at column 2, row 1 holding exactly lane `{1}` — a
set that is not contiguous from 0 (the first edge's end jog was numbered
above the "just in case" segment already occupying its span).  Moreover the
same mechanism fires the single-index assertion of `first_unused_index`
(layout.py line 712) on `tripleJoinGraph`: columns place `0, 1, 2` at
columns 1, 3, 5 of row 0 and the sink `3` at column 3 of row 1, so edge
`(0,3)`'s end jog writes lane 1 across horizontal cells `(2,1)..(4,1)`,
leaving cell `(4,1)` holding exactly `{1}`; routing the next edge `(1,3)`
then scans cells `(4,1),(5,1)` for its "just in case" horizontal segment,
finds the singleton `{1} ≠ {0}` and hits `assert(sorted_indices[0] == 0)` —
so `route_edges`, and with it `layout`, raises `AssertionError` on a valid
input.  Both graphs' edge lists are grouped by source, hence realizable
`edges()` sequences. -/
theorem C4_lane_contiguity_counterexample :
    (routingStateOf threeNodeFanGraph (fun n => n)).map
        (fun r => (get2D r.1.horizontal_edges 2 1).map
          (fun c => (c, contiguousFromZero c))) =
      .ok (.ok ([(1, 0)], false)) ∧
    threeNodeFanGraph.edgesGroupedBySource ∧
    tripleJoinGraph.edgesGroupedBySource ∧
    routingStateOf tripleJoinGraph (fun n => n) = .error "AssertionError" ∧
    layout tripleJoinGraph (uniformSizes tripleJoinGraph.nodes)
      (fun n => n) DEFAULT_LAYOUT = .error "AssertionError" := by
  exact ⟨rfl, by decide, by decide, rfl, rfl⟩

/-! ### C9: collinear merging of polylines -/

/-- The claim's property of a finished polyline: no three consecutive points
all share one x-coordinate or all share one y-coordinate. -/
def collinearMerged : List Point → Bool
  | a :: b :: c :: rest =>
    if (a.x = b.x ∧ b.x = c.x) ∨ (a.y = b.y ∧ b.y = c.y) then false
    else collinearMerged (b :: c :: rest)
  | _ => true

/-- The 4-node DAG `0→2, 0→3, 1→2, 2→3` on which `layout` (with default
options and uniform `100×40` sizes) emits a polyline violating C9. -/
def fourNodeGraph : DiGraph := ⟨[0, 1, 2, 3], [(0, 2), (0, 3), (1, 2), (2, 3)]⟩

/-- Counterexample for C9.  On `fourNodeGraph` the returned polyline of edge
`0 → 3` is `[(122,104), (122,130), (122,217), (112,217), (112,238)]`, whose
first three points all share `x = 122`: the interior waypoints were appended
as aliases of the single mutable `curr_scene_pt` object (layout.py line 961)
and were retroactively overwritten by its final field assignment, so the
collinear-merging of `add_coord` does not hold of the final polyline. -/
theorem C9_collinear_counterexample :
    (layout fourNodeGraph (uniformSizes fourNodeGraph.nodes) (fun n => n)
        DEFAULT_LAYOUT).map
      (fun r => (dictGet? r.1.edges ⟨0, 3⟩).map
        (fun poly => (poly, collinearMerged poly))) =
      .ok (some ([⟨122, 104⟩, ⟨122, 130⟩, ⟨122, 217⟩, ⟨112, 217⟩, ⟨112, 238⟩],
        false)) := by
  rfl

/-- The check `collinearMerged` performs on one consecutive triple. -/
def tripleOK (a b c : Point) : Prop :=
  ¬((a.x = b.x ∧ b.x = c.x) ∨ (a.y = b.y ∧ b.y = c.y))

theorem collinearMerged_cons {a b c : Point} {rest : List Point} :
    collinearMerged (a :: b :: c :: rest) = true ↔
      tripleOK a b c ∧ collinearMerged (b :: c :: rest) = true := by
  simp only [collinearMerged, tripleOK]
  split_ifs with h <;> simp [h]

theorem collinearMerged_tail {x : Point} {t : List Point}
    (h : collinearMerged (x :: t) = true) : collinearMerged t = true := by
  match t with
  | [] => rfl
  | [a] => rfl
  | a :: b :: rest => exact (collinearMerged_cons.mp h).2

theorem collinearMerged_suffix {t : List Point} :
    ∀ (l : List Point), collinearMerged (l ++ t) = true →
      collinearMerged t = true
  | [], h => h
  | x :: l, h =>
    collinearMerged_suffix l (collinearMerged_tail h)

theorem tripleOK_of_append3 {l : List Point} {a0 a b : Point}
    (h : collinearMerged (l ++ [a0, a, b]) = true) : tripleOK a0 a b :=
  (collinearMerged_cons.mp (collinearMerged_suffix l h)).1

theorem collinearMerged_dropLast :
    ∀ (l : List Point), collinearMerged l = true →
      collinearMerged l.dropLast = true
  | [], _ => rfl
  | [_], _ => rfl
  | [_, _], _ => rfl
  | [a, b, c], h => by
    have : List.dropLast [a, b, c] = [a, b] := rfl
    rw [this]
    rfl
  | a :: b :: c :: d :: rest, h => by
    obtain ⟨h1, h2⟩ := collinearMerged_cons.mp h
    have ih := collinearMerged_dropLast (b :: c :: d :: rest) h2
    have hd : (a :: b :: c :: d :: rest).dropLast =
        a :: (b :: c :: d :: rest).dropLast := rfl
    rw [hd]
    have hd2 : (b :: c :: d :: rest).dropLast =
        b :: c :: (d :: rest).dropLast := rfl
    rw [hd2] at ih ⊢
    exact collinearMerged_cons.mpr ⟨h1, ih⟩

theorem collinearMerged_append_one :
    ∀ (l : List Point) (pt : Point), collinearMerged l = true →
      (∀ a b, l.dropLast.getLast? = some a → l.getLast? = some b →
        tripleOK a b pt) →
      collinearMerged (l ++ [pt]) = true
  | [], pt, _, _ => rfl
  | [_], pt, _, _ => rfl
  | [a, b], pt, _, hok => by
    have h3 : tripleOK a b pt := hok a b rfl rfl
    exact collinearMerged_cons.mpr ⟨h3, rfl⟩
  | a :: b :: c :: rest, pt, h, hok => by
    obtain ⟨h1, h2⟩ := collinearMerged_cons.mp h
    have hcond : ∀ x y, (b :: c :: rest).dropLast.getLast? = some x →
        (b :: c :: rest).getLast? = some y → tripleOK x y pt := by
      intro x y hx hy
      refine hok x y ?_ ?_
      · have hd : (a :: b :: c :: rest).dropLast =
            a :: b :: (c :: rest).dropLast := rfl
        have hd2 : (b :: c :: rest).dropLast =
            b :: (c :: rest).dropLast := rfl
        rw [hd, List.getLast?_cons_cons, ← hd2]
        exact hx
      · rw [List.getLast?_cons_cons]
        exact hy
    have ih := collinearMerged_append_one (b :: c :: rest) pt h2 hcond
    exact collinearMerged_cons.mpr ⟨h1, ih⟩

theorem eq_dropLast_append_getLast {α : Type} {b : α} :
    ∀ {l : List α}, l.getLast? = some b → l = l.dropLast ++ [b]
  | [], h => by simp at h
  | [x], h => by
    injection h with h
    subst h
    rfl
  | x :: y :: t, h => by
    have h2 : (y :: t).getLast? = some b := by
      rw [← List.getLast?_cons_cons]
      exact h
    have ih := eq_dropLast_append_getLast h2
    show x :: y :: t = (x :: (y :: t).dropLast) ++ [b]
    rw [List.cons_append]
    exact congrArg (List.cons x) ih

/-- C9 (amended): one call of `add_coord` preserves the no-collinear-triple
invariant, provided the appended point differs from the current second-to-last
point of the polyline.  (The unamended claim fails only because
`calculate_coordinates` retroactively rewrites aliased interior points, see
`C9_collinear_counterexample`.) -/
theorem C9_addCoord_merges_collinear (l : List Point) (pt : Point)
    (h : collinearMerged l = true)
    (hne : ∀ a, l.dropLast.getLast? = some a → pt ≠ a) :
    collinearMerged (addCoord l pt) = true := by
  unfold addCoord
  cases hd : l.dropLast.getLast? with
  | none =>
    cases hl : l.getLast? with
    | none =>
      show collinearMerged (l ++ [pt]) = true
      refine collinearMerged_append_one l pt h ?_
      intro x y hx _
      rw [hd] at hx
      exact Option.noConfusion hx
    | some b =>
      show collinearMerged (l ++ [pt]) = true
      refine collinearMerged_append_one l pt h ?_
      intro x y hx _
      rw [hd] at hx
      exact Option.noConfusion hx
  | some a =>
    cases hl : l.getLast? with
    | none =>
      show collinearMerged (l ++ [pt]) = true
      refine collinearMerged_append_one l pt h ?_
      intro x y _ hy
      rw [hl] at hy
      exact Option.noConfusion hy
    | some b =>
      show collinearMerged
          (if b.x = a.x ∧ a.x = pt.x then l.dropLast ++ [pt]
           else if b.y = a.y ∧ a.y = pt.y then l.dropLast ++ [pt]
           else l ++ [pt]) = true
      have e1 : l = l.dropLast ++ [b] := eq_dropLast_append_getLast hl
      have e2 : l.dropLast = l.dropLast.dropLast ++ [a] :=
        eq_dropLast_append_getLast hd
      split_ifs with hx hy
      · refine collinearMerged_append_one l.dropLast pt
          (collinearMerged_dropLast l h) ?_
        intro x y hx2 hy2
        rw [hd] at hy2
        injection hy2 with hy2
        subst hy2
        have e3 : l.dropLast.dropLast = l.dropLast.dropLast.dropLast ++ [x] :=
          eq_dropLast_append_getLast hx2
        have e4 : l = (l.dropLast.dropLast ++ [a]) ++ [b] :=
          e1.trans (congrArg (fun t => t ++ [b]) e2)
        have e5 : l = ((l.dropLast.dropLast.dropLast ++ [x]) ++ [a]) ++ [b] :=
          e4.trans (congrArg (fun t => (t ++ [a]) ++ [b]) e3)
        have e6 : l = l.dropLast.dropLast.dropLast ++ [x, a, b] :=
          e5.trans (by simp)
        have h6 : collinearMerged
            (l.dropLast.dropLast.dropLast ++ [x, a, b]) = true := by
          rw [← e6]
          exact h
        have htrip : tripleOK x a b := tripleOK_of_append3 h6
        intro hcon
        rcases hcon with ⟨hxa, hapt⟩ | ⟨hya, haypt⟩
        · exact htrip (Or.inl ⟨hxa, hx.1.symm⟩)
        · refine hne a hd ?_
          have hxeq : pt.x = a.x := hx.2.symm
          have hyeq : pt.y = a.y := haypt.symm
          calc pt = ⟨pt.x, pt.y⟩ := rfl
            _ = ⟨a.x, a.y⟩ := by rw [hxeq, hyeq]
            _ = a := rfl
      · refine collinearMerged_append_one l.dropLast pt
          (collinearMerged_dropLast l h) ?_
        intro x y hx2 hy2
        rw [hd] at hy2
        injection hy2 with hy2
        subst hy2
        have e3 : l.dropLast.dropLast = l.dropLast.dropLast.dropLast ++ [x] :=
          eq_dropLast_append_getLast hx2
        have e4 : l = (l.dropLast.dropLast ++ [a]) ++ [b] :=
          e1.trans (congrArg (fun t => t ++ [b]) e2)
        have e5 : l = ((l.dropLast.dropLast.dropLast ++ [x]) ++ [a]) ++ [b] :=
          e4.trans (congrArg (fun t => (t ++ [a]) ++ [b]) e3)
        have e6 : l = l.dropLast.dropLast.dropLast ++ [x, a, b] :=
          e5.trans (by simp)
        have h6 : collinearMerged
            (l.dropLast.dropLast.dropLast ++ [x, a, b]) = true := by
          rw [← e6]
          exact h
        have htrip : tripleOK x a b := tripleOK_of_append3 h6
        intro hcon
        rcases hcon with ⟨hxa, hapt⟩ | ⟨hya, haypt⟩
        · refine hne a hd ?_
          have hxeq : pt.x = a.x := hapt.symm
          have hyeq : pt.y = a.y := hy.2.symm
          calc pt = ⟨pt.x, pt.y⟩ := rfl
            _ = ⟨a.x, a.y⟩ := by rw [hxeq, hyeq]
            _ = a := rfl
        · exact htrip (Or.inr ⟨hya, hy.1.symm⟩)
      · refine collinearMerged_append_one l pt h ?_
        intro x y hx2 hy2
        rw [hd] at hx2
        rw [hl] at hy2
        injection hx2 with hx2
        injection hy2 with hy2
        subst hx2
        subst hy2
        intro hcon
        rcases hcon with ⟨hab, hbpt⟩ | ⟨hab, hbpt⟩
        · exact hx ⟨hab.symm, hab.trans hbpt⟩
        · exact hy ⟨hab.symm, hab.trans hbpt⟩

/-- Witness for the amended C9 theorem at a concrete polyline. -/
theorem C9_addCoord_merges_collinear_witness :
    collinearMerged
      (addCoord [(⟨0, 0⟩ : Point), ⟨0, 5⟩] (⟨3, 5⟩ : Point)) = true :=
  C9_addCoord_merges_collinear [⟨0, 0⟩, ⟨0, 5⟩] ⟨3, 5⟩ (by decide)
    (by
      intro a ha
      injection ha with ha
      rw [← ha]
      decide)

/-! ### C8: missing node size -/

theorem foldlM_ok_all {α β : Type} {step : β → α → Except String β}
    (l : List α) (init : β) (r : β)
    (h : l.foldlM step init = .ok r) :
    ∀ a ∈ l, ∃ acc out, step acc a = .ok out := by
  induction l generalizing init with
  | nil => intro a ha; cases ha
  | cons x l ih =>
    rw [List.foldlM_cons] at h
    obtain ⟨b, hb, hrest⟩ := except_bind_ok h
    intro a ha
    rcases List.mem_cons.mp ha with rfl | ha
    · exact ⟨init, b, hb⟩
    · exact ih b hrest a ha

theorem make_grids_ok_sizes {maxRow maxCol : Int}
    {mv mh : List (GridIndex × EdgeIndex)} {nodes : List Node}
    {locations : List (Node × GridIndex)} {sizes : List (Node × NodeSize)}
    {xm ym : Int} {res : List Int × List Int}
    (h : make_grids maxRow maxCol mv mh nodes locations sizes xm ym = .ok res) :
    ∀ n ∈ nodes, (dictGet? sizes n).isSome := by
  simp only [make_grids] at h
  obtain ⟨p1, hp1, _⟩ := except_bind_ok h
  intro n hn
  obtain ⟨acc, out, hstep⟩ := foldlM_ok_all nodes _ p1 hp1 n hn
  obtain ⟨loc, _, hstep⟩ := except_bind_ok hstep
  obtain ⟨size, hsize, _⟩ := except_bind_ok hstep
  simp only [dictGetE] at hsize
  cases hget : dictGet? sizes n with
  | none => rw [hget] at hsize; cases hsize
  | some v => rfl

/-- C8.  If `node_sizes` lacks an entry for some node of the input graph,
`layout` raises (a `KeyError` from `make_grids`, or an earlier exception of
the pipeline) and therefore produces no `LayoutResult` at all — in the
`Except` model, no partial output exists by construction. -/
theorem C8_missing_size_fails (dg : DiGraph)
    (nodeSizes : List (Node × NodeSize)) (key : Node → Int)
    (opts : LayoutOptions) (n : Node) (hmem : n ∈ dg.nodes)
    (hmiss : dictGet? nodeSizes n = none) :
    ∃ msg, layout dg nodeSizes key opts = .error msg := by
  cases h : layout dg nodeSizes key opts with
  | error e => exact ⟨e, rfl⟩
  | ok r =>
    exfalso
    simp only [layout] at h
    obtain ⟨ord, _, h⟩ := except_bind_ok h
    rcases hmr : calculateMaxRow (toAcyclicGraph dg ord) ord with ⟨maxRows, maxRow⟩
    rw [hmr] at h
    obtain ⟨pr, _, h⟩ := except_bind_ok h
    rcases pr with ⟨rows, rtn⟩
    simp only at h
    obtain ⟨pc, _, h⟩ := except_bind_ok h
    rcases pc with ⟨colSt, maxCol⟩
    simp only at h
    obtain ⟨pe, _, h⟩ := except_bind_ok h
    rcases pe with ⟨state, edges⟩
    simp only at h
    obtain ⟨pg, hpg, _⟩ := except_bind_ok h
    rcases pg with ⟨rowHeights, colWidths⟩
    have := make_grids_ok_sizes hpg n hmem
    rw [hmiss] at this
    cases this

/-- Witness for C8: a single-node graph with an empty size map. -/
theorem C8_missing_size_fails_witness :
    ∃ msg, layout ⟨[0], []⟩ [] (fun n => n) DEFAULT_LAYOUT = .error msg :=
  C8_missing_size_fails ⟨[0], []⟩ [] (fun n => n) DEFAULT_LAYOUT 0
    (by simp) (by rfl)

/-- Witness for C6 at a concrete invocation. -/
theorem C6_layout_deterministic_witness :
    layout ⟨[0, 1], [(0, 1)]⟩ [(0, ⟨100, 40⟩), (1, ⟨100, 40⟩)] (fun n => n)
        DEFAULT_LAYOUT =
      layout ⟨[0, 1], [(0, 1)]⟩ [(0, ⟨100, 40⟩), (1, ⟨100, 40⟩)] (fun n => n)
        DEFAULT_LAYOUT :=
  C6_layout_deterministic _ _ _ _ _ _ _ _ rfl rfl rfl rfl

/-! ### C2: quasi-topological order respects non-reversed edges -/

/-- A directed 3-cycle `0→1→2→0`. -/
def threeCycleGraph : DiGraph := ⟨[0, 1, 2], [(0, 1), (1, 2), (2, 0)]⟩

/-- Counterexample for C2 as stated: in `threeCycleGraph` the edge `(2,0)`
has no reverse edge `(0,2)`, yet `quasi_topological_sort` returns no order at
all in which `2` could precede `0` — it raises
`TypeError: unhashable type: 'set'` (layout.py line 289 keys a dict by
networkx's SCC `set` objects). -/
theorem C2_order_counterexample :
    ((2, 0) ∈ threeCycleGraph.edges ∧ (0, 2) ∉ threeCycleGraph.edges) ∧
    quasiTopologicalSort threeCycleGraph =
      .error "TypeError: unhashable type: 'set'" :=
  ⟨⟨by decide, by decide⟩, rfl⟩

/-- C2 (amended): on a well-formed acyclic graph — the only graphs with more
than one node on which `quasi_topological_sort` returns at all, see
`C2_order_counterexample` — the returned order is a permutation of the nodes
in which every edge goes from an earlier to a later position. -/
theorem C2_acyclic_topological_order (dg : DiGraph) (hWF : dg.WF)
    (hac : hasCycleB dg = false) :
    ∃ l, quasiTopologicalSort dg = .ok l ∧ l.Perm dg.nodes ∧
      ∀ e ∈ dg.edges, l.indexOf e.1 < l.indexOf e.2 :=
  quasiTopologicalSort_acyclic hWF hac

/-- Witness for the amended C2 theorem on the path graph `0→1→2`. -/
theorem C2_acyclic_topological_order_witness :
    ∃ l, quasiTopologicalSort ⟨[0, 1, 2], [(0, 1), (1, 2)]⟩ = .ok l ∧
      l.Perm ([0, 1, 2] : List Node) ∧
      ∀ e ∈ ([(0, 1), (1, 2)] : List (Node × Node)),
        l.indexOf e.1 < l.indexOf e.2 :=
  C2_acyclic_topological_order ⟨[0, 1, 2], [(0, 1), (1, 2)]⟩
    ⟨by decide, by decide, by decide⟩ (by rfl)

/-! ### C3: layering by `calculate_max_row` over the acyclic projection -/

/-- The inner successor-update of `calculate_max_row` (layout.py lines
406-409), with the processed node's `row` fixed. -/
def cmrInner (row : Nat) (acc2 : List (Node × Nat) × Nat) (succ : Node) :
    List (Node × Nat) × Nat :=
  match dictGet? acc2.1 succ with
  | some v =>
    if v < row + 1 then
      (dictSet acc2.1 succ (row + 1), max acc2.2 (row + 1))
    else acc2
  | none => (dictSet acc2.1 succ (row + 1), max acc2.2 (row + 1))

/-- One iteration of the `calculate_max_row` main loop (layout.py lines
401-409). -/
def cmrStep (dag : DiGraph) (acc : List (Node × Nat) × Nat) (node : Node) :
    List (Node × Nat) × Nat :=
  let maxRows :=
    if (dictGet? acc.1 node).isSome then acc.1 else dictSet acc.1 node 0
  let row := (dictGet? maxRows node).getD 0
  let maxRow := max acc.2 row
  (dag.successors node).foldl (cmrInner row) (maxRows, maxRow)

theorem calculateMaxRow_eq_foldl (dag : DiGraph) (order : List Node) :
    calculateMaxRow dag order = order.foldl (cmrStep dag) ([], 0) := rfl

/-- One iteration of the `to_acyclic_graph` loop (layout.py lines 386-391). -/
def taStep (dg : DiGraph) (acc : DiGraph × List Node) (node : Node) :
    DiGraph × List Node :=
  let visited := node :: acc.2
  let dag := acc.1.addNodeG node
  let dag := (dg.successors node).foldl
    (fun dag succ =>
      if succ ∈ visited then dag else dag.addEdge (node, succ)) dag
  (dag, visited)

theorem toAcyclicGraph_eq_foldl (dg : DiGraph) (order : List Node) :
    toAcyclicGraph dg order = (order.foldl (taStep dg) (⟨[], []⟩, [])).1 := rfl

theorem dictGet?_some_mem {α β : Type} [DecidableEq α]
    {d : List (α × β)} {k : α} {v : β} (h : dictGet? d k = some v) :
    (k, v) ∈ d := by
  simp only [dictGet?] at h
  cases hfind : List.find? (fun kv => decide (kv.1 = k)) d with
  | none =>
    rw [hfind] at h
    cases h
  | some kv =>
    rw [hfind] at h
    injection h with hv
    have hmem := List.mem_of_find?_eq_some hfind
    have hp := List.find?_some hfind
    simp only [decide_eq_true_eq] at hp
    have : kv = (k, v) := by
      cases kv
      simp only at hp hv
      subst hp
      subst hv
      rfl
    rw [← this]
    exact hmem

theorem dictGet?_of_mem_nodup {α β : Type} [DecidableEq α] :
    ∀ {d : List (α × β)} {k : α} {v : β}, (d.map (·.1)).Nodup →
      (k, v) ∈ d → dictGet? d k = some v
  | [], _, _, _, h => by cases h
  | kv :: d, k, v, hnd, h => by
    simp only [List.map_cons, List.nodup_cons] at hnd
    rcases List.mem_cons.mp h with heq | htail
    · subst heq
      simp [dictGet?]
    · have hne : kv.1 ≠ k := by
        intro hk
        exact hnd.1 (hk ▸ List.mem_map_of_mem (·.1) htail)
      simp only [dictGet?]
      rw [List.find?_cons_of_neg _ (by simpa using hne)]
      exact dictGet?_of_mem_nodup hnd.2 htail

theorem le_foldr_max {v : Nat} : ∀ {l : List Nat}, v ∈ l →
    v ≤ l.foldr max 0
  | [], h => by cases h
  | x :: l, h => by
    rcases List.mem_cons.mp h with heq | htail
    · subst heq
      exact Nat.le_max_left _ _
    · exact (le_foldr_max htail).trans (Nat.le_max_right _ _)

theorem foldr_max_le {m : Nat} : ∀ {l : List Nat}, (∀ v ∈ l, v ≤ m) →
    l.foldr max 0 ≤ m
  | [], _ => Nat.zero_le m
  | x :: l, h => by
    simp only [List.foldr_cons]
    exact Nat.max_le.mpr ⟨h x (by simp), foldr_max_le fun v hv => h v (by simp [hv])⟩

theorem mem_successors {g : DiGraph} {q m : Node} :
    m ∈ g.successors q ↔ (q, m) ∈ g.edges := by
  simp only [DiGraph.successors, List.mem_map, List.mem_filter,
    decide_eq_true_eq]
  constructor
  · rintro ⟨e, ⟨he, h1⟩, h2⟩
    have : e = (q, m) := by
      cases e
      simp only at h1 h2
      subst h1
      subst h2
      rfl
    rw [← this]
    exact he
  · intro h
    exact ⟨(q, m), ⟨h, rfl⟩, rfl⟩

theorem predecessors_eq_nil {g : DiGraph} {n : Node}
    (h : g.predecessors n = []) : ∀ e ∈ g.edges, e.2 ≠ n := by
  simp only [DiGraph.predecessors, List.map_eq_nil_iff,
    List.filter_eq_nil_iff, decide_eq_true_eq] at h
  exact h

theorem mem_addEdge {g : DiGraph} {e e' : Node × Node} :
    e' ∈ (g.addEdge e).edges ↔ e' ∈ g.edges ∨ e' = e := by
  simp only [DiGraph.addEdge]
  split_ifs with h
  · constructor
    · exact Or.inl
    · rintro (h' | h')
      · exact h'
      · exact h' ▸ h
  · simp [List.mem_append]

theorem nodup_append_cons_inj {α : Type} {a : α} :
    ∀ {s1 s2 t1 t2 : List α}, (s1 ++ a :: t1).Nodup →
      s1 ++ a :: t1 = s2 ++ a :: t2 → s1 = s2 ∧ t1 = t2 := by
  intro s1
  induction s1 with
  | nil =>
    intro s2 t1 t2 hnd heq
    cases s2 with
    | nil =>
      simp only [List.nil_append] at heq
      injection heq with h1 h2
      exact ⟨rfl, h2⟩
    | cons b s2 =>
      exfalso
      simp only [List.nil_append, List.cons_append] at heq
      injection heq with h1 h2
      subst h1
      simp only [List.nil_append, List.nodup_cons] at hnd
      refine hnd.1 ?_
      rw [h2]
      simp
  | cons b s1 ih =>
    intro s2 t1 t2 hnd heq
    cases s2 with
    | nil =>
      exfalso
      simp only [List.cons_append, List.nil_append] at heq
      injection heq with h1 h2
      subst h1
      simp only [List.cons_append, List.nodup_cons] at hnd
      exact hnd.1 (by simp)
    | cons c s2 =>
      simp only [List.cons_append, List.cons.injEq] at heq
      obtain ⟨h1, h2⟩ := heq
      simp only [List.cons_append, List.nodup_cons] at hnd
      obtain ⟨hs, ht⟩ := ih hnd.2 h2
      exact ⟨by rw [h1, hs], ht⟩

theorem cmrInner_get_ne (row : Nat) (acc2 : List (Node × Nat) × Nat)
    (succ k : Node) (h : k ≠ succ) :
    dictGet? (cmrInner row acc2 succ).1 k = dictGet? acc2.1 k := by
  cases hg : dictGet? acc2.1 succ with
  | none =>
    simp only [cmrInner, hg]
    exact dictGet?_dictSet_ne _ _ _ _ h
  | some v =>
    simp only [cmrInner, hg]
    split_ifs
    · exact dictGet?_dictSet_ne _ _ _ _ h
    · rfl

theorem cmrInner_mono (row : Nat) (acc2 : List (Node × Nat) × Nat)
    (succ k : Node) (v : Nat) (h : dictGet? acc2.1 k = some v) :
    ∃ v', dictGet? (cmrInner row acc2 succ).1 k = some v' ∧ v ≤ v' := by
  by_cases hk : k = succ
  · subst hk
    simp only [cmrInner, h]
    split_ifs with hv
    · exact ⟨row + 1, dictGet?_dictSet_self _ _ _, Nat.le_of_lt hv⟩
    · exact ⟨v, h, Nat.le_refl v⟩
  · exact ⟨v, (cmrInner_get_ne row acc2 succ k hk).trans h, Nat.le_refl v⟩

theorem cmrInner_get_self (row : Nat) (acc2 : List (Node × Nat) × Nat)
    (succ : Node) :
    ∃ v', dictGet? (cmrInner row acc2 succ).1 succ = some v' ∧
      row + 1 ≤ v' := by
  cases hg : dictGet? acc2.1 succ with
  | none =>
    simp only [cmrInner, hg]
    exact ⟨row + 1, dictGet?_dictSet_self _ _ _, Nat.le_refl _⟩
  | some v =>
    simp only [cmrInner, hg]
    split_ifs with hv
    · exact ⟨row + 1, dictGet?_dictSet_self _ _ _, Nat.le_refl _⟩
    · exact ⟨v, hg, Nat.le_of_not_lt hv⟩

theorem cmrInnerFold_get_ne (row : Nat) (k : Node) :
    ∀ (succs : List Node) (acc2 : List (Node × Nat) × Nat), k ∉ succs →
      dictGet? ((succs.foldl (cmrInner row) acc2)).1 k = dictGet? acc2.1 k
  | [], _, _ => rfl
  | s :: succs, acc2, h => by
    simp only [List.foldl_cons]
    have h1 : k ∉ succs := fun hx => h (List.mem_cons_of_mem _ hx)
    have h2 : k ≠ s := fun hx => h (hx ▸ List.mem_cons_self s succs)
    exact (cmrInnerFold_get_ne row k succs _ h1).trans
      (cmrInner_get_ne row acc2 s k h2)

theorem cmrInnerFold_mono (row : Nat) (k : Node) :
    ∀ (succs : List Node) (acc2 : List (Node × Nat) × Nat) (v : Nat),
      dictGet? acc2.1 k = some v →
      ∃ v', dictGet? ((succs.foldl (cmrInner row) acc2)).1 k = some v' ∧
        v ≤ v'
  | [], _, v, h => ⟨v, h, Nat.le_refl v⟩
  | s :: succs, acc2, v, h => by
    simp only [List.foldl_cons]
    obtain ⟨v1, h1, hle1⟩ := cmrInner_mono row acc2 s k v h
    obtain ⟨v2, h2, hle2⟩ := cmrInnerFold_mono row k succs _ v1 h1
    exact ⟨v2, h2, hle1.trans hle2⟩

theorem cmrInnerFold_mem (row : Nat) :
    ∀ (succs : List Node) (acc2 : List (Node × Nat) × Nat) (m : Node),
      m ∈ succs →
      ∃ v', dictGet? ((succs.foldl (cmrInner row) acc2)).1 m = some v' ∧
        row + 1 ≤ v'
  | [], _, _, h => absurd h (List.not_mem_nil _)
  | s :: succs, acc2, m, h => by
    simp only [List.foldl_cons]
    by_cases hm : m = s
    · subst hm
      obtain ⟨v1, h1, hle1⟩ := cmrInner_get_self row acc2 m
      obtain ⟨v2, h2, hle2⟩ := cmrInnerFold_mono row m succs _ v1 h1
      exact ⟨v2, h2, hle1.trans hle2⟩
    · exact cmrInnerFold_mem row succs _ m ((List.mem_cons.mp h).resolve_left hm)

theorem cmrStep_present (dag : DiGraph) (s : List (Node × Nat) × Nat)
    (node : Node) (r : Nat) (h : dictGet? s.1 node = some r) :
    cmrStep dag s node =
      (dag.successors node).foldl (cmrInner r) (s.1, max s.2 r) := by
  simp [cmrStep, h]

theorem cmrStep_absent (dag : DiGraph) (s : List (Node × Nat) × Nat)
    (node : Node) (h : dictGet? s.1 node = none) :
    cmrStep dag s node =
      (dag.successors node).foldl (cmrInner 0) (dictSet s.1 node 0, s.2) := by
  simp [cmrStep, h, dictGet?_dictSet_self]

theorem cmrStep_get_ne (dag : DiGraph) (s : List (Node × Nat) × Nat)
    (node k : Node) (h1 : k ≠ node) (h2 : k ∉ dag.successors node) :
    dictGet? (cmrStep dag s node).1 k = dictGet? s.1 k := by
  cases hp : dictGet? s.1 node with
  | some r =>
    rw [cmrStep_present dag s node r hp, cmrInnerFold_get_ne _ _ _ _ h2]
  | none =>
    rw [cmrStep_absent dag s node hp, cmrInnerFold_get_ne _ _ _ _ h2]
    exact dictGet?_dictSet_ne _ _ _ _ h1

theorem cmrStep_mono (dag : DiGraph) (s : List (Node × Nat) × Nat)
    (node k : Node) (v : Nat) (h : dictGet? s.1 k = some v) :
    ∃ v', dictGet? (cmrStep dag s node).1 k = some v' ∧ v ≤ v' := by
  cases hp : dictGet? s.1 node with
  | some r =>
    rw [cmrStep_present dag s node r hp]
    exact cmrInnerFold_mono _ _ _ _ _ h
  | none =>
    rw [cmrStep_absent dag s node hp]
    have hne : k ≠ node := by
      intro hx
      rw [hx] at h
      exact Option.noConfusion (h.symm.trans hp)
    exact cmrInnerFold_mono _ _ _ _ _
      ((dictGet?_dictSet_ne s.1 node k 0 hne).trans h)

theorem cmrStep_self (dag : DiGraph) (s : List (Node × Nat) × Nat)
    (node : Node) (hself : node ∉ dag.successors node) :
    ∃ r, dictGet? (cmrStep dag s node).1 node = some r ∧
      ∀ m ∈ dag.successors node,
        ∃ v, dictGet? (cmrStep dag s node).1 m = some v ∧ r + 1 ≤ v := by
  cases hp : dictGet? s.1 node with
  | some r =>
    refine ⟨r, ?_, ?_⟩
    · rw [cmrStep_present dag s node r hp, cmrInnerFold_get_ne _ _ _ _ hself]
      exact hp
    · intro m hm
      rw [cmrStep_present dag s node r hp]
      exact cmrInnerFold_mem _ _ _ _ hm
  | none =>
    refine ⟨0, ?_, ?_⟩
    · rw [cmrStep_absent dag s node hp, cmrInnerFold_get_ne _ _ _ _ hself]
      exact dictGet?_dictSet_self _ _ _
    · intro m hm
      rw [cmrStep_absent dag s node hp]
      exact cmrInnerFold_mem _ _ _ _ hm

theorem cmrStep_self_zero (dag : DiGraph) (s : List (Node × Nat) × Nat)
    (node : Node) (h0 : dictGet? s.1 node = none)
    (hself : node ∉ dag.successors node) :
    dictGet? (cmrStep dag s node).1 node = some 0 := by
  rw [cmrStep_absent dag s node h0, cmrInnerFold_get_ne _ _ _ _ hself]
  exact dictGet?_dictSet_self _ _ _

theorem cmrFold_get_ne (dag : DiGraph) (k : Node) :
    ∀ (l : List Node) (s : List (Node × Nat) × Nat), k ∉ l →
      (∀ q ∈ l, k ∉ dag.successors q) →
      dictGet? ((l.foldl (cmrStep dag) s)).1 k = dictGet? s.1 k
  | [], _, _, _ => rfl
  | q :: l, s, hk, hsucc => by
    simp only [List.foldl_cons]
    have h1 : k ∉ l := fun hx => hk (List.mem_cons_of_mem _ hx)
    have h2 : k ≠ q := fun hx => hk (hx ▸ List.mem_cons_self q l)
    rw [cmrFold_get_ne dag k l _ h1
      (fun x hx => hsucc x (List.mem_cons_of_mem _ hx))]
    exact cmrStep_get_ne dag s q k h2 (hsucc q (List.mem_cons_self q l))

theorem cmrFold_mono (dag : DiGraph) (k : Node) :
    ∀ (l : List Node) (s : List (Node × Nat) × Nat) (v : Nat),
      dictGet? s.1 k = some v →
      ∃ v', dictGet? ((l.foldl (cmrStep dag) s)).1 k = some v' ∧ v ≤ v'
  | [], _, v, h => ⟨v, h, Nat.le_refl v⟩
  | q :: l, s, v, h => by
    simp only [List.foldl_cons]
    obtain ⟨v1, h1, hle1⟩ := cmrStep_mono dag s q k v h
    obtain ⟨v2, h2, hle2⟩ := cmrFold_mono dag k l _ v1 h1
    exact ⟨v2, h2, hle1.trans hle2⟩

theorem taInner_edges (dg : DiGraph) (node : Node) (visited : List Node) :
    ∀ (succs : List Node) (g : DiGraph) (e : Node × Node),
      e ∈ (succs.foldl (fun dag succ =>
        if succ ∈ visited then dag else dag.addEdge (node, succ)) g).edges →
      e ∈ g.edges ∨ ∃ succ ∈ succs, e = (node, succ) ∧ succ ∉ visited
  | [], _, _, h => Or.inl h
  | s :: succs, g, e, h => by
    simp only [List.foldl_cons] at h
    rcases taInner_edges dg node visited succs _ e h with
      h' | ⟨succ, hs, he1, he2⟩
    · by_cases hv : s ∈ visited
      · rw [if_pos hv] at h'
        exact Or.inl h'
      · rw [if_neg hv] at h'
        rcases mem_addEdge.mp h' with h'' | h''
        · exact Or.inl h''
        · exact Or.inr ⟨s, by simp, h'', hv⟩
    · exact Or.inr ⟨succ, List.mem_cons_of_mem _ hs, he1, he2⟩

theorem taStep_edges (dg : DiGraph) (acc : DiGraph × List Node) (node : Node)
    (e : Node × Node) (h : e ∈ (taStep dg acc node).1.edges) :
    e ∈ acc.1.edges ∨
      (e.1 = node ∧ e.2 ∈ dg.successors node ∧ e.2 ∉ node :: acc.2) := by
  simp only [taStep] at h
  rcases taInner_edges dg node (node :: acc.2) (dg.successors node) _ e h with
    h' | ⟨succ, hs, he1, he2⟩
  · exact Or.inl h'
  · subst he1
    exact Or.inr ⟨rfl, hs, he2⟩

theorem taFold_edges (dg : DiGraph) (e : Node × Node) :
    ∀ (l : List Node) (acc : DiGraph × List Node),
      e ∈ (l.foldl (taStep dg) acc).1.edges →
      e ∈ acc.1.edges ∨
        ∃ pre node post, l = pre ++ node :: post ∧ e.1 = node ∧
          e.2 ∉ pre ∧ e.2 ≠ node ∧ e.2 ∉ acc.2 ∧ e.2 ∈ dg.successors node
  | [], _, h => Or.inl h
  | x :: l, acc, h => by
    simp only [List.foldl_cons] at h
    rcases taFold_edges dg e l _ h with
      h' | ⟨pre, node, post, hsplit, h1, h2, h3, h4, h5⟩
    · rcases taStep_edges dg acc x e h' with h'' | ⟨g1, g2, g3⟩
      · exact Or.inl h''
      · refine Or.inr ⟨[], x, l, rfl, g1, List.not_mem_nil _, ?_, ?_, g2⟩
        · exact fun hx => g3 (hx ▸ List.mem_cons_self x acc.2)
        · exact fun hx => g3 (List.mem_cons_of_mem _ hx)
    · have h4' : e.2 ∉ x :: acc.2 := h4
      refine Or.inr ⟨x :: pre, node, post, by simp [hsplit], h1, ?_, h3, ?_, h5⟩
      · intro hx
        rcases List.mem_cons.mp hx with hx | hx
        · exact h4' (hx ▸ List.mem_cons_self x acc.2)
        · exact h2 hx
      · exact fun hx => h4' (List.mem_cons_of_mem _ hx)

theorem toAcyclicGraph_edges {dg : DiGraph} {order : List Node}
    {e : Node × Node} (h : e ∈ (toAcyclicGraph dg order).edges) :
    ∃ pre node post, order = pre ++ node :: post ∧ e.1 = node ∧
      e.2 ∉ pre ∧ e.2 ≠ node ∧ e.2 ∈ dg.successors node := by
  rw [toAcyclicGraph_eq_foldl] at h
  rcases taFold_edges dg e order _ h with
    h' | ⟨pre, node, post, hs, h1, h2, h3, _, h5⟩
  · exact absurd h' (List.not_mem_nil _)
  · exact ⟨pre, node, post, hs, h1, h2, h3, h5⟩

theorem toAcyclicGraph_no_self {dg : DiGraph} {order : List Node} {p : Node}
    (h : (p, p) ∈ (toAcyclicGraph dg order).edges) : False := by
  obtain ⟨pre, node, post, _, h1, _, h3, _⟩ := toAcyclicGraph_edges h
  exact h3 h1

theorem toAcyclicGraph_forward {dg : DiGraph} {order : List Node}
    {pre : List Node} {k : Node} {post : List Node}
    (hnd : order.Nodup) (hsplit : order = pre ++ k :: post)
    {q : Node} (hq : (q, k) ∈ (toAcyclicGraph dg order).edges) : q ∈ pre := by
  obtain ⟨pre2, node, post2, hs2, h1, h2, h3, _⟩ := toAcyclicGraph_edges hq
  have hq1 : q = node := h1
  have hkne : k ≠ node := h3
  have hkpre2 : k ∉ pre2 := h2
  have hqmem : q ∈ order := by
    rw [hs2, hq1]
    simp
  rw [hsplit] at hqmem
  rcases List.mem_append.mp hqmem with hqpre | hqtail
  · exact hqpre
  rcases List.mem_cons.mp hqtail with hqk | hqpost
  · exact absurd (hqk.symm.trans hq1) hkne
  · obtain ⟨X, Y, hpost⟩ := List.append_of_mem hqpost
    have horder2 : order = (pre ++ k :: X) ++ node :: Y := by
      rw [hsplit, hpost, hq1]
      simp
    have hnod2 : (pre2 ++ node :: post2).Nodup := by
      rw [← hs2]
      exact hnd
    have heq2 : pre2 ++ node :: post2 = (pre ++ k :: X) ++ node :: Y :=
      hs2.symm.trans horder2
    obtain ⟨hpre2, _⟩ := nodup_append_cons_inj hnod2 heq2
    refine absurd ?_ hkpre2
    rw [hpre2]
    simp

theorem cmr_edge_rows (dg : DiGraph) (order : List Node) (hnd : order.Nodup)
    (e : Node × Node) (he : e ∈ (toAcyclicGraph dg order).edges) :
    ∃ rp rn,
      dictGet? (calculateMaxRow (toAcyclicGraph dg order) order).1 e.1 =
        some rp ∧
      dictGet? (calculateMaxRow (toAcyclicGraph dg order) order).1 e.2 =
        some rn ∧ rp + 1 ≤ rn := by
  obtain ⟨pre, p, post, hsplit, h1, _, _, _⟩ := toAcyclicGraph_edges he
  have hself : p ∉ (toAcyclicGraph dg order).successors p := by
    intro hs
    exact toAcyclicGraph_no_self (mem_successors.mp hs)
  have hnd' := hnd
  rw [hsplit, List.nodup_append] at hnd'
  obtain ⟨hndpre, hndtail, hdisj⟩ := hnd'
  rw [List.nodup_cons] at hndtail
  have hppost : p ∉ post := hndtail.1
  have hstab : ∀ q ∈ post, p ∉ (toAcyclicGraph dg order).successors q := by
    intro q hqpost hmem
    have hqpre : q ∈ pre :=
      toAcyclicGraph_forward hnd hsplit (mem_successors.mp hmem)
    exact hdisj hqpre (List.mem_cons_of_mem _ hqpost)
  have hm : e.2 ∈ (toAcyclicGraph dg order).successors p := by
    refine mem_successors.mpr ?_
    rw [← h1]
    exact he
  set G := toAcyclicGraph dg order with hG
  rw [h1, calculateMaxRow_eq_foldl, hsplit, List.foldl_append,
    List.foldl_cons]
  obtain ⟨r, hr, hsuccs⟩ :=
    cmrStep_self G (pre.foldl (cmrStep G) ([], 0)) p hself
  obtain ⟨v, hv, hrv⟩ := hsuccs e.2 hm
  obtain ⟨v', hv', hvv'⟩ := cmrFold_mono G e.2 post _ v hv
  refine ⟨r, v', ?_, hv', hrv.trans hvv'⟩
  rw [cmrFold_get_ne G p post _ hppost hstab]
  exact hr

theorem cmr_source_row_zero (dg : DiGraph) (order : List Node)
    (hnd : order.Nodup) (n : Node) (hn : n ∈ order)
    (hpred : (toAcyclicGraph dg order).predecessors n = []) :
    dictGet? (calculateMaxRow (toAcyclicGraph dg order) order).1 n =
      some 0 := by
  have hnosucc : ∀ q, n ∉ (toAcyclicGraph dg order).successors q := by
    intro q hmem
    exact (predecessors_eq_nil hpred (q, n) (mem_successors.mp hmem)) rfl
  have hself : n ∉ (toAcyclicGraph dg order).successors n := hnosucc n
  obtain ⟨pre, post, hsplit⟩ := List.append_of_mem hn
  have hnd' := hnd
  rw [hsplit, List.nodup_append] at hnd'
  obtain ⟨hndpre, hndtail, hdisj⟩ := hnd'
  rw [List.nodup_cons] at hndtail
  have hnpost : n ∉ post := hndtail.1
  have hnpre : n ∉ pre := fun hx => hdisj hx (List.mem_cons_self n post)
  set G := toAcyclicGraph dg order with hG
  rw [calculateMaxRow_eq_foldl, hsplit, List.foldl_append, List.foldl_cons]
  have hprenone : dictGet? ((pre.foldl (cmrStep G) ([], 0))).1 n = none := by
    rw [cmrFold_get_ne G n pre ([], 0) hnpre (fun q _ => hnosucc q)]
    rfl
  have hmid :=
    cmrStep_self_zero G (pre.foldl (cmrStep G) ([], 0)) n hprenone hself
  rw [cmrFold_get_ne G n post _ hnpost (fun q _ => hnosucc q)]
  exact hmid

/-- Invariant of the `calculate_max_row` state: keys are duplicate-free, the
running maximum bounds every stored row, and it is attained (or zero). -/
def cmrInv (s : List (Node × Nat) × Nat) : Prop :=
  ((s.1.map (·.1)).Nodup) ∧
  (∀ k v, dictGet? s.1 k = some v → v ≤ s.2) ∧
  (s.2 = 0 ∨ ∃ k, dictGet? s.1 k = some s.2)

theorem cmrInv_dictSet_raise (acc2 : List (Node × Nat) × Nat) (succ : Node)
    (row : Nat) (hinv : cmrInv acc2)
    (hcase : dictGet? acc2.1 succ = none ∨
      ∃ w, dictGet? acc2.1 succ = some w ∧ w < row + 1) :
    cmrInv (dictSet acc2.1 succ (row + 1), max acc2.2 (row + 1)) := by
  obtain ⟨hkeys, hbound, hatt⟩ := hinv
  refine ⟨dictSet_keys_nodup hkeys, ?_, ?_⟩
  · intro k v hkv
    by_cases hk : k = succ
    · subst hk
      rw [dictGet?_dictSet_self] at hkv
      injection hkv with hkv
      subst hkv
      exact Nat.le_max_right _ _
    · rw [dictGet?_dictSet_ne _ _ _ _ hk] at hkv
      exact (hbound k v hkv).trans (Nat.le_max_left _ _)
  · rcases Nat.le_total acc2.2 (row + 1) with hle | hle
    · right
      refine ⟨succ, ?_⟩
      rw [dictGet?_dictSet_self, max_eq_right hle]
    · rw [max_eq_left hle]
      rcases hatt with h0 | ⟨k, hk⟩
      · exact Or.inl h0
      · right
        have hkne : k ≠ succ := by
          intro hx
          rw [hx] at hk
          rcases hcase with hnone | ⟨w, hw, hwlt⟩
          · rw [hk] at hnone
            exact Option.noConfusion hnone
          · rw [hk] at hw
            injection hw with hw
            omega
        exact ⟨k, (dictGet?_dictSet_ne _ _ _ _ hkne).trans hk⟩

theorem cmrInner_inv (row : Nat) (acc2 : List (Node × Nat) × Nat)
    (succ : Node) (hinv : cmrInv acc2) : cmrInv (cmrInner row acc2 succ) := by
  cases hg : dictGet? acc2.1 succ with
  | none =>
    simp only [cmrInner, hg]
    exact cmrInv_dictSet_raise acc2 succ row hinv (Or.inl hg)
  | some w =>
    simp only [cmrInner, hg]
    split_ifs with hw
    · exact cmrInv_dictSet_raise acc2 succ row hinv (Or.inr ⟨w, hg, hw⟩)
    · exact hinv

theorem cmrInnerFold_inv (row : Nat) :
    ∀ (succs : List Node) (acc2 : List (Node × Nat) × Nat), cmrInv acc2 →
      cmrInv (succs.foldl (cmrInner row) acc2)
  | [], _, h => h
  | s :: succs, acc2, h => by
    simp only [List.foldl_cons]
    exact cmrInnerFold_inv row succs _ (cmrInner_inv row acc2 s h)

theorem cmrStep_inv (dag : DiGraph) (s : List (Node × Nat) × Nat)
    (node : Node) (hinv : cmrInv s) : cmrInv (cmrStep dag s node) := by
  cases hp : dictGet? s.1 node with
  | some r =>
    rw [cmrStep_present dag s node r hp]
    refine cmrInnerFold_inv _ _ _ ?_
    have hr : r ≤ s.2 := hinv.2.1 node r hp
    rw [max_eq_left hr]
    exact hinv
  | none =>
    rw [cmrStep_absent dag s node hp]
    refine cmrInnerFold_inv _ _ _ ?_
    obtain ⟨hkeys, hbound, hatt⟩ := hinv
    refine ⟨dictSet_keys_nodup hkeys, ?_, ?_⟩
    · intro k v hkv
      by_cases hk : k = node
      · subst hk
        rw [dictGet?_dictSet_self] at hkv
        injection hkv with hkv
        omega
      · rw [dictGet?_dictSet_ne _ _ _ _ hk] at hkv
        exact hbound k v hkv
    · rcases hatt with h0 | ⟨k, hk⟩
      · exact Or.inl h0
      · right
        have hkne : k ≠ node := by
          intro hx
          rw [hx, hp] at hk
          exact Option.noConfusion hk
        exact ⟨k, (dictGet?_dictSet_ne _ _ _ _ hkne).trans hk⟩

theorem cmrFold_inv (dag : DiGraph) :
    ∀ (l : List Node) (s : List (Node × Nat) × Nat), cmrInv s →
      cmrInv (l.foldl (cmrStep dag) s)
  | [], _, h => h
  | q :: l, s, h => by
    simp only [List.foldl_cons]
    exact cmrFold_inv dag l _ (cmrStep_inv dag s q h)

theorem cmrInv_closes (s : List (Node × Nat) × Nat) (hinv : cmrInv s) :
    s.2 = (s.1.map (·.2)).foldr max 0 := by
  obtain ⟨hkeys, hbound, hatt⟩ := hinv
  refine Nat.le_antisymm ?_ ?_
  · rcases hatt with h0 | ⟨k, hk⟩
    · rw [h0]
      exact Nat.zero_le _
    · exact le_foldr_max (List.mem_map_of_mem (·.2) (dictGet?_some_mem hk))
  · refine foldr_max_le ?_
    intro v hv
    obtain ⟨kv, hkvmem, hkv2⟩ := List.mem_map.mp hv
    have hget : dictGet? s.1 kv.1 = some kv.2 :=
      dictGet?_of_mem_nodup hkeys hkvmem
    exact hkv2 ▸ hbound kv.1 kv.2 hget

theorem cmr_max_eq (G : DiGraph) (order : List Node) :
    (calculateMaxRow G order).2 =
      ((calculateMaxRow G order).1.map (·.2)).foldr max 0 := by
  rw [calculateMaxRow_eq_foldl]
  refine cmrInv_closes _ (cmrFold_inv G order ([], 0) ?_)
  refine ⟨by simp, ?_, Or.inl rfl⟩
  intro k v h
  exact Option.noConfusion h

/-- C3: after `calculate_max_row` processes the acyclic projection
`to_acyclic_graph dg order` in the (duplicate-free) order `order`, every
processed node with no predecessor in the projection has row 0, every
retained edge `(p, n)` satisfies `row[n] ≥ row[p] + 1`, and the returned
`max_row` is the largest assigned row. -/
theorem C3_max_row_layering (dg : DiGraph) (order : List Node)
    (hnd : order.Nodup) :
    (∀ n ∈ order, (toAcyclicGraph dg order).predecessors n = [] →
      dictGet? (calculateMaxRow (toAcyclicGraph dg order) order).1 n =
        some 0) ∧
    (∀ e ∈ (toAcyclicGraph dg order).edges,
      ∃ rp rn,
        dictGet? (calculateMaxRow (toAcyclicGraph dg order) order).1 e.1 =
          some rp ∧
        dictGet? (calculateMaxRow (toAcyclicGraph dg order) order).1 e.2 =
          some rn ∧ rp + 1 ≤ rn) ∧
    (calculateMaxRow (toAcyclicGraph dg order) order).2 =
      ((calculateMaxRow (toAcyclicGraph dg order) order).1.map (·.2)).foldr
        max 0 :=
  ⟨fun n hn hpred => cmr_source_row_zero dg order hnd n hn hpred,
   fun e he => cmr_edge_rows dg order hnd e he,
   cmr_max_eq (toAcyclicGraph dg order) order⟩

/-- Witness for C3 on the path graph `0→1→2` in order `[0, 1, 2]`. -/
theorem C3_max_row_layering_witness :
    (∀ n ∈ ([0, 1, 2] : List Node),
      (toAcyclicGraph ⟨[0, 1, 2], [(0, 1), (1, 2)]⟩
          [0, 1, 2]).predecessors n = [] →
      dictGet? (calculateMaxRow
          (toAcyclicGraph ⟨[0, 1, 2], [(0, 1), (1, 2)]⟩ [0, 1, 2])
          [0, 1, 2]).1 n = some 0) ∧
    (∀ e ∈ (toAcyclicGraph ⟨[0, 1, 2], [(0, 1), (1, 2)]⟩ [0, 1, 2]).edges,
      ∃ rp rn,
        dictGet? (calculateMaxRow
            (toAcyclicGraph ⟨[0, 1, 2], [(0, 1), (1, 2)]⟩ [0, 1, 2])
            [0, 1, 2]).1 e.1 = some rp ∧
        dictGet? (calculateMaxRow
            (toAcyclicGraph ⟨[0, 1, 2], [(0, 1), (1, 2)]⟩ [0, 1, 2])
            [0, 1, 2]).1 e.2 = some rn ∧ rp + 1 ≤ rn) ∧
    (calculateMaxRow (toAcyclicGraph ⟨[0, 1, 2], [(0, 1), (1, 2)]⟩ [0, 1, 2])
        [0, 1, 2]).2 =
      ((calculateMaxRow
          (toAcyclicGraph ⟨[0, 1, 2], [(0, 1), (1, 2)]⟩ [0, 1, 2])
          [0, 1, 2]).1.map (·.2)).foldr max 0 :=
  C3_max_row_layering ⟨[0, 1, 2], [(0, 1), (1, 2)]⟩ [0, 1, 2] (by decide)

/-! ### C10: `layout` leaves its inputs unchanged

Python passes the graph and the size dict by reference, so "does not mutate
its inputs" is a statement about the heap.  We model a heap of graph objects
(`List DiGraph`, indices as references) and one of size dicts, transcribe
`quasi_topological_sort`, `to_acyclic_graph` and `layout` in heap-threading
style — every write the source performs goes through `heapSetG` on the
written object's cell, every read through `heapGetG` on the current heap —
and prove that the caller's cells are untouched while the result agrees
with the value-level `layout`. -/

/-- Read a graph cell (a dangling reference never occurs on any path we
prove about; `getD` keeps the primitives total). -/
def heapGetG (gh : List DiGraph) (i : Nat) : DiGraph := gh.getD i ⟨[], []⟩

/-- Overwrite a graph cell. -/
def heapSetG (gh : List DiGraph) (i : Nat) (g : DiGraph) : List DiGraph :=
  gh.set i g

/-- In-place `g.add_edge(e)` on cell `i`. -/
def heapAddEdgeG (gh : List DiGraph) (i : Nat) (e : Node × Node) :
    List DiGraph :=
  heapSetG gh i ((heapGetG gh i).addEdge e)

/-- In-place `g.add_node(n)` on cell `i`. -/
def heapAddNodeG (gh : List DiGraph) (i : Nat) (n : Node) : List DiGraph :=
  heapSetG gh i ((heapGetG gh i).addNodeG n)

/-- Read a size-dict cell. -/
def heapGetS (sh : List (List (Node × NodeSize))) (i : Nat) :
    List (Node × NodeSize) := sh.getD i []

theorem heapGetG_append_lt :
    ∀ (gh ex : List DiGraph) (i : Nat), i < gh.length →
      heapGetG (gh ++ ex) i = heapGetG gh i
  | [], _, _, h => absurd h (Nat.not_lt_zero _)
  | g :: gh, ex, 0, _ => rfl
  | g :: gh, ex, i + 1, h =>
    heapGetG_append_lt gh ex i (Nat.lt_of_succ_lt_succ h)

theorem heapGetG_append_len :
    ∀ (gh : List DiGraph) (c : DiGraph), heapGetG (gh ++ [c]) gh.length = c
  | [], _ => rfl
  | g :: gh, c => heapGetG_append_len gh c

theorem heapGetG_set_self :
    ∀ (gh : List DiGraph) (i : Nat) (g : DiGraph), i < gh.length →
      heapGetG (heapSetG gh i g) i = g
  | [], _, _, h => absurd h (Nat.not_lt_zero _)
  | x :: gh, 0, g, _ => rfl
  | x :: gh, i + 1, g, h =>
    heapGetG_set_self gh i g (Nat.lt_of_succ_lt_succ h)

theorem heapGetG_set_ne :
    ∀ (gh : List DiGraph) (i j : Nat) (g : DiGraph), j ≠ i →
      heapGetG (heapSetG gh i g) j = heapGetG gh j
  | [], _, _, _, _ => rfl
  | x :: gh, 0, 0, g, h => absurd rfl h
  | x :: gh, 0, j + 1, g, _ => rfl
  | x :: gh, i + 1, 0, g, _ => rfl
  | x :: gh, i + 1, j + 1, g, h =>
    heapGetG_set_ne gh i j g (fun hx => h (by rw [hx]))

theorem heapSetG_set (gh : List DiGraph) (i : Nat) (g g' : DiGraph) :
    heapSetG (heapSetG gh i g) i g' = heapSetG gh i g' := by
  simp [heapSetG, List.set_set]

theorem heapSetG_length (gh : List DiGraph) (i : Nat) (g : DiGraph) :
    (heapSetG gh i g).length = gh.length :=
  List.length_set gh i g

theorem set_heapGetG_self :
    ∀ (gh : List DiGraph) (i : Nat), i < gh.length →
      heapSetG gh i (heapGetG gh i) = gh
  | [], _, h => absurd h (Nat.not_lt_zero _)
  | x :: gh, 0, _ => rfl
  | x :: gh, i + 1, h => by
    show x :: heapSetG gh i (heapGetG gh i) = x :: gh
    rw [set_heapGetG_self gh i (Nat.lt_of_succ_lt_succ h)]

theorem heapSetG_append_len :
    ∀ (gh : List DiGraph) (c c' : DiGraph),
      heapSetG (gh ++ [c]) gh.length c' = gh ++ [c']
  | [], _, _ => rfl
  | x :: gh, c, c' => by
    show x :: heapSetG (gh ++ [c]) gh.length c' = x :: (gh ++ [c'])
    rw [heapSetG_append_len gh c c']

/-- The copy `dg_copy` that `quasi_topological_sort` builds and sorts on its
surviving path (layout.py lines 278-315): edges with distinct endpoints,
then the degree-zero loners.  Identical to the `dgCopy` of
`quasiTopologicalSort`. -/
def qtsCopyOf (dg : DiGraph) : DiGraph :=
  let copyEdges := dg.edges.filter (fun e => !(e.1 == e.2))
  let copyNodes := copyEdges.foldl addEdgeNodes []
  let loners := dg.nodes.filter
    (fun n => dg.outDegree n == 0 && dg.inDegree n == 0)
  ⟨loners.foldl addNode copyNodes, copyEdges⟩

/-- Heap-threaded `quasi_topological_sort` (layout.py lines 257-324): the
caller's graph is cell `gid`; `dg_copy` is a freshly allocated cell, and all
its `add_edge`/`add_node` writes go through the heap. -/
def quasiTopologicalSortH (gh : List DiGraph) (gid : Nat) :
    Except String (List Node × List DiGraph) :=
  let g := heapGetG gh gid
  if g.nodes.length = 1 then .ok (g.nodes, gh)
  else
    let cid := gh.length
    let gh1 := gh ++ [(⟨[], []⟩ : DiGraph)]
    if hasMultiNodeSCC g then .error "TypeError: unhashable type: 'set'"
    else
      let copyEdges := g.edges.filter (fun e => !(e.1 == e.2))
      let gh2 := copyEdges.foldl (fun gh e => heapAddEdgeG gh cid e) gh1
      let gE := heapGetG gh2 gid
      let loners := gE.nodes.filter
        (fun n => gE.outDegree n == 0 && gE.inDegree n == 0)
      let gh3 := loners.foldl (fun gh n => heapAddNodeG gh cid n) gh2
      (topologicalSortNX (heapGetG gh3 cid)).map (fun order => (order, gh3))

/-- One heap-threaded iteration of the `to_acyclic_graph` loop: the `dag`
being built is cell `did`; `dg.successors(node)` re-reads the caller's cell
`gid` from the current heap. -/
def taHStep (gid did : Nat) (acc : List DiGraph × List Node) (node : Node) :
    List DiGraph × List Node :=
  let visited := node :: acc.2
  let gh := heapAddNodeG acc.1 did node
  let g := heapGetG gh gid
  let gh := (g.successors node).foldl
    (fun gh succ =>
      if succ ∈ visited then gh else heapAddEdgeG gh did (node, succ)) gh
  (gh, visited)

/-- Heap-threaded `to_acyclic_graph` (layout.py lines 370-394): allocates
the fresh `dag` cell and returns its reference. -/
def toAcyclicGraphH (gh : List DiGraph) (gid : Nat)
    (orderedNodes : List Node) : Nat × List DiGraph :=
  let did := gh.length
  let gh1 := gh ++ [(⟨[], []⟩ : DiGraph)]
  ((did, (orderedNodes.foldl (taHStep gid did) (gh1, [])).1))

theorem heap_foldl_addEdge :
    ∀ (es : List (Node × Node)) (H : List DiGraph) (cid : Nat),
      cid < H.length →
      es.foldl (fun gh e => heapAddEdgeG gh cid e) H =
        heapSetG H cid (es.foldl DiGraph.addEdge (heapGetG H cid))
  | [], H, cid, h => (set_heapGetG_self H cid h).symm
  | e :: es, H, cid, h => by
    simp only [List.foldl_cons]
    rw [heap_foldl_addEdge es _ cid (by rw [heapAddEdgeG, heapSetG_length]; exact h)]
    rw [show heapGetG (heapAddEdgeG H cid e) cid = (heapGetG H cid).addEdge e
      from heapGetG_set_self H cid _ h]
    rw [heapAddEdgeG, heapSetG_set]

theorem heap_foldl_addNode :
    ∀ (ns : List Node) (H : List DiGraph) (cid : Nat), cid < H.length →
      ns.foldl (fun gh n => heapAddNodeG gh cid n) H =
        heapSetG H cid (ns.foldl DiGraph.addNodeG (heapGetG H cid))
  | [], H, cid, h => (set_heapGetG_self H cid h).symm
  | n :: ns, H, cid, h => by
    simp only [List.foldl_cons]
    rw [heap_foldl_addNode ns _ cid (by rw [heapAddNodeG, heapSetG_length]; exact h)]
    rw [show heapGetG (heapAddNodeG H cid n) cid = (heapGetG H cid).addNodeG n
      from heapGetG_set_self H cid _ h]
    rw [heapAddNodeG, heapSetG_set]

theorem heap_foldl_addEdge_skip (visited : List Node) (node : Node) :
    ∀ (succs : List Node) (H : List DiGraph) (did : Nat), did < H.length →
      succs.foldl (fun gh succ =>
          if succ ∈ visited then gh else heapAddEdgeG gh did (node, succ)) H =
        heapSetG H did (succs.foldl (fun dag succ =>
          if succ ∈ visited then dag else dag.addEdge (node, succ))
          (heapGetG H did))
  | [], H, did, h => (set_heapGetG_self H did h).symm
  | s :: succs, H, did, h => by
    simp only [List.foldl_cons]
    by_cases hv : s ∈ visited
    · rw [if_pos hv, if_pos hv]
      exact heap_foldl_addEdge_skip visited node succs H did h
    · rw [if_neg hv, if_neg hv]
      rw [heap_foldl_addEdge_skip visited node succs _ did
        (by rw [heapAddEdgeG, heapSetG_length]; exact h)]
      rw [show heapGetG (heapAddEdgeG H did (node, s)) did =
          (heapGetG H did).addEdge (node, s)
        from heapGetG_set_self H did _ h]
      rw [heapAddEdgeG, heapSetG_set]

theorem foldl_addEdge_fresh :
    ∀ (es : List (Node × Node)) (g : DiGraph), es.Nodup →
      (∀ e ∈ es, e ∉ g.edges) →
      es.foldl DiGraph.addEdge g = ⟨es.foldl addEdgeNodes g.nodes, g.edges ++ es⟩
  | [], g, _, _ => by simp
  | e :: es, g, hnd, hfresh => by
    simp only [List.foldl_cons]
    have hne : e ∉ g.edges := hfresh e (by simp)
    have hstep : g.addEdge e = ⟨addEdgeNodes g.nodes e, g.edges ++ [e]⟩ := by
      simp [DiGraph.addEdge, hne]
    rw [hstep]
    rw [List.nodup_cons] at hnd
    rw [foldl_addEdge_fresh es _ hnd.2 ?_]
    · simp
    · intro e' he'
      simp only [List.mem_append, List.mem_singleton]
      rintro (hx | hx)
      · exact hfresh e' (by simp [he']) hx
      · exact hnd.1 (hx ▸ he')

theorem foldl_addNodeG_nodes :
    ∀ (ns : List Node) (g : DiGraph),
      ns.foldl DiGraph.addNodeG g = ⟨ns.foldl addNode g.nodes, g.edges⟩
  | [], g => by simp
  | n :: ns, g => by
    simp only [List.foldl_cons]
    rw [foldl_addNodeG_nodes ns (g.addNodeG n)]
    rfl

theorem quasiTopologicalSortH_spec (gh : List DiGraph) (gid : Nat)
    (hlt : gid < gh.length) (hnd : (heapGetG gh gid).edges.Nodup) :
    quasiTopologicalSortH gh gid =
      (quasiTopologicalSort (heapGetG gh gid)).map (fun order =>
        (order,
          if (heapGetG gh gid).nodes.length = 1 then gh
          else gh ++ [qtsCopyOf (heapGetG gh gid)])) := by
  by_cases h1 : (heapGetG gh gid).nodes.length = 1
  · simp only [quasiTopologicalSortH, quasiTopologicalSort, if_pos h1]
    rfl
  · by_cases h2 : hasMultiNodeSCC (heapGetG gh gid)
    · simp only [quasiTopologicalSortH, quasiTopologicalSort, if_neg h1,
        if_pos h2]
      rfl
    · have hgne : gid ≠ gh.length := Nat.ne_of_lt hlt
      have hcid : gh.length < (gh ++ [(⟨[], []⟩ : DiGraph)]).length := by simp
      have hE : ((heapGetG gh gid).edges.filter
          (fun e => !(e.1 == e.2))).Nodup := hnd.filter _
      have hfresh : ∀ e ∈ (heapGetG gh gid).edges.filter
          (fun e => !(e.1 == e.2)), e ∉ (⟨[], []⟩ : DiGraph).edges := by
        intro e _ hx
        exact absurd hx (List.not_mem_nil e)
      simp only [quasiTopologicalSortH, quasiTopologicalSort, if_neg h1,
        if_neg h2]
      rw [heap_foldl_addEdge _ _ _ hcid]
      rw [heapGetG_append_len]
      rw [foldl_addEdge_fresh _ _ hE hfresh]
      rw [heapGetG_set_ne _ _ _ _ hgne, heapGetG_append_lt _ _ _ hlt]
      rw [heap_foldl_addNode _ _ _ (by rw [heapSetG_length]; exact hcid)]
      rw [heapGetG_set_self _ _ _ hcid]
      rw [foldl_addNodeG_nodes]
      rw [heapSetG_set, heapSetG_append_len]
      rw [heapGetG_append_len]
      simp [qtsCopyOf]

theorem taHStep_spec (gid did : Nat) (hne : gid ≠ did) (g : DiGraph)
    (H : List DiGraph) (vis : List Node) (node : Node)
    (hdlt : did < H.length) (hg : heapGetG H gid = g) :
    taHStep gid did (H, vis) node =
      (heapSetG H did ((taStep g (heapGetG H did, vis) node).1),
       (taStep g (heapGetG H did, vis) node).2) := by
  simp only [taHStep, taStep]
  have h1 : heapGetG (heapAddNodeG H did node) gid = g := by
    rw [heapAddNodeG, heapGetG_set_ne _ _ _ _ hne]
    exact hg
  rw [h1]
  rw [heap_foldl_addEdge_skip (node :: vis) node (g.successors node) _ did
    (by rw [heapAddNodeG, heapSetG_length]; exact hdlt)]
  rw [show heapGetG (heapAddNodeG H did node) did =
      (heapGetG H did).addNodeG node from heapGetG_set_self H did _ hdlt]
  rw [heapAddNodeG, heapSetG_set]

theorem taH_fold_spec (gid did : Nat) (hne : gid ≠ did) (g : DiGraph) :
    ∀ (l : List Node) (H : List DiGraph) (vis : List Node),
      did < H.length → heapGetG H gid = g →
      l.foldl (taHStep gid did) (H, vis) =
        (heapSetG H did ((l.foldl (taStep g) (heapGetG H did, vis)).1),
         (l.foldl (taStep g) (heapGetG H did, vis)).2)
  | [], H, vis, hdlt, hg => by
    simp only [List.foldl_nil]
    rw [set_heapGetG_self H did hdlt]
  | node :: l, H, vis, hdlt, hg => by
    simp only [List.foldl_cons]
    have hd2 : did <
        (heapSetG H did ((taStep g (heapGetG H did, vis) node).1)).length := by
      rw [heapSetG_length]
      exact hdlt
    have hg2 : heapGetG
        (heapSetG H did ((taStep g (heapGetG H did, vis) node).1)) gid = g := by
      rw [heapGetG_set_ne _ _ _ _ hne]
      exact hg
    rw [taHStep_spec gid did hne g H vis node hdlt hg]
    rw [taH_fold_spec gid did hne g l _ _ hd2 hg2]
    rw [heapGetG_set_self _ _ _ hdlt, heapSetG_set]

theorem toAcyclicGraphH_spec (gh : List DiGraph) (gid : Nat)
    (hlt : gid < gh.length) (order : List Node) :
    toAcyclicGraphH gh gid order =
      (gh.length, gh ++ [toAcyclicGraph (heapGetG gh gid) order]) := by
  have hne : gid ≠ gh.length := Nat.ne_of_lt hlt
  have hd1 : gh.length < (gh ++ [(⟨[], []⟩ : DiGraph)]).length := by simp
  have hg1 : heapGetG (gh ++ [(⟨[], []⟩ : DiGraph)]) gid = heapGetG gh gid :=
    heapGetG_append_lt gh _ gid hlt
  simp only [toAcyclicGraphH]
  rw [taH_fold_spec gid gh.length hne (heapGetG gh gid) order _ [] hd1 hg1]
  rw [heapGetG_append_len, heapSetG_append_len]
  rw [toAcyclicGraph_eq_foldl]

/-- Heap-threaded `layout` (layout.py lines 189-255): the caller's graph is
cell `gid` of the graph heap, the caller's `node_sizes` dict cell `sid` of
the size heap.  Every stage reads those objects from the current heap; the
final heaps are returned alongside the result. -/
def layoutH (gh : List DiGraph) (gid : Nat)
    (sh : List (List (Node × NodeSize))) (sid : Nat)
    (key : Node → Int) (opts : LayoutOptions) :
    Except String ((LayoutResult × List SegmentedEdge) ×
      List DiGraph × List (List (Node × NodeSize))) := do
  let (orderedNodes, gh1) ← quasiTopologicalSortH gh gid
  let (dagId, gh2) := toAcyclicGraphH gh1 gid orderedNodes
  let dag := heapGetG gh2 dagId
  let (maxRows, maxRow) := calculateMaxRow dag orderedNodes
  let (_rows, rowToNodes) ← assignRows orderedNodes maxRows key
  let (colSt, maxCol) ← assign_columns dag rowToNodes key
  let (state, edges) ← route_edges (heapGetG gh2 gid) colSt.locations maxCol
    (maxRow : Int)
  let maxV := calculate_max_edge_indices state.vertical_edges
  let maxH := calculate_max_edge_indices state.horizontal_edges
  let (rowHeights, colWidths) ← make_grids (maxRow : Int) maxCol maxV maxH
    (heapGetG gh2 gid).nodes colSt.locations (heapGetS sh sid)
    opts.x_margin opts.y_margin
  let res ← calculate_coordinates (maxRow : Int) maxCol rowHeights colWidths
    colSt.locations maxH opts.row_margin opts.col_margin
    opts.x_margin opts.y_margin (heapGetG gh2 gid).nodes (heapGetS sh sid)
    edges
  pure (res, gh2, sh)

theorem except_map_ok {α β : Type} (a : α) (g : α → β) :
    (Except.ok a : Except String α).map g = .ok (g a) := rfl

theorem except_bind_ok_eq {α β : Type} (a : α) (f : α → Except String β) :
    ((Except.ok a : Except String α) >>= f) = f a := rfl

theorem except_map_bind {α β γ : Type} (x : Except String α)
    (f : α → Except String β) (g : β → γ) :
    (x >>= f).map g = x >>= fun a => (f a).map g := by
  cases x <;> rfl

theorem except_bind_pure {α β : Type} (x : Except String α) (g : α → β) :
    (x >>= fun a => (pure (g a) : Except String β)) = x.map g := by
  cases x <;> rfl

theorem layoutH_spec (gh : List DiGraph) (gid : Nat)
    (sh : List (List (Node × NodeSize))) (sid : Nat)
    (key : Node → Int) (opts : LayoutOptions)
    (hlt : gid < gh.length) (hnd : (heapGetG gh gid).edges.Nodup) :
    ∃ ex : List DiGraph,
      layoutH gh gid sh sid key opts =
        (layout (heapGetG gh gid) (heapGetS sh sid) key opts).map
          (fun r => (r, gh ++ ex, sh)) := by
  simp only [layoutH, layout]
  rw [quasiTopologicalSortH_spec gh gid hlt hnd]
  cases hq : quasiTopologicalSort (heapGetG gh gid) with
  | error m => exact ⟨[], rfl⟩
  | ok order =>
    by_cases h1 : (heapGetG gh gid).nodes.length = 1
    · refine ⟨[toAcyclicGraph (heapGetG gh gid) order], ?_⟩
      simp only [except_map_ok, except_bind_ok_eq, if_pos h1]
      rw [toAcyclicGraphH_spec gh gid hlt order]
      simp only [heapGetG_append_len, heapGetG_append_lt _ _ _ hlt]
      simp only [except_map_bind, except_bind_pure]
    · refine ⟨[qtsCopyOf (heapGetG gh gid),
        toAcyclicGraph (heapGetG gh gid) order], ?_⟩
      simp only [except_map_ok, except_bind_ok_eq, if_neg h1]
      have hlt2 : gid < (gh ++ [qtsCopyOf (heapGetG gh gid)]).length := by
        rw [List.length_append]
        omega
      rw [toAcyclicGraphH_spec _ gid hlt2 order]
      simp only [heapGetG_append_len, heapGetG_append_lt _ _ _ hlt2,
        heapGetG_append_lt _ _ _ hlt]
      simp only [except_map_bind, except_bind_pure]
      simp [List.append_assoc]

/-- C10: `layout` does not mutate its inputs.  In the heap-threaded
transcription (`layoutH`, in which every write the source performs reaches
the heap, and the cycle-resolution copies `dg_copy` and `dag` are freshly
allocated cells), the computed result agrees with the value-level `layout`,
and on success the caller's graph cell, every other pre-existing heap cell,
and the whole size-dict heap are returned unchanged. -/
theorem C10_layout_no_input_mutation (gh : List DiGraph) (gid : Nat)
    (sh : List (List (Node × NodeSize))) (sid : Nat)
    (key : Node → Int) (opts : LayoutOptions)
    (hlt : gid < gh.length) (hnd : (heapGetG gh gid).edges.Nodup) :
    ((layoutH gh gid sh sid key opts).map (fun r => r.1) =
      layout (heapGetG gh gid) (heapGetS sh sid) key opts) ∧
    (∀ r gh' sh', layoutH gh gid sh sid key opts = .ok (r, gh', sh') →
      sh' = sh ∧ heapGetG gh' gid = heapGetG gh gid ∧
      ∀ i, i < gh.length → heapGetG gh' i = heapGetG gh i) := by
  obtain ⟨ex, hspec⟩ := layoutH_spec gh gid sh sid key opts hlt hnd
  constructor
  · rw [hspec]
    cases layout (heapGetG gh gid) (heapGetS sh sid) key opts <;> rfl
  · intro r gh' sh' h
    rw [hspec] at h
    cases hl : layout (heapGetG gh gid) (heapGetS sh sid) key opts with
    | error m =>
      rw [hl] at h
      exact Except.noConfusion h
    | ok res =>
      rw [hl] at h
      injection h with h
      have hgh : gh' = gh ++ ex := (congrArg (fun t => t.2.1) h).symm
      have hsh : sh' = sh := (congrArg (fun t => t.2.2) h).symm
      refine ⟨hsh, ?_, ?_⟩
      · rw [hgh]
        exact heapGetG_append_lt gh ex gid hlt
      · intro i hi
        rw [hgh]
        exact heapGetG_append_lt gh ex i hi

/-- Witness for C10: a two-node heap-allocated graph with its size dict. -/
theorem C10_layout_no_input_mutation_witness :
    ((layoutH [(⟨[0, 1], [(0, 1)]⟩ : DiGraph)] 0
        [[(0, ⟨100, 40⟩), (1, ⟨100, 40⟩)]] 0 (fun n => n)
        DEFAULT_LAYOUT).map (fun r => r.1) =
      layout (heapGetG [(⟨[0, 1], [(0, 1)]⟩ : DiGraph)] 0)
        (heapGetS [[(0, ⟨100, 40⟩), (1, ⟨100, 40⟩)]] 0) (fun n => n)
        DEFAULT_LAYOUT) ∧
    (∀ r gh' sh', layoutH [(⟨[0, 1], [(0, 1)]⟩ : DiGraph)] 0
        [[(0, ⟨100, 40⟩), (1, ⟨100, 40⟩)]] 0 (fun n => n)
        DEFAULT_LAYOUT = .ok (r, gh', sh') →
      sh' = [[(0, ⟨100, 40⟩), (1, ⟨100, 40⟩)]] ∧
      heapGetG gh' 0 = heapGetG [(⟨[0, 1], [(0, 1)]⟩ : DiGraph)] 0 ∧
      ∀ i, i < ([(⟨[0, 1], [(0, 1)]⟩ : DiGraph)] : List DiGraph).length →
        heapGetG gh' i = heapGetG [(⟨[0, 1], [(0, 1)]⟩ : DiGraph)] i) :=
  C10_layout_no_input_mutation [(⟨[0, 1], [(0, 1)]⟩ : DiGraph)] 0
    [[(0, ⟨100, 40⟩), (1, ⟨100, 40⟩)]] 0 (fun n => n) DEFAULT_LAYOUT
    (by decide) (by decide)

/-! ### C5: minimum column gap of 2 within a row -/

theorem insertStable_perm {α : Type} (le : α → α → Bool) (x : α) :
    ∀ (ys : List α), (insertStable le x ys).Perm (x :: ys)
  | [] => List.Perm.refl _
  | y :: ys => by
    simp only [insertStable]
    split_ifs with h
    · exact ((insertStable_perm le x ys).cons y).trans
        (List.Perm.swap x y ys)
    · exact List.Perm.refl _

theorem pySorted_fold_perm {α : Type} (le : α → α → Bool) :
    ∀ (l acc : List α),
      (l.foldl (fun acc x => insertStable le x acc) acc).Perm (acc ++ l)
  | [], acc => by simp
  | x :: l, acc => by
    simp only [List.foldl_cons]
    refine (pySorted_fold_perm le l (insertStable le x acc)).trans ?_
    refine (List.Perm.append_right l ((insertStable_perm le x acc))).trans ?_
    simp only [List.cons_append]
    exact List.perm_middle.symm

theorem pySorted_perm {α : Type} (le : α → α → Bool) (l : List α) :
    (pySorted le l).Perm l := by
  simpa using pySorted_fold_perm le l []

theorem insertStable_pairwise {α : Type} (le : α → α → Bool)
    (htot : ∀ a b, le a b = true ∨ le b a = true)
    (htrans : ∀ a b c, le a b = true → le b c = true → le a c = true)
    (x : α) :
    ∀ (ys : List α), ys.Pairwise (fun a b => le a b = true) →
      (insertStable le x ys).Pairwise (fun a b => le a b = true)
  | [], _ => by simp [insertStable]
  | y :: ys, h => by
    rw [List.pairwise_cons] at h
    simp only [insertStable]
    split_ifs with hle
    · rw [List.pairwise_cons]
      refine ⟨?_, insertStable_pairwise le htot htrans x ys h.2⟩
      intro z hz
      rcases List.mem_cons.mp ((insertStable_perm le x ys).mem_iff.mp hz) with
        hz | hz
      · exact hz ▸ hle
      · exact h.1 z hz
    · rw [List.pairwise_cons]
      have hxy : le x y = true := (htot x y).resolve_right (by simpa using hle)
      refine ⟨?_, List.pairwise_cons.mpr h⟩
      intro z hz
      rcases List.mem_cons.mp hz with hz | hz
      · exact hz ▸ hxy
      · exact htrans x y z hxy (h.1 z hz)

theorem pySorted_fold_pairwise {α : Type} (le : α → α → Bool)
    (htot : ∀ a b, le a b = true ∨ le b a = true)
    (htrans : ∀ a b c, le a b = true → le b c = true → le a c = true) :
    ∀ (l acc : List α), acc.Pairwise (fun a b => le a b = true) →
      (l.foldl (fun acc x => insertStable le x acc) acc).Pairwise
        (fun a b => le a b = true)
  | [], _, h => h
  | x :: l, acc, h => by
    simp only [List.foldl_cons]
    exact pySorted_fold_pairwise le htot htrans l _
      (insertStable_pairwise le htot htrans x acc h)

theorem pySorted_pairwise {α : Type} (le : α → α → Bool)
    (htot : ∀ a b, le a b = true ∨ le b a = true)
    (htrans : ∀ a b c, le a b = true → le b c = true → le a c = true)
    (l : List α) :
    (pySorted le l).Pairwise (fun a b => le a b = true) :=
  pySorted_fold_pairwise le htot htrans l [] (by simp)

theorem nodup_keys_eq {α β : Type} {l : List (α × β)} {p q : α × β}
    (hnd : (l.map (·.1)).Nodup) (hp : p ∈ l) (hq : q ∈ l)
    (hkey : p.1 = q.1) : p = q := by
  induction l with
  | nil => cases hp
  | cons x l ih =>
    simp only [List.map_cons, List.nodup_cons] at hnd
    rcases List.mem_cons.mp hp with hp' | hp' <;>
      rcases List.mem_cons.mp hq with hq' | hq'
    · rw [hp', hq']
    · exfalso
      refine hnd.1 ?_
      rw [show x.1 = q.1 from hp' ▸ hkey]
      exact List.mem_map_of_mem (·.1) hq'
    · exfalso
      refine hnd.1 ?_
      rw [show x.1 = p.1 from (hq' ▸ hkey).symm]
      exact List.mem_map_of_mem (·.1) hp'
    · exact ih hnd.2 hp' hq'

/-- `a` precedes `b` in stored-column order. -/
def colLE (cols : List (Node × Int)) (a b : Node) : Prop :=
  ∀ ca cb, dictGet? cols a = some ca → dictGet? cols b = some cb → ca ≤ cb

theorem detectOverlapScan_spec (node : Node) (cols : List (Node × Int))
    (ideal : Int) :
    ∀ (l : List Node) (ov0 : Bool) (sg0 : Int) (ovF : Bool) (sgF : Int),
      l.Pairwise (colLE cols) →
      detectOverlapScan node cols ideal l ov0 sg0 = .ok (ovF, sgF) →
      ((sgF = sg0 ∨ ∃ rn ∈ l, rn ≠ node ∧ ∃ c, dictGet? cols rn = some c ∧
          sgF = c + 2) ∧
       (∀ rn ∈ l, rn ≠ node → ∀ c, dictGet? cols rn = some c →
          ¬(c - 1 ≤ sgF ∧ sgF ≤ c + 1)) ∧
       (ovF = false → ov0 = false ∧ ∀ rn ∈ l, rn ≠ node → ∀ c,
          dictGet? cols rn = some c → ¬(c - 1 ≤ ideal ∧ ideal ≤ c + 1)))
  | [], ov0, sg0, ovF, sgF, _, h => by
    simp only [detectOverlapScan, pure, Except.pure] at h
    injection h with h
    rw [Prod.mk.injEq] at h
    obtain ⟨h1, h2⟩ := h
    subst h1
    subst h2
    refine ⟨Or.inl rfl, ?_, ?_⟩
    · intro rn hrn
      cases hrn
    · intro hov
      exact ⟨hov, fun rn hrn => by cases hrn⟩
  | rn :: rest, ov0, sg0, ovF, sgF, hpw, h => by
    rw [List.pairwise_cons] at hpw
    obtain ⟨hhead, htail⟩ := hpw
    by_cases hrn : rn = node
    · simp only [detectOverlapScan, if_pos hrn] at h
      obtain ⟨c1, c2, c3⟩ :=
        detectOverlapScan_spec node cols ideal rest ov0 sg0 ovF sgF htail h
      refine ⟨?_, ?_, ?_⟩
      · rcases c1 with h' | ⟨rn', hm, hne, hc⟩
        · exact Or.inl h'
        · exact Or.inr ⟨rn', List.mem_cons_of_mem _ hm, hne, hc⟩
      · intro rn' hm hne c hc
        rcases List.mem_cons.mp hm with hm | hm
        · exact absurd (hm.trans hrn) hne
        · exact c2 rn' hm hne c hc
      · intro hov
        obtain ⟨hov0, hcl⟩ := c3 hov
        refine ⟨hov0, ?_⟩
        intro rn' hm hne c hc
        rcases List.mem_cons.mp hm with hm | hm
        · exact absurd (hm.trans hrn) hne
        · exact hcl rn' hm hne c hc
    · simp only [detectOverlapScan, if_neg hrn] at h
      cases hc : dictGet? cols rn with
      | none =>
        rw [show dictGetE cols rn = .error "KeyError" by
          simp [dictGetE, hc]] at h
        exact Except.noConfusion h
      | some c =>
        rw [show dictGetE cols rn = .ok c by simp [dictGetE, hc]] at h
        rw [except_bind_ok_eq] at h
        have hcle : ∀ rn' ∈ rest, ∀ c', dictGet? cols rn' = some c' →
            c ≤ c' := by
          intro rn' hm c' hc'
          exact hhead rn' hm c c' hc hc'
        split_ifs at h with hbi hbs hbrk hbrk hbs hbrk hbrk
        all_goals
          first
          | ( -- early return: h : pure (ovB, sgB) = .ok (ovF, sgF)
             simp only [pure, Except.pure] at h
             injection h with h
             rw [Prod.mk.injEq] at h
             obtain ⟨h1, h2⟩ := h
             subst h1
             subst h2
             refine ⟨?_, ?_, ?_⟩
             · first
               | exact Or.inr ⟨rn, List.mem_cons_self rn rest, hrn, c, hc, rfl⟩
               | exact Or.inl rfl
             · intro rn' hm hne c' hc'
               rcases List.mem_cons.mp hm with hm | hm
               · rw [hm] at hc'
                 rw [hc] at hc'
                 injection hc' with hc'
                 subst hc'
                 omega
               · have := hcle rn' hm c' hc'
                 omega
             · intro hov
               exact absurd hov (by simp_all))
          | ( -- recurse: h : detectOverlapScan ... rest _ _ = .ok (ovF, sgF)
             obtain ⟨c1, c2, c3⟩ :=
               detectOverlapScan_spec node cols ideal rest _ _ ovF sgF htail h
             refine ⟨?_, ?_, ?_⟩
             · rcases c1 with h' | ⟨rn', hm, hne, c', hc', hsg⟩
               · first
                 | exact Or.inl h'
                 | exact (Or.inr ⟨rn, List.mem_cons_self rn rest, hrn, c, hc,
                     h'⟩)
               · exact Or.inr ⟨rn', List.mem_cons_of_mem _ hm, hne, c', hc',
                   hsg⟩
             · intro rn' hm hne c' hc'
               rcases List.mem_cons.mp hm with hm | hm
               · subst hm
                 rw [hc] at hc'
                 injection hc' with hc'
                 subst hc'
                 rcases c1 with h' | ⟨rn2, hm2, hne2, c2', hc2, hsg2⟩
                 · subst h'
                   omega
                 · have := hcle rn2 hm2 c2' hc2
                   omega
               · exact c2 rn' hm hne c' hc'
             · intro hov
               obtain ⟨hov1, hcl⟩ := c3 hov
               refine ⟨by simp_all, ?_⟩
               intro rn' hm hne c' hc'
               rcases List.mem_cons.mp hm with hm | hm
               · subst hm
                 rw [hc] at hc'
                 injection hc' with hc'
                 subst hc'
                 first
                 | exact hbi
                 | exact absurd hov1 (by simp)
               · exact hcl rn' hm hne c' hc')

theorem mapM_cols_spec (cols : List (Node × Int)) :
    ∀ (ns : List Node) (pairs : List (Node × Int)),
      ns.mapM (fun n => do
        let c ← dictGetE cols n
        pure (n, c)) = .ok pairs →
      pairs.map (·.1) = ns ∧ ∀ p ∈ pairs, dictGet? cols p.1 = some p.2
  | [], pairs, h => by
    simp only [List.mapM_nil, pure, Except.pure] at h
    injection h with h
    subst h
    exact ⟨rfl, fun p hp => absurd hp (List.not_mem_nil p)⟩
  | n :: ns, pairs, h => by
    rw [List.mapM_cons] at h
    obtain ⟨b, hb, h⟩ := except_bind_ok h
    obtain ⟨c0, hc0, hb2⟩ := except_bind_ok hb
    obtain ⟨tl, htl, h3⟩ := except_bind_ok h
    have hbval : b = (n, c0) := by
      simp only [pure, Except.pure] at hb2
      injection hb2 with hb2
      exact hb2.symm
    have hpval : pairs = b :: tl := by
      simp only [pure, Except.pure] at h3
      injection h3 with h3
      exact h3.symm
    have hcn : dictGet? cols n = some c0 := by
      simp only [dictGetE] at hc0
      cases hx : dictGet? cols n with
      | none =>
        rw [hx] at hc0
        exact Except.noConfusion hc0
      | some c1 =>
        rw [hx] at hc0
        injection hc0 with hc0
        rw [hc0]
    obtain ⟨ih1, ih2⟩ := mapM_cols_spec cols ns tl htl
    subst hpval
    subst hbval
    refine ⟨by simp [ih1], ?_⟩
    intro p hp
    rcases List.mem_cons.mp hp with hp | hp
    · rw [hp]
      exact hcn
    · exact ih2 p hp

theorem detect_overlap_spec (node : Node) (cols : List (Node × Int))
    (ideal : Int) (rowNodes : List Node) (minCol : Int) (ov : Bool)
    (col : Int)
    (hok : detect_overlap node cols ideal rowNodes minCol = .ok (ov, col)) :
    ∀ rn ∈ rowNodes, rn ≠ node → ∀ c, dictGet? cols rn = some c →
      ¬(c - 1 ≤ col ∧ col ≤ c + 1) := by
  simp only [detect_overlap] at hok
  obtain ⟨pairs, hpairs, hok⟩ := except_bind_ok hok
  obtain ⟨⟨ovS, sgS⟩, hscan, hfin⟩ := except_bind_ok hok
  obtain ⟨hmap, hcontent⟩ := mapM_cols_spec cols rowNodes pairs hpairs
  have hperm : (sortPairsBySnd pairs).Perm pairs := pySorted_perm _ pairs
  have hcontent' : ∀ p ∈ sortPairsBySnd pairs, dictGet? cols p.1 = some p.2 :=
    fun p hp => hcontent p (hperm.mem_iff.mp hp)
  have hsorted : (sortPairsBySnd pairs).Pairwise
      (fun a b => decide (a.2 ≤ b.2) = true) := by
    refine pySorted_pairwise _ ?_ ?_ pairs
    · intro a b
      rcases Int.le_total a.2 b.2 with h | h
      · exact Or.inl (by simpa using h)
      · exact Or.inr (by simpa using h)
    · intro a b c hab hbc
      simp only [decide_eq_true_eq] at hab hbc ⊢
      exact hab.trans hbc
  have hsortedN : ((sortPairsBySnd pairs).map (·.1)).Pairwise (colLE cols) := by
    rw [List.pairwise_map]
    refine hsorted.imp_of_mem ?_
    intro a b ha hb hab
    intro ca cb hca hcb
    rw [hcontent' a ha] at hca
    rw [hcontent' b hb] at hcb
    injection hca with hca
    injection hcb with hcb
    subst hca
    subst hcb
    simpa using hab
  obtain ⟨_, c2, c3⟩ := detectOverlapScan_spec node cols ideal
    ((sortPairsBySnd pairs).map (·.1)) false minCol ovS sgS hsortedN hscan
  intro rn hrn hne c hc
  have hrnS : rn ∈ (sortPairsBySnd pairs).map (·.1) := by
    have h1 : rn ∈ pairs.map (·.1) := by
      rw [hmap]
      exact hrn
    obtain ⟨p, hp, hp1⟩ := List.mem_map.mp h1
    exact List.mem_map.mpr ⟨p, hperm.mem_iff.mpr hp, hp1⟩
  cases hov : ovS with
  | true =>
    rw [hov] at hfin
    simp only [if_pos rfl] at hfin
    simp only [pure, Except.pure] at hfin
    injection hfin with hfin
    rw [Prod.mk.injEq] at hfin
    obtain ⟨h1, h2⟩ := hfin
    subst h2
    exact c2 rn hrnS hne c hc
  | false =>
    rw [hov] at hfin
    simp only [Bool.false_eq_true, if_false] at hfin
    simp only [pure, Except.pure] at hfin
    injection hfin with hfin
    rw [Prod.mk.injEq] at hfin
    obtain ⟨h1, h2⟩ := hfin
    subst h2
    exact (c3 hov).2 rn hrnS hne c hc

theorem fdiv2_bounds (x : Int) :
    2 * (x.fdiv 2) ≤ x ∧ x < 2 * (x.fdiv 2) + 2 := by
  have h1 : x.fmod 2 + 2 * x.fdiv 2 = x := Int.fmod_add_fdiv x 2
  have h2 : 0 ≤ x.fmod 2 := Int.fmod_nonneg' x (by decide)
  have h3 : x.fmod 2 < 2 := Int.fmod_lt_of_pos x (by decide)
  omega

theorem pass1Succ_band (cols : List (Node × Int)) :
    ∀ (succs : List Node) (acc : Option Int × Option Int),
      (acc = (none, none) ∨ ∃ mn mx, acc = (some mn, some mx) ∧ mn < mx) →
      (succs.foldl (pass1Succ cols) acc = (none, none) ∨
        ∃ mn mx, succs.foldl (pass1Succ cols) acc = (some mn, some mx) ∧
          mn < mx)
  | [], acc, h => h
  | s :: succs, acc, h => by
    simp only [List.foldl_cons]
    refine pass1Succ_band cols succs _ ?_
    cases hs : dictGet? cols s with
    | none =>
      simp only [pass1Succ, hs]
      exact h
    | some sc =>
      rcases h with h | ⟨mn, mx, h, hlt⟩
      · subst h
        simp only [pass1Succ, hs]
        exact Or.inr ⟨sc, sc + 1, rfl, by omega⟩
      · subst h
        simp only [pass1Succ, hs]
        right
        refine ⟨if sc < mn then sc else mn, if sc > mx then sc + 1 else mx,
          ?_, ?_⟩
        · split_ifs <;> rfl
        · split_ifs <;> omega

theorem pass1Node_spec (dag : DiGraph) (rowIdx : Nat) (st : ColState)
    (nmin : Int) (node : Node) (out : ColState × Int × Int)
    (h : pass1Node dag rowIdx (st, nmin, nmin + 1) node = .ok out) :
    ∃ col nmin', out = (⟨dictSet st.cols node col,
        dictSet st.locations node ⟨col, (rowIdx : Int)⟩,
        max st.globalMaxCol col⟩, nmin', nmin' + 1) ∧
      nmin ≤ col ∧ col + 2 ≤ nmin' := by
  simp only [pass1Node] at h
  rcases pass1Succ_band st.cols (dag.successors node) (none, none)
    (Or.inl rfl) with hb | ⟨mn, mx, hb, hlt⟩
  · simp only [hb, pure, Except.pure, except_bind_ok_eq] at h
    injection h with h
    obtain ⟨hd1, hd2⟩ := fdiv2_bounds (nmin + (nmin + 1))
    refine ⟨(nmin + (nmin + 1)).fdiv 2,
      if nmin = nmin + 1 then nmin + 1 + 2 else nmin + 1 + 1, h.symm, ?_, ?_⟩
    · omega
    · split_ifs <;> omega
  · simp only [hb, pure, Except.pure, except_bind_ok_eq] at h
    injection h with h
    set minCol := if mn < nmin then nmin else mn with hmin
    set maxCol := if mx < nmin then nmin + 1 else mx with hmax
    obtain ⟨hd1, hd2⟩ := fdiv2_bounds (minCol + maxCol)
    have hb1 : nmin ≤ minCol := by
      rw [hmin]
      split_ifs <;> omega
    have hb2 : minCol ≤ maxCol := by
      rw [hmin, hmax]
      split_ifs <;> omega
    refine ⟨(minCol + maxCol).fdiv 2,
      if minCol = maxCol then maxCol + 2 else maxCol + 1, h.symm, ?_, ?_⟩
    · omega
    · split_ifs <;> omega

/-- Every located node's stored column agrees with its location. -/
def LocCols (st : ColState) : Prop :=
  ∀ n g, dictGet? st.locations n = some g →
    dictGet? st.cols n = some g.col

/-- The claimed separation: two distinct located nodes on one row are at
least two columns apart. -/
def RowSep (locations : List (Node × GridIndex)) : Prop :=
  ∀ n1 n2 g1 g2, n1 ≠ n2 → dictGet? locations n1 = some g1 →
    dictGet? locations n2 = some g2 → g1.row = g2.row →
    g1.col + 2 ≤ g2.col ∨ g2.col + 2 ≤ g1.col

/-- Every located node belongs to its row's group of `row_to_nodes`. -/
def LocGroups (rtn : List (Nat × List Node)) (st : ColState) : Prop :=
  ∀ n g, dictGet? st.locations n = some g →
    ∃ p ∈ rtn, n ∈ p.2 ∧ g.row = (p.1 : Int)

theorem pass1_row_inv (dag : DiGraph) (r : Nat) (st0 : ColState)
    (hst0row : ∀ n g, dictGet? st0.locations n = some g →
      g.row ≠ (r : Int)) :
    ∀ (post pre : List Node) (st : ColState) (nmin : Int)
      (out : ColState × Int × Int),
      (∀ n, n ∉ pre → dictGet? st.cols n = dictGet? st0.cols n ∧
        dictGet? st.locations n = dictGet? st0.locations n) →
      (∀ m ∈ pre, ∃ g, dictGet? st.locations m = some g ∧
        dictGet? st.cols m = some g.col ∧ g.row = (r : Int) ∧
        g.col + 2 ≤ nmin) →
      LocCols st → RowSep st.locations →
      post.foldlM (pass1Node dag r) (st, nmin, nmin + 1) = .ok out →
      ((∀ n, n ∉ pre ++ post →
          dictGet? out.1.cols n = dictGet? st0.cols n ∧
          dictGet? out.1.locations n = dictGet? st0.locations n) ∧
       (∀ m ∈ pre ++ post, ∃ g, dictGet? out.1.locations m = some g ∧
          dictGet? out.1.cols m = some g.col ∧ g.row = (r : Int)) ∧
       LocCols out.1 ∧ RowSep out.1.locations)
  | [], pre, st, nmin, out, hV6, hVrow, hLC, hRS, h => by
    simp only [List.foldlM_nil, pure, Except.pure] at h
    injection h with h
    subst h
    refine ⟨?_, ?_, hLC, hRS⟩
    · intro n hn
      exact hV6 n (by simpa using hn)
    · intro m hm
      obtain ⟨g, h1, h2, h3, _⟩ := hVrow m (by simpa using hm)
      exact ⟨g, h1, h2, h3⟩
  | node :: post, pre, st, nmin, out, hV6, hVrow, hLC, hRS, h => by
    rw [List.foldlM_cons] at h
    obtain ⟨s1, hs1, h⟩ := except_bind_ok h
    obtain ⟨col, nmin1, hshape, hc1, hc2⟩ :=
      pass1Node_spec dag r st nmin node s1 hs1
    subst hshape
    set st1 : ColState := ⟨dictSet st.cols node col,
      dictSet st.locations node ⟨col, (r : Int)⟩,
      max st.globalMaxCol col⟩ with hst1
    have hV6' : ∀ n, n ∉ pre ++ [node] →
        dictGet? st1.cols n = dictGet? st0.cols n ∧
        dictGet? st1.locations n = dictGet? st0.locations n := by
      intro n hn
      have hnp : n ∉ pre := fun hx => hn (List.mem_append_left _ hx)
      have hnn : n ≠ node := fun hx =>
        hn (List.mem_append_right _ (by simp [hx]))
      rw [hst1]
      simp only
      rw [dictGet?_dictSet_ne _ _ _ _ hnn, dictGet?_dictSet_ne _ _ _ _ hnn]
      exact hV6 n hnp
    have hVrow' : ∀ m ∈ pre ++ [node], ∃ g,
        dictGet? st1.locations m = some g ∧
        dictGet? st1.cols m = some g.col ∧ g.row = (r : Int) ∧
        g.col + 2 ≤ nmin1 := by
      intro m hm
      by_cases hmn : m = node
      · subst hmn
        refine ⟨⟨col, (r : Int)⟩, ?_, ?_, rfl, hc2⟩
        · rw [hst1]
          simp only
          exact dictGet?_dictSet_self _ _ _
        · rw [hst1]
          simp only
          exact dictGet?_dictSet_self _ _ _
      · have hmp : m ∈ pre := by
          rcases List.mem_append.mp hm with hx | hx
          · exact hx
          · exact absurd (by simpa using hx) hmn
        obtain ⟨g, h1, h2, h3, h4⟩ := hVrow m hmp
        refine ⟨g, ?_, ?_, h3, by omega⟩
        · rw [hst1]
          simp only
          rw [dictGet?_dictSet_ne _ _ _ _ hmn]
          exact h1
        · rw [hst1]
          simp only
          rw [dictGet?_dictSet_ne _ _ _ _ hmn]
          exact h2
    have hLC' : LocCols st1 := by
      intro n g hg
      by_cases hnn : n = node
      · subst hnn
        rw [hst1] at hg ⊢
        simp only at hg ⊢
        rw [dictGet?_dictSet_self] at hg
        injection hg with hg
        rw [← hg]
        exact dictGet?_dictSet_self _ _ _
      · rw [hst1] at hg ⊢
        simp only at hg ⊢
        rw [dictGet?_dictSet_ne _ _ _ _ hnn] at hg
        rw [dictGet?_dictSet_ne _ _ _ _ hnn]
        exact hLC n g hg
    have hRS' : RowSep st1.locations := by
      have hside : ∀ n2 g2, n2 ≠ node →
          dictGet? st.locations n2 = some g2 → g2.row = (r : Int) →
          g2.col + 2 ≤ col := by
        intro n2 g2 hne hg2 hrow
        by_cases hn2p : n2 ∈ pre
        · obtain ⟨g2', h1, _, _, h4⟩ := hVrow n2 hn2p
          rw [hg2] at h1
          injection h1 with h1
          rw [← h1] at h4
          omega
        · have := (hV6 n2 hn2p).2
          rw [hg2] at this
          exact absurd hrow (hst0row n2 g2 this.symm)
      intro n1 n2 g1 g2 hne hg1 hg2 hrow
      rw [hst1] at hg1 hg2
      simp only at hg1 hg2
      by_cases h1n : n1 = node <;> by_cases h2n : n2 = node
      · exact absurd (h1n.trans h2n.symm) hne
      · subst h1n
        rw [dictGet?_dictSet_self] at hg1
        injection hg1 with hg1
        rw [dictGet?_dictSet_ne _ _ _ _ h2n] at hg2
        have := hside n2 g2 h2n hg2 (by rw [← hrow, ← hg1])
        right
        rw [← hg1]
        simpa using this
      · subst h2n
        rw [dictGet?_dictSet_self] at hg2
        injection hg2 with hg2
        rw [dictGet?_dictSet_ne _ _ _ _ h1n] at hg1
        have := hside n1 g1 h1n hg1 (by rw [hrow, ← hg2])
        left
        rw [← hg2]
        simpa using this
      · rw [dictGet?_dictSet_ne _ _ _ _ h1n] at hg1
        rw [dictGet?_dictSet_ne _ _ _ _ h2n] at hg2
        exact hRS n1 n2 g1 g2 hne hg1 hg2 hrow
    obtain ⟨o1, o2, o3, o4⟩ := pass1_row_inv dag r st0 hst0row post
      (pre ++ [node]) st1 nmin1 out hV6' hVrow' hLC' hRS' h
    refine ⟨?_, ?_, o3, o4⟩
    · intro n hn
      refine o1 n ?_
      simp only [List.mem_append, List.mem_singleton, List.mem_cons] at hn ⊢
      tauto
    · intro m hm
      refine o2 m ?_
      simp only [List.mem_append, List.mem_singleton, List.mem_cons] at hm ⊢
      tauto

theorem pass1_fold_inv (dag : DiGraph) (key : Node → Int) :
    ∀ (gs : List (Nat × List Node)) (st : ColState) (out : ColState),
      (gs.map (·.1)).Nodup →
      (∀ p ∈ gs, ∀ n g, dictGet? st.locations n = some g →
        g.row ≠ (p.1 : Int)) →
      LocCols st → RowSep st.locations →
      gs.foldlM (fun st rn => do
          let rowNodes := sortedByKey key rn.2
          let (st, _, _) ← rowNodes.foldlM (pass1Node dag rn.1) (st, 1, 2)
          pure st) st = .ok out →
      LocCols out ∧ RowSep out.locations ∧
      (∀ n g, dictGet? out.locations n = some g →
        (∃ p ∈ gs, n ∈ p.2 ∧ g.row = (p.1 : Int)) ∨
        dictGet? st.locations n = some g)
  | [], st, out, _, _, hLC, hRS, h => by
    simp only [List.foldlM_nil, pure, Except.pure] at h
    injection h with h
    subst h
    exact ⟨hLC, hRS, fun n g hg => Or.inr hg⟩
  | rn :: gs, st, out, hkeys, hfut, hLC, hRS, h => by
    rw [List.foldlM_cons] at h
    obtain ⟨s1, hs1, h⟩ := except_bind_ok h
    obtain ⟨t1, ht1, hp⟩ := except_bind_ok hs1
    rcases t1 with ⟨st1, a, b⟩
    simp only [pure, Except.pure] at hp
    injection hp with hp
    subst hp
    simp only [List.map_cons, List.nodup_cons] at hkeys
    have hst0row : ∀ n g, dictGet? st.locations n = some g →
        g.row ≠ (rn.1 : Int) :=
      fun n g hg => hfut rn (List.mem_cons_self rn gs) n g hg
    obtain ⟨o1, o2, o3, o4⟩ := pass1_row_inv dag rn.1 st hst0row
      (sortedByKey key rn.2) [] st 1 (st1, a, b)
      (fun n _ => ⟨rfl, rfl⟩) (fun m hm => absurd hm (List.not_mem_nil m))
      hLC hRS ht1
    have hmemrow : ∀ n, n ∈ sortedByKey key rn.2 ↔ n ∈ rn.2 :=
      fun n => (pySorted_perm _ rn.2).mem_iff
    have hfut' : ∀ p ∈ gs, ∀ n g, dictGet? st1.locations n = some g →
        g.row ≠ (p.1 : Int) := by
      intro p hp n g hg hrow
      by_cases hn : n ∈ sortedByKey key rn.2
      · obtain ⟨g', hg', _, hrow'⟩ := o2 n (by simpa using hn)
        rw [hg] at hg'
        injection hg' with hg'
        rw [← hg'] at hrow'
        rw [hrow'] at hrow
        have : rn.1 = p.1 := by exact_mod_cast hrow
        exact hkeys.1 (this ▸ List.mem_map_of_mem (·.1) hp)
      · have := (o1 n (by simpa using hn)).2
        rw [hg] at this
        exact hfut p (List.mem_cons_of_mem _ hp) n g this.symm hrow
    obtain ⟨f1, f2, f3⟩ := pass1_fold_inv dag key gs st1 out hkeys.2
      hfut' o3 o4 h
    refine ⟨f1, f2, ?_⟩
    intro n g hg
    rcases f3 n g hg with ⟨p, hp, hnp, hrow⟩ | hg'
    · exact Or.inl ⟨p, List.mem_cons_of_mem _ hp, hnp, hrow⟩
    · by_cases hn : n ∈ sortedByKey key rn.2
      · obtain ⟨g', hg'', _, hrow'⟩ := o2 n (by simpa using hn)
        rw [hg'] at hg''
        injection hg'' with hg''
        rw [← hg''] at hrow'
        exact Or.inl ⟨rn, List.mem_cons_self rn gs, (hmemrow n).mp hn, hrow'⟩
      · have := (o1 n (by simpa using hn)).2
        rw [hg'] at this
        exact Or.inr this.symm

theorem pass2Node_preserves (dag : DiGraph) (rtn : List (Nat × List Node))
    (hkeys : (rtn.map (·.1)).Nodup) (r : Nat) (ns0 : List Node)
    (hgrp : (r, ns0) ∈ rtn) (st : ColState) (mm : Option Int × Option Int)
    (node : Node) (hnode : node ∈ ns0)
    (hLG : LocGroups rtn st) (hLC : LocCols st) (hRS : RowSep st.locations)
    (out : ColState × Option Int × Option Int)
    (h : pass2Node dag r ns0 (st, mm) node = .ok out) :
    LocGroups rtn out.1 ∧ LocCols out.1 ∧ RowSep out.1.locations := by
  simp only [pass2Node] at h
  split_ifs at h with hdeg
  · -- skip branch: the state is unchanged
    obtain ⟨c0, _, h⟩ := except_bind_ok h
    simp only [pure, Except.pure] at h
    injection h with h
    rw [← h]
    exact ⟨hLG, hLC, hRS⟩
  · rcases hband : (dag.predecessors node).foldl (pass2Pred st.cols)
        (mm.1, mm.2) with ⟨omn, omx⟩
    rw [hband] at h
    cases omn with
    | none => cases omx <;> exact Except.noConfusion h
    | some minCol =>
      cases omx with
      | none => exact Except.noConfusion h
      | some maxCol =>
        obtain ⟨⟨ov, col⟩, hdo, h⟩ := except_bind_ok h
        simp only [pure, Except.pure] at h
        injection h with h
        rw [← h]
        have hclear := detect_overlap_spec node st.cols
          ((minCol + maxCol).fdiv 2) ns0 minCol ov col hdo
        have hsame : ∀ n2 g2, n2 ≠ node →
            dictGet? st.locations n2 = some g2 → g2.row = (r : Int) →
            col + 2 ≤ g2.col ∨ g2.col + 2 ≤ col := by
          intro n2 g2 hne2 hg2 hrow2
          obtain ⟨p, hp, hnp, hprow⟩ := hLG n2 g2 hg2
          have hpr : p.1 = r := by
            rw [hprow] at hrow2
            exact_mod_cast hrow2
          have hpeq : p = (r, ns0) := nodup_keys_eq hkeys hp hgrp hpr
          rw [hpeq] at hnp
          have hc2 := hLC n2 g2 hg2
          have := hclear n2 hnp hne2 g2.col hc2
          omega
        refine ⟨?_, ?_, ?_⟩
        · intro n g hg
          simp only at hg
          by_cases hnn : n = node
          · subst hnn
            rw [dictGet?_dictSet_self] at hg
            injection hg with hg
            exact ⟨(r, ns0), hgrp, hnode, by rw [← hg]⟩
          · rw [dictGet?_dictSet_ne _ _ _ _ hnn] at hg
            exact hLG n g hg
        · intro n g hg
          simp only at hg ⊢
          by_cases hnn : n = node
          · subst hnn
            rw [dictGet?_dictSet_self] at hg
            injection hg with hg
            rw [← hg]
            exact dictGet?_dictSet_self _ _ _
          · rw [dictGet?_dictSet_ne _ _ _ _ hnn] at hg
            rw [dictGet?_dictSet_ne _ _ _ _ hnn]
            exact hLC n g hg
        · intro n1 n2 g1 g2 hne hg1 hg2 hrow
          simp only at hg1 hg2
          by_cases h1n : n1 = node <;> by_cases h2n : n2 = node
          · exact absurd (h1n.trans h2n.symm) hne
          · subst h1n
            rw [dictGet?_dictSet_self] at hg1
            injection hg1 with hg1
            rw [dictGet?_dictSet_ne _ _ _ _ h2n] at hg2
            have := hsame n2 g2 h2n hg2 (by rw [← hrow, ← hg1])
            rw [← hg1]
            simp only
            omega
          · subst h2n
            rw [dictGet?_dictSet_self] at hg2
            injection hg2 with hg2
            rw [dictGet?_dictSet_ne _ _ _ _ h1n] at hg1
            have := hsame n1 g1 h1n hg1 (by rw [hrow, ← hg2])
            rw [← hg2]
            simp only
            omega
          · rw [dictGet?_dictSet_ne _ _ _ _ h1n] at hg1
            rw [dictGet?_dictSet_ne _ _ _ _ h2n] at hg2
            exact hRS n1 n2 g1 g2 hne hg1 hg2 hrow

theorem pass2_row_inv (dag : DiGraph) (rtn : List (Nat × List Node))
    (hkeys : (rtn.map (·.1)).Nodup) (r : Nat) (ns0 : List Node)
    (hgrp : (r, ns0) ∈ rtn) :
    ∀ (post : List Node), (∀ n ∈ post, n ∈ ns0) →
      ∀ (stm out : ColState × Option Int × Option Int),
      LocGroups rtn stm.1 → LocCols stm.1 → RowSep stm.1.locations →
      post.foldlM (pass2Node dag r ns0) stm = .ok out →
      LocGroups rtn out.1 ∧ LocCols out.1 ∧ RowSep out.1.locations
  | [], _, stm, out, hLG, hLC, hRS, h => by
    simp only [List.foldlM_nil, pure, Except.pure] at h
    injection h with h
    subst h
    exact ⟨hLG, hLC, hRS⟩
  | node :: post, hpost, stm, out, hLG, hLC, hRS, h => by
    rcases stm with ⟨st, mm⟩
    rw [List.foldlM_cons] at h
    obtain ⟨s1, hs1, h⟩ := except_bind_ok h
    obtain ⟨p1, p2, p3⟩ := pass2Node_preserves dag rtn hkeys r ns0 hgrp
      st mm node (hpost node (List.mem_cons_self node post)) hLG hLC hRS
      s1 hs1
    exact pass2_row_inv dag rtn hkeys r ns0 hgrp post
      (fun n hn => hpost n (List.mem_cons_of_mem _ hn)) s1 out p1 p2 p3 h

theorem pass2_fold_inv (dag : DiGraph) (rtn : List (Nat × List Node))
    (hkeys : (rtn.map (·.1)).Nodup) :
    ∀ (gs : List (Nat × List Node)), (∀ p ∈ gs, p ∈ rtn) →
      ∀ (st out : ColState),
      LocGroups rtn st → LocCols st → RowSep st.locations →
      gs.foldlM (fun st rn => do
          let (st, _, _) ← rn.2.foldlM (pass2Node dag rn.1 rn.2)
            (st, none, none)
          pure st) st = .ok out →
      LocGroups rtn out ∧ LocCols out ∧ RowSep out.locations
  | [], _, st, out, hLG, hLC, hRS, h => by
    simp only [List.foldlM_nil, pure, Except.pure] at h
    injection h with h
    subst h
    exact ⟨hLG, hLC, hRS⟩
  | rn :: gs, hsub, st, out, hLG, hLC, hRS, h => by
    rw [List.foldlM_cons] at h
    obtain ⟨s1, hs1, h⟩ := except_bind_ok h
    obtain ⟨t1, ht1, hp⟩ := except_bind_ok hs1
    rcases t1 with ⟨st1, a, b⟩
    simp only [pure, Except.pure] at hp
    injection hp with hp
    subst hp
    have hgrp : (rn.1, rn.2) ∈ rtn := hsub rn (List.mem_cons_self rn gs)
    obtain ⟨p1, p2, p3⟩ := pass2_row_inv dag rtn hkeys rn.1 rn.2 hgrp
      rn.2 (fun n hn => hn) (st, none, none) (st1, a, b) hLG hLC hRS ht1
    exact pass2_fold_inv dag rtn hkeys gs
      (fun p hp => hsub p (List.mem_cons_of_mem _ hp)) st1 out p1 p2 p3 h

/-- C5: after `assign_columns` (bottom-up seeding, then top-down alignment
with `detect_overlap`), two distinct nodes located on the same row are at
least two columns apart — provided the `row_to_nodes` row keys are distinct
(as the dict produced by `assign_rows` guarantees). -/
theorem C5_column_separation (dag : DiGraph) (rtn : List (Nat × List Node))
    (key : Node → Int) (hkeys : (rtn.map (·.1)).Nodup) :
    ∀ colSt maxCol, assign_columns dag rtn key = .ok (colSt, maxCol) →
      ∀ n1 n2 g1 g2, n1 ≠ n2 →
        dictGet? colSt.locations n1 = some g1 →
        dictGet? colSt.locations n2 = some g2 →
        g1.row = g2.row → 2 ≤ |g1.col - g2.col| := by
  intro colSt maxCol hok n1 n2 g1 g2 hne hg1 hg2 hrow
  simp only [assign_columns] at hok
  obtain ⟨st1, hp1, hok⟩ := except_bind_ok hok
  obtain ⟨st2, hp2, hfin⟩ := except_bind_ok hok
  simp only [pure, Except.pure] at hfin
  injection hfin with hfin
  have hst2 : colSt = st2 := by
    rw [Prod.mk.injEq] at hfin
    exact hfin.1.symm
  subst hst2
  simp only [pass1] at hp1
  have hkeysR : ((rtn.reverse.map (·.1)) : List Nat).Nodup := by
    rw [List.map_reverse]
    exact List.nodup_reverse.mpr hkeys
  obtain ⟨q1, q2, q3⟩ := pass1_fold_inv dag key rtn.reverse ⟨[], [], 0⟩ st1
    hkeysR
    (fun p _ n g hg => absurd hg (by simp [dictGet?]))
    (fun n g hg => absurd hg (by simp [dictGet?]))
    (fun a b ga gb _ hga => absurd hga (by simp [dictGet?]))
    hp1
  have hLG1 : LocGroups rtn st1 := by
    intro n g hg
    rcases q3 n g hg with ⟨p, hp, hnp, hrowp⟩ | hg'
    · exact ⟨p, List.mem_reverse.mp hp, hnp, hrowp⟩
    · exact absurd hg' (by simp [dictGet?])
  obtain ⟨w1, w2, w3⟩ := pass2_fold_inv dag rtn hkeys rtn
    (fun p hp => hp) st1 colSt hLG1 q1 q2 hp2
  have := w3 n1 n2 g1 g2 hne hg1 hg2 hrow
  rcases this with h | h
  · rw [abs_of_nonpos (by omega)]
    omega
  · rw [abs_of_nonneg (by omega)]
    omega

/-- Witness for C5: two nodes sharing row 0 land in columns 1 and 3. -/
theorem C5_column_separation_witness :
    2 ≤ |(⟨1, 0⟩ : GridIndex).col - (⟨3, 0⟩ : GridIndex).col| :=
  C5_column_separation ⟨[0, 1], []⟩ [(0, [0, 1])] (fun n => (n : Int))
    (by decide)
    ⟨[(0, 1), (1, 3)], [(0, ⟨1, 0⟩), (1, ⟨3, 0⟩)], 3⟩ 4 (by rfl)
    0 1 ⟨1, 0⟩ ⟨3, 0⟩ (by decide) (by rfl) (by rfl) rfl

end Ember
